import Mathlib

/-! Adjacent difference (thrust CUDA backend) and the high resolution clock.

A shallow embedding of `thrust/system/cuda/detail/adjacent_difference.inl` and of
`HighResolution/HighResClock.cpp`.

* Sequences (input, carry buffer, output) are lists; a read outside a sequence
  and a write outside the output are faults (`none`).
* Index arithmetic that can leave the naturals in the source (`end() - 1`,
  `block_index() - 1`, `input + (block_dimension() - 1)`) is done in `Int`.
* Indices are unbounded: the sequences are lists, far shorter than the range of
  the signed `index_type`, so `i + block_dimension()` does not wrap.
* The `while` loop of the closure is run with explicit fuel; running out of
  fuel is `none`.
* In the trace model input and output are separate storage (the out-of-place
  call): the input is not changed by the writes. The in-place call is modelled
  apart, phase by phase on one shared storage (`lane_phase`, `run_block`).
* The clock works on `long long` values: integers with two's complement
  wrap-around (`wrap64`) and a division that faults on a zero divisor.
* Every lane produces the trace of what it does: reads of the input and of the
  carry buffer, barriers, applications of the binary operator and writes.
* `default_decomposition`, the launch calculator (lanes per block) and
  `thrust::gather` are not part of the translated file: the decomposition and
  the lane count are parameters, `gather` is the usual indexed copy.
-/

namespace AdjacentDifference

/-- The half-open range `[begin, end)` of `index_range<index_type>`. -/
structure index_range where
  begin : Nat
  end_ : Nat
deriving DecidableEq

/-- What one lane, or the boundary extractor, does to memory and to the operator. -/
inductive Event (α : Type) where
  | readInput (idx : Int)
  | readCarry (idx : Int)
  | barrier
  | apply (x left : α)
  | write (idx : Nat) (v : α)
deriving DecidableEq

/-- Dereference of `base + idx`: a fault outside the sequence. -/
def readAt {α : Type} (xs : List α) (idx : Int) : Option α :=
  if 0 ≤ idx then xs[idx.toNat]? else none

/-- All results of a list of fallible steps, or a fault when one of them faults. -/
def allSome {β : Type} : List (Option β) → Option (List β)
  | [] => some []
  | none :: _ => none
  | some b :: rest =>
    match allSome rest with
    | none => none
    | some bs => some (b :: bs)

/-- The index map `last_index_in_each_interval::operator()`:
`decomp[interval].end() - 1`. -/
def last_index_in_each_interval (decomp : List index_range) (interval : Nat) : Option Int :=
  match decomp[interval]? with
  | none => none
  | some r => some ((r.end_ : Int) - 1)

/-- The indexed copy `thrust::gather(map_first, map_last, input, result)`. -/
def gather {α : Type} (map : List Int) (input : List α) : Option (List α) :=
  allSome (map.map (readAt input))

/-- The `while(base < range.end())` loop of `adjacent_difference_closure::operator()`
for one lane; `dim` is `context.block_dimension()`. -/
def closure_loop {α : Type} (input : List α) (binary_op : α → α → α)
    (range_end dim : Nat) : Nat → Nat → Nat → α → Option (List (Event α))
  | 0, base, _, _ => if base < range_end then none else some []
  | fuel + 1, base, i, next_left =>
    if base < range_end then
      let curr_left := next_left
      match (if i + dim < range_end then
              (readAt input ((i : Int) + (dim : Int) - 1)).map
                (fun v => (v, [Event.readInput ((i : Int) + (dim : Int) - 1)]))
            else some (next_left, [])) with
      | none => none
      | some (next_left1, prefetch) =>
        match (if i < range_end then
                (readAt input (i : Int)).map (fun x =>
                  if i = 0 then [Event.readInput (i : Int), Event.write i x]
                  else [Event.readInput (i : Int), Event.apply x curr_left,
                        Event.write i (binary_op x curr_left)])
              else some []) with
        | none => none
        | some commit =>
          match closure_loop input binary_op range_end dim fuel (base + dim) (i + dim)
              next_left1 with
          | none => none
          | some rest => some (prefetch ++ Event.barrier :: commit ++ rest)
    else some []

/-- One lane of `adjacent_difference_closure::operator()`:
block `block_index`, lane `thread_index`, `dim` lanes per block. -/
def closure_lane {α : Type} (input input_copy : List α) (binary_op : α → α → α)
    (decomp : List index_range) (dim fuel block_index thread_index : Nat) :
    Option (List (Event α)) :=
  match decomp[block_index]? with
  | none => none
  | some range =>
    match (if block_index = 0 then
            (readAt input 0).map (fun v => (v, [Event.readInput 0]))
          else
            (readAt input_copy ((block_index : Int) - 1)).map
              (fun v => (v, [Event.readCarry ((block_index : Int) - 1)]))) with
    | none => none
    | some (next_left0, seed) =>
      let base := range.begin
      let i := range.begin + thread_index
      match (if i < range.end_ ∧ thread_index > 0 then
              (readAt input ((i : Int) - 1)).map
                (fun v => (v, [Event.readInput ((i : Int) - 1)]))
            else some (next_left0, [])) with
      | none => none
      | some (next_left, prime) =>
        match closure_loop input binary_op range.end_ dim fuel base i next_left with
        | none => none
        | some body => some (seed ++ prime ++ body)

/-- All lanes of one block. -/
def closure_block {α : Type} (input input_copy : List α) (binary_op : α → α → α)
    (decomp : List index_range) (dim fuel block_index : Nat) :
    Option (List (List (Event α))) :=
  allSome ((List.range dim).map
    (closure_lane input input_copy binary_op decomp dim fuel block_index))

/-- The launch `launch_closure(exec, closure, decomp.size())`: one block per interval. -/
def launch_closure {α : Type} (input input_copy : List α) (binary_op : α → α → α)
    (decomp : List index_range) (dim fuel : Nat) :
    Option (List (List (List (Event α)))) :=
  allSome ((List.range decomp.length).map
    (closure_block input input_copy binary_op decomp dim fuel))

/-- The writes of a trace, in trace order. -/
def writesOf {α : Type} : List (Event α) → List (Nat × α)
  | [] => []
  | Event.write idx v :: rest => (idx, v) :: writesOf rest
  | _ :: rest => writesOf rest

/-- Writes applied to the output storage; a write outside the storage is a fault. -/
def applyWrites {α : Type} : List (Nat × α) → List α → Option (List α)
  | [], out => some out
  | (idx, v) :: rest, out =>
    if idx < out.length then applyWrites rest (out.set idx v) else none

/-- Everything a call of the entry point does and returns. -/
structure Outcome (α : Type) where
  /-- The returned iterator, as an offset from `result`. -/
  result_end : Nat
  /-- The input indices the gather reads. -/
  gathered : List Int
  /-- The carry buffer `temp`. -/
  temp : List α
  /-- The lane traces, per block and per lane. -/
  lanes : List (List (List (Event α)))
  /-- The output storage after the call. -/
  output : List α

/-- The entry point `adjacent_difference_detail::adjacent_difference`; `first` is the input
range `[first, last)`, `result` the output storage from `result` on, `decomp` the value of
`default_decomposition(last - first)`, `dim` the lanes per block of the launch. A decomposition
of size 0 asks for a temporary array of size `-1`, a fault. The writes of the lanes are applied
block by block and lane by lane; `adjacent_difference_spec` shows that any other order gives
the same storage. -/
def adjacent_difference {α : Type} (first : List α) (result : List α)
    (binary_op : α → α → α) (decomp : List index_range) (dim fuel : Nat) :
    Option (Outcome α) :=
  let n := first.length
  if n = 0 then
    some (Outcome.mk 0 [] [] [] result)
  else if decomp.length = 0 then none
  else
    match allSome ((List.range (decomp.length - 1)).map
        (last_index_in_each_interval decomp)) with
    | none => none
    | some idxs =>
      match gather idxs first with
      | none => none
      | some temp =>
        match launch_closure first temp binary_op decomp dim fuel with
        | none => none
        | some lanes =>
          match applyWrites (writesOf lanes.flatten.flatten) result with
          | none => none
          | some output =>
            some (Outcome.mk n idxs temp lanes output)

/-- The sequential definition of the spec: `out[0] = S[0]`, `out[i] = op(S[i], S[i-1])`. -/
def sequential_definition {α : Type} (S : List α) (op : α → α → α) (i : Nat) : Option α :=
  if i = 0 then S[0]?
  else
    match S[i]?, S[i - 1]? with
    | some x, some p => some (op x p)
    | _, _ => none

/-- Intervals that follow each other from `b` up to `N`, each with `begin ≤ end`. -/
def chain (N : Nat) : Nat → List index_range → Prop
  | b, [] => b = N
  | b, r :: rs => r.begin = b ∧ r.begin ≤ r.end_ ∧ chain N r.end_ rs

instance chain_decidable (N : Nat) : ∀ (b : Nat) (d : List index_range), Decidable (chain N b d)
  | b, [] => inferInstanceAs (Decidable (b = N))
  | _, r :: rs =>
    @instDecidableAnd _ _ _ (@instDecidableAnd _ _ _ (chain_decidable N r.end_ rs))

/-- The Interval invariant of the data model: at least one interval, every interval with
`begin ≤ end ≤ N`, and the intervals cover `[0, N)` in order without gap or overlap. -/
def interval_invariant (N : Nat) (decomp : List index_range) : Prop :=
  decomp ≠ [] ∧ chain N 0 decomp

instance interval_invariant_decidable (N : Nat) (decomp : List index_range) :
    Decidable (interval_invariant N decomp) :=
  inferInstanceAs (Decidable (_ ∧ _))

/-- A legal decomposition: the Interval invariant with no empty interval, which makes it a
partition of `[0, N)` into `1..N` intervals. -/
def legal (N : Nat) (decomp : List index_range) : Prop :=
  interval_invariant N decomp ∧ ∀ r ∈ decomp, r.begin < r.end_

instance legal_decidable (N : Nat) (decomp : List index_range) : Decidable (legal N decomp) :=
  inferInstanceAs (Decidable (_ ∧ _))

/-- What the gather needs of a decomposition: the Interval invariant and a first interval
that is not empty. -/
def seeded (N : Nat) (decomp : List index_range) : Prop :=
  interval_invariant N decomp ∧ ∀ r, decomp.head? = some r → r.begin < r.end_

/-- What an event of a block with interval `[lo, hi)` may be: input reads inside the input,
carry reads as `carryIdx` allows, the operator applied to an element and its left neighbour,
writes inside the interval with the value of the sequential definition. -/
def okEvent {α : Type} (input : List α) (op : α → α → α) (carryIdx : Int → Prop)
    (lo hi : Nat) : Event α → Prop
  | Event.readInput idx => 0 ≤ idx ∧ idx < input.length
  | Event.readCarry idx => carryIdx idx
  | Event.barrier => True
  | Event.apply x l => ∃ j, 0 < j ∧ input[j]? = some x ∧ input[j - 1]? = some l
  | Event.write j v => lo ≤ j ∧ j < hi ∧ sequential_definition input op j = some v

/-- The output indices a trace writes, in trace order. -/
def writeIdxs {α : Type} (tr : List (Event α)) : List Nat :=
  (writesOf tr).map Prod.fst

/-- The carry-buffer indices block `k` may read: `k - 1`, and only when `k` is not block 0. -/
def carryOf (k : Nat) (idx : Int) : Prop :=
  0 < k ∧ idx = (k : Int) - 1

/-- The trace of lane `t` of block `k`, empty when the lane faults. -/
def laneTrace {α : Type} (input input_copy : List α) (binary_op : α → α → α)
    (decomp : List index_range) (dim fuel k t : Nat) : List (Event α) :=
  (closure_lane input input_copy binary_op decomp dim fuel k t).getD []

/-- The traces of the lanes of block `k`. -/
def blockTrace {α : Type} (input input_copy : List α) (binary_op : α → α → α)
    (decomp : List index_range) (dim fuel k : Nat) : List (List (Event α)) :=
  (List.range dim).map (laneTrace input input_copy binary_op decomp dim fuel k)

/-- Modelled from the spec: the sequential fallback `thrust::adjacent_difference(thrust::seq, ...)`
that `workaround::sequential_path` calls is not among the translated sources; the spec describes
it as "a single-lane, in-order pass computing the same recurrence directly (equivalent to one
block covering the whole range with L=1)", so it is the block processor on the single interval
`[0, N)` with one lane. -/
def sequential_path {α : Type} (first : List α) (result : List α)
    (binary_op : α → α → α) (fuel : Nat) : Option (Outcome α) :=
  adjacent_difference first result binary_op [index_range.mk 0 first.length] 1 fuel

/-- The path `workaround::parallel_path`. -/
def parallel_path {α : Type} (first : List α) (result : List α)
    (binary_op : α → α → α) (decomp : List index_range) (dim fuel : Nat) :
    Option (Outcome α) :=
  adjacent_difference first result binary_op decomp dim fuel

/-- An access that stays inside its sequence: an input read or an output write at an index in
`[0, N)`, a carry-buffer read at an index in `[0, M - 1)`. -/
def inRange {α : Type} (N M : Nat) : Event α → Prop
  | Event.readInput idx => 0 ≤ idx ∧ idx < (N : Int)
  | Event.readCarry idx => 0 ≤ idx ∧ idx < (M : Int) - 1
  | Event.write j _ => j < N
  | Event.barrier => True
  | Event.apply _ _ => True

/-- No out-of-range access over a whole call: every index the gather of the boundary extractor
computes lies in `[0, N)`, the call completes, and every access of every lane of every block
stays inside its sequence. -/
def no_out_of_range {α : Type} (S result : List α) (op : α → α → α)
    (decomp : List index_range) (L fuel : Nat) : Prop :=
  (∀ (k : Nat) (idx : Int), k < decomp.length - 1 →
      last_index_in_each_interval decomp k = some idx → 0 ≤ idx ∧ idx < (S.length : Int)) ∧
  ∃ r, adjacent_difference S result op decomp L fuel = some r ∧
    (∀ idx ∈ r.gathered, 0 ≤ idx ∧ idx < (S.length : Int)) ∧
    r.lanes.length = decomp.length ∧
    ∀ blk ∈ r.lanes, blk.length = L ∧
      ∀ tr ∈ blk, ∀ ev ∈ tr, inRange S.length decomp.length ev

/-- The writes of one lane trace with their chunk iteration, counted as the number of barriers
the lane has passed (the writes of the first chunk carry 1); `c` is the count so far. -/
def chunkWrites {α : Type} : Nat → List (Event α) → List (Nat × Nat)
  | _, [] => []
  | c, Event.barrier :: rest => chunkWrites (c + 1) rest
  | c, Event.write idx _ :: rest => (c, idx) :: chunkWrites c rest
  | c, Event.readInput _ :: rest => chunkWrites c rest
  | c, Event.readCarry _ :: rest => chunkWrites c rest
  | c, Event.apply _ _ :: rest => chunkWrites c rest

/-- The writes of a whole launch, each as (block, lane, chunk iteration, output index). -/
def taggedWrites {α : Type} (lanes : List (List (List (Event α)))) :
    List (Nat × Nat × Nat × Nat) :=
  lanes.enum.flatMap (fun kb =>
    kb.2.enum.flatMap (fun tt =>
      (chunkWrites 0 tt.2).map (fun qi => (kb.1, tt.1, qi.1, qi.2))))

end AdjacentDifference

namespace HighResClock

/-- The value a 64-bit signed computation keeps of the exact result `x`: two's complement
wrap-around into `[-2^63, 2^63)`. -/
def wrap64 (x : Int) : Int :=
  (x + 9223372036854775808) % 18446744073709551616 - 9223372036854775808

/-- A value of the type `long long` (`rep`). -/
def isInt64 (x : Int) : Prop :=
  -9223372036854775808 ≤ x ∧ x < 9223372036854775808

instance isInt64_decidable (x : Int) : Decidable (isInt64 x) :=
  inferInstanceAs (Decidable (_ ∧ _))

/-- The denominator `period::den` of `std::nano`. -/
def period_den : Int := 1000000000

/-- Division of `long long` values: truncation toward zero; a zero divisor and
`INT64_MIN / -1` are faults. -/
def div64 (a b : Int) : Option Int :=
  if b = 0 then none
  else if a = -9223372036854775808 ∧ b = -1 then none
  else some (Int.tdiv a b)

/-- The timestamp of `HighResClock::now()`, in nanoseconds, as a function of the counter reading
`count.QuadPart` and of the value of `frequency.QuadPart` after the frequency query (whether
the query succeeded or not):
`count.QuadPart * static_cast<rep>(period::den) / g_Frequency`. -/
def now (count frequency : Int) : Option Int :=
  div64 (wrap64 (count * period_den)) frequency

/-- The duration `end - start` of two time points, a 64-bit subtraction. -/
def elapsed (start end_ : Int) : Int :=
  wrap64 (end_ - start)

/-- The count of `HighResClock::diffNano(start, end)`:
`duration_cast<nanoseconds>(end - start)`. -/
def diffNano (start end_ : Int) : Int :=
  elapsed start end_

/-- The count of `HighResClock::diffMilli(start, end)`:
`duration_cast<milliseconds>(end - start)`, a division by 1,000,000 truncated toward zero. -/
def diffMilli (start end_ : Int) : Int :=
  Int.tdiv (elapsed start end_) 1000000

end HighResClock

namespace AdjacentDifference

/-- One chunk iteration of the loop of a lane at index `i` with `next_left = nl`: the events
`pre` of the prefetch (step 2), the events `commit` of the write (step 4) and the value `nl1`
of `next_left` after the iteration. -/
def chunkStep {α : Type} (input : List α) (op : α → α → α) (e L i : Nat) (nl nl1 : α)
    (pre commit : List (Event α)) : Prop :=
  pre = (if i + L < e then [Event.readInput ((i : Int) + (L : Int) - 1)] else []) ∧
  (if i + L < e then readAt input ((i : Int) + (L : Int) - 1) = some nl1 else nl1 = nl) ∧
  (if i < e then
    ∃ x, input[i]? = some x ∧
      commit = (if i = 0 then [Event.readInput (i : Int), Event.write i x]
        else [Event.readInput (i : Int), Event.apply x nl, Event.write i (op x nl)])
  else commit = [])

/-- The number of barriers a lane trace passes. -/
def barriers {α : Type} : List (Event α) → Nat
  | [] => 0
  | Event.barrier :: rest => barriers rest + 1
  | Event.readInput _ :: rest => barriers rest
  | Event.readCarry _ :: rest => barriers rest
  | Event.apply _ _ :: rest => barriers rest
  | Event.write _ _ :: rest => barriers rest

/-- What a lane of block `k` does before its loop: the events `seed` of the priming of
`next_left` with value `nl0` (from `input[0]` for block 0, from the carry buffer otherwise),
the events `prime` of the read of the left neighbour by a lane other than lane 0 whose index is
inside the interval, and the value `nl` of `next_left` at the loop entry. -/
def laneStart {α : Type} (input input_copy : List α) (rg : index_range) (k t : Nat)
    (nl0 nl : α) (seed prime : List (Event α)) : Prop :=
  (if k = 0 then readAt input 0 = some nl0 ∧ seed = [Event.readInput 0]
   else readAt input_copy ((k : Int) - 1) = some nl0 ∧
      seed = [Event.readCarry ((k : Int) - 1)]) ∧
  (if rg.begin + t < rg.end_ ∧ t > 0 then
    readAt input (((rg.begin + t : Nat) : Int) - 1) = some nl ∧
      prime = [Event.readInput (((rg.begin + t : Nat) : Int) - 1)]
   else nl = nl0 ∧ prime = [])

/-- The part of `adjacent_difference_closure::operator()` after the priming of `next_left`
(from `index_type base = range.begin()` on), as a function of the primed value
`next_left0`. -/
def closure_lane_seeded {α : Type} (input : List α) (binary_op : α → α → α)
    (range : index_range) (dim fuel thread_index : Nat) (next_left0 : α) :
    Option (List (Event α)) :=
  let base := range.begin
  let i := range.begin + thread_index
  match (if i < range.end_ ∧ thread_index > 0 then
          (readAt input ((i : Int) - 1)).map
            (fun v => (v, [Event.readInput ((i : Int) - 1)]))
        else some (next_left0, [])) with
  | none => none
  | some (next_left, prime) =>
    match closure_loop input binary_op range.end_ dim fuel base i next_left with
    | none => none
    | some body => some (prime ++ body)

/-- The block processor alone: the launch over a given carry buffer, and the output storage
after the writes of its lanes. -/
def block_processor {α : Type} (first carry result : List α) (binary_op : α → α → α)
    (decomp : List index_range) (dim fuel : Nat) : Option (List α) :=
  match launch_closure first carry binary_op decomp dim fuel with
  | none => none
  | some lanes => applyWrites (writesOf lanes.flatten.flatten) result

/-- The events of a lane trace with their barrier-delimited phase: the number of barriers the
lane has passed before the event; `c` is the count at the start of the trace. -/
def phased {α : Type} : Nat → List (Event α) → List (Nat × Event α)
  | _, [] => []
  | c, Event.barrier :: rest => (c, Event.barrier) :: phased (c + 1) rest
  | c, Event.readInput idx :: rest => (c, Event.readInput idx) :: phased c rest
  | c, Event.readCarry idx :: rest => (c, Event.readCarry idx) :: phased c rest
  | c, Event.apply x l :: rest => (c, Event.apply x l) :: phased c rest
  | c, Event.write idx v :: rest => (c, Event.write idx v) :: phased c rest

/-- Where the loop of a lane that starts at index `i` in phase `c` can have an input read or a
write in phase `ph`: in chunk `q` the prefetch reads `i + q*L + L - 1` in phase `c + q`, and
the commit reads and writes `i + q*L` in phase `c + q + 1`. -/
def loopEventAt {α : Type} (e L i c ph : Nat) : Event α → Prop
  | Event.readInput p =>
    ∃ q, (ph = c + q ∧ p = ((i + q * L + L : Nat) : Int) - 1 ∧ i + q * L + L < e) ∨
      (ph = c + q + 1 ∧ p = ((i + q * L : Nat) : Int) ∧ i + q * L < e)
  | Event.write p _ => ∃ q, ph = c + q + 1 ∧ p = i + q * L ∧ p < e
  | Event.readCarry _ => True
  | Event.barrier => True
  | Event.apply _ _ => True

/-! The in-place call: output and input are the same storage `mem`. A lane runs one
barrier-delimited phase at a time against the storage as it is then. -/

/-- A write through `output + idx`; a fault outside the storage. -/
def writeAt {α : Type} (mem : List α) (idx : Nat) (v : α) : Option (List α) :=
  if idx < mem.length then some (mem.set idx v) else none

/-- Where a lane stands between two phases: not yet started, stopped at `context.barrier()`
with its local variables, or past its loop. -/
inductive Lane (α : Type) where
  | start
  | atBarrier (base i : Nat) (next_left curr_left : α)
  | finished

/-- A lane that has left its loop. -/
def Lane.isFinished {α : Type} : Lane α → Bool
  | Lane.finished => true
  | _ => false

/-- A lane that has a phase to run. -/
def Lane.isWaiting {α : Type} : Lane α → Bool
  | Lane.finished => false
  | _ => true

/-- From the loop test `while(base < range.end())` to the barrier: `curr_left = next_left` and
the prefetch of `next_left`. -/
def loop_head {α : Type} (mem : List α) (range_end dim base i : Nat) (next_left : α) :
    Option (Lane α) :=
  if base < range_end then
    if i + dim < range_end then
      match readAt mem ((i : Int) + (dim : Int) - 1) with
      | none => none
      | some v => some (Lane.atBarrier base i v next_left)
    else some (Lane.atBarrier base i next_left next_left)
  else some Lane.finished

/-- One phase of lane `t` of block `k` on the shared storage: from the entry of the closure, or
from the barrier (the commit of the chunk and the advance), to the next barrier or the end of
the loop. -/
def lane_phase {α : Type} (mem carry : List α) (binary_op : α → α → α)
    (range : index_range) (dim k t : Nat) : Lane α → Option (List α × Lane α)
  | Lane.start =>
    match (if k = 0 then readAt mem 0 else readAt carry ((k : Int) - 1)) with
    | none => none
    | some next_left0 =>
      match (if range.begin + t < range.end_ ∧ t > 0 then
              readAt mem (((range.begin + t : Nat) : Int) - 1)
            else some next_left0) with
      | none => none
      | some next_left =>
        match loop_head mem range.end_ dim range.begin (range.begin + t) next_left with
        | none => none
        | some st => some (mem, st)
  | Lane.atBarrier base i next_left curr_left =>
    match (if i < range.end_ then
            match readAt mem (i : Int) with
            | none => none
            | some x => writeAt mem i (if i = 0 then x else binary_op x curr_left)
          else some mem) with
    | none => none
    | some mem1 =>
      match loop_head mem1 range.end_ dim (base + dim) (i + dim) next_left with
      | none => none
      | some st => some (mem1, st)
  | Lane.finished => none

/-- One phase of a block: its lanes run their phase one after the other in the given order. -/
def run_phase {α : Type} (carry : List α) (binary_op : α → α → α) (range : index_range)
    (dim k : Nat) : List Nat → List α × List (Lane α) → Option (List α × List (Lane α))
  | [], s => some s
  | t :: order, (mem, lanes) =>
    match lanes[t]? with
    | none => none
    | some st =>
      match lane_phase mem carry binary_op range dim k t st with
      | none => none
      | some (mem1, st1) => run_phase carry binary_op range dim k order (mem1, lanes.set t st1)

/-- A block on the shared storage: phase after phase until every lane has left its loop;
`laneOrder ph` is the order in which the lanes run phase `ph`. Lanes of which some wait at the
barrier and others have left never get past it. -/
def run_block {α : Type} (carry : List α) (binary_op : α → α → α) (range : index_range)
    (dim k : Nat) (laneOrder : Nat → List Nat) :
    Nat → Nat → List α × List (Lane α) → Option (List α)
  | 0, _, (mem, lanes) => if lanes.all Lane.isFinished then some mem else none
  | fuel + 1, ph, (mem, lanes) =>
    if lanes.all Lane.isFinished then some mem
    else if lanes.all Lane.isWaiting then
      match run_phase carry binary_op range dim k (laneOrder ph) (mem, lanes) with
      | none => none
      | some s => run_block carry binary_op range dim k laneOrder fuel (ph + 1) s
    else none

/-- The blocks of the launch, run one after the other in the given order. -/
def run_blocks {α : Type} (carry : List α) (binary_op : α → α → α)
    (decomp : List index_range) (dim fuel : Nat) (laneOrder : Nat → Nat → List Nat) :
    List Nat → List α → Option (List α)
  | [], mem => some mem
  | k :: order, mem =>
    match decomp[k]? with
    | none => none
    | some range =>
      match run_block carry binary_op range dim k (laneOrder k) fuel 0
          (mem, List.replicate dim Lane.start) with
      | none => none
      | some mem1 => run_blocks carry binary_op decomp dim fuel laneOrder order mem1

/-- The entry point called with `result == first`: the carry buffer is gathered from the
storage, then the blocks run on it. The result is the carry buffer and the storage after the
call. -/
def adjacent_difference_inplace {α : Type} (first : List α) (binary_op : α → α → α)
    (decomp : List index_range) (dim fuel : Nat) (blockOrder : List Nat)
    (laneOrder : Nat → Nat → List Nat) : Option (List α × List α) :=
  if first.length = 0 then some ([], first)
  else if decomp.length = 0 then none
  else
    match allSome ((List.range (decomp.length - 1)).map
        (last_index_in_each_interval decomp)) with
    | none => none
    | some idxs =>
      match gather idxs first with
      | none => none
      | some temp =>
        match run_blocks temp binary_op decomp dim fuel laneOrder blockOrder first with
        | none => none
        | some mem => some (temp, mem)

/-- The local variables of lane `t`, stopped at the barrier of the chunk with base `B`, hold
the original values: `curr_left` is `S[B+t-1]` and `next_left` is `S[B+t+L-1]` where these are
used; past the interval the lane has left its loop. -/
def laneGood {α : Type} (S : List α) (e L B t : Nat) (st : Lane α) : Prop :=
  (B < e ∧ ∃ nl cl, st = Lane.atBarrier B (B + t) nl cl ∧
    (B + t < e → 0 < B + t → S[B + t - 1]? = some cl) ∧
    (B + t + L < e → S[B + t + L - 1]? = some nl)) ∨
  (¬ B < e ∧ st = Lane.finished)

/-- The storage while the lanes `pending` have still to commit the chunk with base `B` of the
block `[b, e)`: inside the block, the positions below `B` and those of the chunk whose lane has
committed hold the results `T`, the others the original values `S`; outside the block the
storage is `m0`. -/
def memPhase {α : Type} (S : List α) (T : Nat → Option α) (m0 : List α) (b e L B : Nat)
    (pending : List Nat) (mem : List α) : Prop :=
  mem.length = m0.length ∧
  ∀ p, mem[p]? =
    if b ≤ p ∧ p < e then
      (if p < B then T p
       else if p < B + L then (if p - B ∈ pending then S[p]? else T p)
       else S[p]?)
    else m0[p]?

/-! ## Fallible lists -/

theorem allSome_eq_some {β : Type} :
    ∀ (l : List (Option β)) (r : List β), allSome l = some r → l = r.map some
  | [], r, h => by
    simp only [allSome, Option.some.injEq] at h
    subst h; rfl
  | none :: _, r, h => by simp [allSome] at h
  | some b :: rest, r, h => by
    simp only [allSome] at h
    cases hr : allSome rest with
    | none => simp [hr] at h
    | some bs =>
      simp only [hr, Option.some.injEq] at h
      subst h
      simp [allSome_eq_some rest bs hr]

theorem allSome_map_some {β : Type} : ∀ (r : List β), allSome (r.map some) = some r
  | [] => rfl
  | b :: bs => by simp [allSome, allSome_map_some bs]

theorem allSome_map_of_forall {γ β : Type} (f : γ → Option β) (g : γ → β) :
    ∀ (l : List γ), (∀ x ∈ l, f x = some (g x)) → allSome (l.map f) = some (l.map g)
  | [], _ => rfl
  | x :: xs, h => by
    have hx : f x = some (g x) := h x (List.mem_cons_self _ _)
    have hxs := allSome_map_of_forall f g xs (fun y hy => h y (List.mem_cons_of_mem _ hy))
    simp [allSome, hx, hxs]

theorem allSome_map_exists {γ β : Type} (f : γ → Option β) :
    ∀ (l : List γ), (∀ x ∈ l, ∃ b, f x = some b) → ∃ r, allSome (l.map f) = some r
  | [], _ => ⟨[], rfl⟩
  | x :: xs, h => by
    obtain ⟨b, hb⟩ := h x (List.mem_cons_self _ _)
    obtain ⟨r, hr⟩ := allSome_map_exists f xs (fun y hy => h y (List.mem_cons_of_mem _ hy))
    exact ⟨b :: r, by simp [allSome, hb, hr]⟩

/-! ## Writes -/

theorem writesOf_append {α : Type} :
    ∀ (a b : List (Event α)), writesOf (a ++ b) = writesOf a ++ writesOf b
  | [], b => rfl
  | ev :: a, b => by
    cases ev <;> simp [writesOf, writesOf_append a b]

theorem writesOf_flatten {α : Type} :
    ∀ (l : List (List (Event α))), writesOf l.flatten = (l.map writesOf).flatten
  | [] => rfl
  | a :: l => by simp [writesOf_append, writesOf_flatten l]

theorem mem_writesOf {α : Type} :
    ∀ (tr : List (Event α)) (j : Nat) (v : α), (j, v) ∈ writesOf tr ↔ Event.write j v ∈ tr
  | [], j, v => by simp [writesOf]
  | ev :: tr, j, v => by
    cases ev <;> simp [writesOf, mem_writesOf tr j v]

theorem applyWrites_spec {α : Type} :
    ∀ (ws : List (Nat × α)) (out : List α), (∀ w ∈ ws, w.1 < out.length) →
      ∃ res, applyWrites ws out = some res ∧ res.length = out.length ∧
        (∀ i, i ∉ ws.map Prod.fst → res[i]? = out[i]?) ∧
        ((ws.map Prod.fst).Nodup → ∀ i v, (i, v) ∈ ws → res[i]? = some v)
  | [], out, _ => ⟨out, rfl, rfl, fun _ _ => rfl, fun _ i v h => by simp at h⟩
  | (j, w) :: rest, out, h => by
    have hj : j < out.length := h (j, w) (List.mem_cons_self _ _)
    obtain ⟨res, hres, hlen, hout, hin⟩ := applyWrites_spec rest (out.set j w) (by
      intro x hx
      simpa using h x (List.mem_cons_of_mem _ hx))
    refine ⟨res, by simp [applyWrites, hj, hres], by simpa using hlen, ?_, ?_⟩
    · intro i hi
      simp only [List.map_cons, List.mem_cons, not_or] at hi
      rw [hout i hi.2, List.getElem?_set_ne (Ne.symm hi.1)]
    · intro hnd i v hiv
      simp only [List.map_cons, List.nodup_cons] at hnd
      rcases List.mem_cons.1 hiv with heq | hmem
      · simp only [Prod.mk.injEq] at heq
        obtain ⟨rfl, rfl⟩ := heq
        rw [hout i hnd.1]
        simp [hj]
      · exact hin hnd.2 i v hmem

/-! ## One lane -/

theorem readAt_ofNat {α : Type} (xs : List α) (n : Nat) : readAt xs (n : Int) = xs[n]? := by
  simp [readAt]

theorem readAt_some {α : Type} (xs : List α) (idx : Int) (h0 : 0 ≤ idx)
    (h1 : idx < xs.length) : ∃ v, readAt xs idx = some v ∧ xs[idx.toNat]? = some v := by
  have hlt : idx.toNat < xs.length := by omega
  exact ⟨xs[idx.toNat], by simp [readAt, h0, hlt], by simp [hlt]⟩

theorem okEvent_mono {α : Type} (input : List α) (op : α → α → α) (carryIdx : Int → Prop)
    (lo lo1 hi : Nat) (h : lo ≤ lo1) (ev : Event α)
    (hev : okEvent input op carryIdx lo1 hi ev) : okEvent input op carryIdx lo hi ev := by
  cases ev with
  | write j v => exact ⟨le_trans h hev.1, hev.2⟩
  | readInput idx => exact hev
  | readCarry idx => exact hev
  | barrier => exact hev
  | apply x l => exact hev

theorem lane_index_step (L t base e j : Nat) (hL : 0 < L) (ht : t < L) :
    (base ≤ j ∧ j < e ∧ (j - base) % L = t) ↔
      ((base + t < e ∧ j = base + t) ∨
        (base + L ≤ j ∧ j < e ∧ (j - (base + L)) % L = t)) := by
  constructor
  · rintro ⟨h1, h2, h3⟩
    by_cases hlt : j - base < L
    · left
      rw [Nat.mod_eq_of_lt hlt] at h3
      omega
    · right
      have hsplit : j - base = (j - (base + L)) + L := by omega
      rw [hsplit, Nat.add_mod_right] at h3
      exact ⟨by omega, h2, h3⟩
  · rintro (⟨h1, h2⟩ | ⟨h1, h2, h3⟩)
    · refine ⟨by omega, by omega, ?_⟩
      have : j - base = t := by omega
      rw [this, Nat.mod_eq_of_lt ht]
    · refine ⟨by omega, h2, ?_⟩
      have hsplit : j - base = (j - (base + L)) + L := by omega
      rw [hsplit, Nat.add_mod_right]
      exact h3

theorem closure_loop_spec {α : Type} (input : List α) (op : α → α → α)
    (carryIdx : Int → Prop) (e L t : Nat) (hL : 0 < L) (ht : t < L)
    (he : e ≤ input.length) :
    ∀ (fuel base : Nat) (nl : α), e ≤ base + fuel * L →
      (base + t < e → 0 < base + t → input[base + t - 1]? = some nl) →
      ∃ tr, closure_loop input op e L fuel base (base + t) nl = some tr ∧
        (∀ ev ∈ tr, okEvent input op carryIdx base e ev) ∧
        (∀ j, (writeIdxs tr).count j =
          if base ≤ j ∧ j < e ∧ (j - base) % L = t then 1 else 0) := by
  intro fuel
  induction fuel with
  | zero =>
    intro base nl hfuel _
    have hb : ¬ base < e := by omega
    refine ⟨[], by simp [closure_loop, hb], by simp, ?_⟩
    intro j
    have : ¬ (base ≤ j ∧ j < e ∧ (j - base) % L = t) := by omega
    simp [writeIdxs, writesOf, this]
  | succ fuel ih =>
    intro base nl hfuel hnl
    by_cases hb : base < e
    · -- step 2: the prefetch
      obtain ⟨nl1, pre, hpre, hnl1, hpreOK, hpreW⟩ :
          ∃ nl1 pre,
            (if base + t + L < e then
              (readAt input (((base + t : Nat) : Int) + (L : Int) - 1)).map
                (fun v => (v, [Event.readInput (((base + t : Nat) : Int) + (L : Int) - 1)]))
            else some (nl, [])) = some (nl1, pre) ∧
            (base + t + L < e → input[base + t + L - 1]? = some nl1) ∧
            (∀ ev ∈ pre, okEvent input op carryIdx base e ev) ∧ writesOf pre = [] := by
        by_cases hp : base + t + L < e
        · obtain ⟨v, hv, hv2⟩ :=
            readAt_some input (((base + t : Nat) : Int) + (L : Int) - 1) (by omega) (by omega)
          refine ⟨v, [Event.readInput (((base + t : Nat) : Int) + (L : Int) - 1)],
            by simp only [if_pos hp, hv, Option.map_some'], ?_, ?_, rfl⟩
          · intro _
            have : (((base + t : Nat) : Int) + (L : Int) - 1).toNat = base + t + L - 1 := by
              omega
            rw [← this]; exact hv2
          · intro ev hev
            simp only [List.mem_singleton] at hev
            subst hev
            exact ⟨by omega, by omega⟩
        · exact ⟨nl, [], by simp [hp], fun h => absurd h hp, by simp, rfl⟩
      -- step 4: the commit
      obtain ⟨commit, hcommit, hcommitOK, hcommitW⟩ :
          ∃ commit,
            (if base + t < e then
              (readAt input ((base + t : Nat) : Int)).map (fun x =>
                if base + t = 0 then
                  [Event.readInput ((base + t : Nat) : Int), Event.write (base + t) x]
                else [Event.readInput ((base + t : Nat) : Int), Event.apply x nl,
                      Event.write (base + t) (op x nl)])
            else some []) = some commit ∧
            (∀ ev ∈ commit, okEvent input op carryIdx base e ev) ∧
            writeIdxs commit = if base + t < e then [base + t] else [] := by
        by_cases hi : base + t < e
        · have hlt : base + t < input.length := by omega
          have hx : input[base + t]? = some input[base + t] := by simp [hlt]
          by_cases h0 : base + t = 0
          · refine ⟨[Event.readInput ((base + t : Nat) : Int),
                Event.write (base + t) input[base + t]],
              by simp only [if_pos hi, readAt_ofNat, hx, Option.map_some', if_pos h0],
              ?_, by simp [writeIdxs, writesOf, hi]⟩
            intro ev hev
            simp only [List.mem_cons, List.mem_singleton, List.not_mem_nil, or_false] at hev
            rcases hev with rfl | rfl
            · exact ⟨by omega, by omega⟩
            · refine ⟨by omega, hi, ?_⟩
              simp only [sequential_definition, if_pos h0]
              rw [← hx]
              simp [h0]
          · refine ⟨[Event.readInput ((base + t : Nat) : Int), Event.apply input[base + t] nl,
                Event.write (base + t) (op input[base + t] nl)],
              by simp only [if_pos hi, readAt_ofNat, hx, Option.map_some', if_neg h0],
              ?_, by simp [writeIdxs, writesOf, hi]⟩
            have hleft := hnl hi (by omega)
            intro ev hev
            simp only [List.mem_cons, List.mem_singleton, List.not_mem_nil, or_false] at hev
            rcases hev with rfl | rfl | rfl
            · exact ⟨by omega, by omega⟩
            · exact ⟨base + t, by omega, hx, hleft⟩
            · refine ⟨by omega, hi, ?_⟩
              simp only [sequential_definition, if_neg h0, hx, hleft]
        · exact ⟨[], by simp [hi], by simp, by simp [hi, writeIdxs, writesOf]⟩
      -- the remaining chunks
      obtain ⟨rest, hrest, hrestOK, hrestW⟩ := ih (base + L) nl1
        (by rw [Nat.succ_mul] at hfuel; omega)
        (by
          intro h1 _
          have := hnl1 (by omega)
          have heq : base + L + t - 1 = base + t + L - 1 := by omega
          rw [heq]; exact this)
      have hidx : base + L + t = base + t + L := by omega
      rw [hidx] at hrest
      refine ⟨pre ++ Event.barrier :: commit ++ rest, ?_, ?_, ?_⟩
      · simp only [closure_loop, if_pos hb]
        rw [hpre]
        simp only []
        rw [hcommit]
        simp only []
        rw [hrest]
      · intro ev hev
        rw [List.mem_append, List.mem_append, List.mem_cons] at hev
        rcases hev with (hev | hev | hev) | hev
        · exact hpreOK ev hev
        · rw [hev]; trivial
        · exact hcommitOK ev hev
        · exact okEvent_mono input op carryIdx base (base + L) e (by omega) ev (hrestOK ev hev)
      · intro j
        have hsplit : writeIdxs (pre ++ Event.barrier :: commit ++ rest) =
            writeIdxs commit ++ writeIdxs rest := by
          have hbar : writesOf (Event.barrier :: commit) = writesOf commit := rfl
          simp only [writeIdxs, writesOf_append, hpreW, hbar, List.nil_append, List.map_append]
        rw [hsplit, List.count_append, hrestW j, hcommitW]
        have hstep := lane_index_step L t base e j hL ht
        by_cases hA : base ≤ j ∧ j < e ∧ (j - base) % L = t
        · rw [if_pos hA]
          rcases hstep.1 hA with ⟨h1, h2⟩ | h3
          · have hno : ¬ (base + L ≤ j ∧ j < e ∧ (j - (base + L)) % L = t) := by omega
            rw [if_pos h1, if_neg hno, h2]
            simp
          · have hne : j ≠ base + t := by omega
            rw [if_pos h3]
            by_cases hi : base + t < e
            · rw [if_pos hi]
              simp [List.count_cons, hne, Ne.symm hne]
            · rw [if_neg hi]; simp
        · rw [if_neg hA]
          have hno1 : ¬ (base + t < e ∧ j = base + t) := fun h => hA (hstep.2 (Or.inl h))
          have hno2 : ¬ (base + L ≤ j ∧ j < e ∧ (j - (base + L)) % L = t) :=
            fun h => hA (hstep.2 (Or.inr h))
          rw [if_neg hno2]
          by_cases hi : base + t < e
          · have hne : j ≠ base + t := fun h => hno1 ⟨hi, h⟩
            rw [if_pos hi]
            simp [List.count_cons, hne, Ne.symm hne]
          · rw [if_neg hi]; simp
    · refine ⟨[], by cases fuel <;> simp [closure_loop, hb], by simp, ?_⟩
      intro j
      have : ¬ (base ≤ j ∧ j < e ∧ (j - base) % L = t) := by omega
      simp [writeIdxs, writesOf, this]

/-! ## Decompositions -/

theorem chain_le {N : Nat} : ∀ (d : List index_range) (b : Nat), chain N b d → b ≤ N
  | [], b, h => le_of_eq h
  | r :: rs, b, h => by
    have := chain_le rs r.end_ h.2.2
    have h1 := h.1
    have h2 := h.2.1
    omega

theorem chain_getElem {N : Nat} :
    ∀ (d : List index_range) (b k : Nat) (r : index_range), chain N b d → d[k]? = some r →
      b ≤ r.begin ∧ r.begin ≤ r.end_ ∧ r.end_ ≤ N
  | [], b, k, r, _, hk => by simp at hk
  | r0 :: rs, b, 0, r, h, hk => by
    simp only [List.getElem?_cons_zero, Option.some.injEq] at hk
    subst hk
    exact ⟨le_of_eq h.1.symm, h.2.1, chain_le rs _ h.2.2⟩
  | r0 :: rs, b, k + 1, r, h, hk => by
    simp only [List.getElem?_cons_succ] at hk
    have := chain_getElem rs r0.end_ k r h.2.2 hk
    have h1 := h.1
    have h2 := h.2.1
    exact ⟨by omega, this.2⟩

theorem chain_succ {N : Nat} :
    ∀ (d : List index_range) (b k : Nat) (r r1 : index_range), chain N b d →
      d[k]? = some r → d[k + 1]? = some r1 → r1.begin = r.end_
  | [], b, k, r, r1, _, hk, _ => by simp at hk
  | r0 :: rs, b, 0, r, r1, h, hk, hk1 => by
    simp only [List.getElem?_cons_zero, Option.some.injEq] at hk
    subst hk
    simp only [List.getElem?_cons_succ] at hk1
    cases rs with
    | nil => simp at hk1
    | cons r2 rs =>
      simp only [List.getElem?_cons_zero, Option.some.injEq] at hk1
      subst hk1
      exact h.2.2.1
  | r0 :: rs, b, k + 1, r, r1, h, hk, hk1 => by
    simp only [List.getElem?_cons_succ] at hk hk1
    exact chain_succ rs r0.end_ k r r1 h.2.2 hk hk1

theorem chain_count {N : Nat} (j : Nat) :
    ∀ (d : List index_range) (b : Nat), chain N b d →
      (d.map (fun r => if r.begin ≤ j ∧ j < r.end_ then 1 else 0)).sum =
        if b ≤ j ∧ j < N then 1 else 0
  | [], b, h => by
    have hb : b = N := h
    have : ¬ (b ≤ j ∧ j < N) := by omega
    simp [this]
  | r :: rs, b, h => by
    have ih := chain_count j rs r.end_ h.2.2
    have hle := chain_le rs r.end_ h.2.2
    have h1 := h.1
    have h2 := h.2.1
    simp only [List.map_cons, List.sum_cons, ih]
    by_cases hA : r.begin ≤ j ∧ j < r.end_
    · have hB : ¬ (r.end_ ≤ j ∧ j < N) := by omega
      have hC : b ≤ j ∧ j < N := by omega
      simp [hA, hB, hC]
    · by_cases hB : r.end_ ≤ j ∧ j < N
      · have hC : b ≤ j ∧ j < N := by omega
        simp [hA, hB, hC]
      · have hC : ¬ (b ≤ j ∧ j < N) := by omega
        simp [hA, hB, hC]

theorem seeded_of_legal {N : Nat} {decomp : List index_range} (h : legal N decomp) :
    seeded N decomp := by
  refine ⟨h.1, fun r hr => h.2 r ?_⟩
  cases decomp with
  | nil => simp at hr
  | cons r0 rs =>
    simp only [List.head?_cons, Option.some.injEq] at hr
    subst hr
    exact List.mem_cons_self _ _

/-- Under the Interval invariant with a first interval that is not empty, every interval
but the first starts after index 0. -/
theorem seeded_begin_pos {N : Nat} {decomp : List index_range} (h : seeded N decomp)
    (k : Nat) (r : index_range) (hk : decomp[k + 1]? = some r) : 0 < r.begin := by
  obtain ⟨⟨_, hc⟩, hne⟩ := h
  cases decomp with
  | nil => simp at hk
  | cons r0 rs =>
    have h0 := hne r0 rfl
    simp only [List.getElem?_cons_succ] at hk
    have := chain_getElem rs r0.end_ k r hc.2.2 hk
    omega

theorem range_map_getElem? {β : Type} (d : List β) :
    (List.range d.length).map (fun k => d[k]?) = d.map some := by
  apply List.ext_getElem
  · simp
  · intro i h1 h2
    simp at h1
    simp [h1]

theorem sum_range_indicator (m : Nat) :
    ∀ (L : Nat), ((List.range L).map (fun t => if m = t then 1 else 0)).sum =
      if m < L then 1 else 0
  | 0 => by simp
  | L + 1 => by
    rw [List.range_succ, List.map_append, List.sum_append, sum_range_indicator m L]
    simp only [List.map_cons, List.map_nil, List.sum_cons, List.sum_nil]
    by_cases h1 : m < L
    · have h2 : m ≠ L := by omega
      have h3 : m < L + 1 := by omega
      simp [h1, h2, h3]
    · by_cases h2 : m = L
      · have h3 : m < L + 1 := by omega
        simp [h1, h2]
      · have h3 : ¬ m < L + 1 := by omega
        simp [h1, h2, h3]

theorem closure_lane_spec {α : Type} (input temp : List α) (op : α → α → α)
    (decomp : List index_range) (L fuel k t : Nat) (r : index_range)
    (hL : 0 < L) (ht : t < L) (hN : 0 < input.length)
    (hr : decomp[k]? = some r) (he : r.end_ ≤ input.length)
    (hfuel : r.end_ ≤ r.begin + fuel * L)
    (h0 : k = 0 → r.begin = 0)
    (hc : k ≠ 0 → 0 < r.begin ∧ ∃ c, temp[k - 1]? = some c ∧ input[r.begin - 1]? = some c) :
    ∃ tr, closure_lane input temp op decomp L fuel k t = some tr ∧
      (∀ ev ∈ tr, okEvent input op (carryOf k) r.begin r.end_ ev) ∧
      (∀ j, (writeIdxs tr).count j =
        if r.begin ≤ j ∧ j < r.end_ ∧ (j - r.begin) % L = t then 1 else 0) := by
  -- the seed of `next_left`
  obtain ⟨nl0, seed, hseed, hseedOK, hseedW, hnl0⟩ :
      ∃ nl0 seed,
        (if k = 0 then (readAt input 0).map (fun v => (v, [Event.readInput 0]))
         else (readAt temp ((k : Int) - 1)).map
            (fun v => (v, [Event.readCarry ((k : Int) - 1)]))) = some (nl0, seed) ∧
        (∀ ev ∈ seed, okEvent input op (carryOf k) r.begin r.end_ ev) ∧
        writesOf seed = [] ∧
        (0 < r.begin → input[r.begin - 1]? = some nl0) := by
    by_cases hk : k = 0
    · obtain ⟨v, hv, _⟩ := readAt_some input 0 (le_refl _) (by omega)
      refine ⟨v, [Event.readInput 0], by simp only [if_pos hk, hv, Option.map_some'],
        ?_, rfl, ?_⟩
      · intro ev hev
        simp only [List.mem_singleton] at hev
        subst hev
        exact ⟨le_refl _, by omega⟩
      · intro hpos
        have := h0 hk
        omega
    · obtain ⟨hpos, c, hc1, hc2⟩ := hc hk
      have hread : readAt temp ((k : Int) - 1) = some c := by
        have hkk : ((k : Int) - 1) = ((k - 1 : Nat) : Int) := by omega
        rw [hkk, readAt_ofNat]; exact hc1
      refine ⟨c, [Event.readCarry ((k : Int) - 1)],
        by simp only [if_neg hk, hread, Option.map_some'], ?_, rfl, fun _ => hc2⟩
      intro ev hev
      simp only [List.mem_singleton] at hev
      subst hev
      exact ⟨by omega, rfl⟩
  -- the left neighbour of a lane other than lane 0
  obtain ⟨nl, prime, hprime, hprimeOK, hprimeW, hnl⟩ :
      ∃ nl prime,
        (if r.begin + t < r.end_ ∧ t > 0 then
          (readAt input (((r.begin + t : Nat) : Int) - 1)).map
            (fun v => (v, [Event.readInput (((r.begin + t : Nat) : Int) - 1)]))
         else some (nl0, [])) = some (nl, prime) ∧
        (∀ ev ∈ prime, okEvent input op (carryOf k) r.begin r.end_ ev) ∧
        writesOf prime = [] ∧
        (r.begin + t < r.end_ → 0 < r.begin + t → input[r.begin + t - 1]? = some nl) := by
    by_cases hp : r.begin + t < r.end_ ∧ t > 0
    · obtain ⟨v, hv, hv2⟩ :=
        readAt_some input (((r.begin + t : Nat) : Int) - 1) (by omega) (by omega)
      refine ⟨v, [Event.readInput (((r.begin + t : Nat) : Int) - 1)],
        by simp only [if_pos hp, hv, Option.map_some'], ?_, rfl, ?_⟩
      · intro ev hev
        simp only [List.mem_singleton] at hev
        subst hev
        exact ⟨by omega, by omega⟩
      · intro _ _
        have : (((r.begin + t : Nat) : Int) - 1).toNat = r.begin + t - 1 := by omega
        rw [← this]; exact hv2
    · refine ⟨nl0, [], by simp only [if_neg hp], by simp, rfl, ?_⟩
      intro h1 h2
      have ht0 : t = 0 := by
        by_contra hne
        exact hp ⟨h1, Nat.pos_of_ne_zero hne⟩
      subst ht0
      exact hnl0 (by omega)
  obtain ⟨body, hbody, hbodyOK, hbodyW⟩ :=
    closure_loop_spec input op (carryOf k) r.end_ L t hL ht he fuel r.begin nl hfuel hnl
  refine ⟨seed ++ prime ++ body, ?_, ?_, ?_⟩
  · simp only [closure_lane, hr]
    rw [hseed]
    simp only []
    rw [hprime]
    simp only []
    rw [hbody]
  · intro ev hev
    rw [List.mem_append, List.mem_append] at hev
    rcases hev with (hev | hev) | hev
    · exact hseedOK ev hev
    · exact hprimeOK ev hev
    · exact hbodyOK ev hev
  · intro j
    have : writeIdxs (seed ++ prime ++ body) = writeIdxs body := by
      simp only [writeIdxs, writesOf_append, hseedW, hprimeW, List.nil_append]
    rw [this]
    exact hbodyW j

theorem allSome_map_getElem {γ β : Type} (f : γ → Option β) (l : List γ) (r : List β)
    (h : allSome (l.map f) = some r) :
    r.length = l.length ∧ ∀ (k : Nat) (x : γ), l[k]? = some x → f x = r[k]? := by
  have heq := allSome_eq_some _ _ h
  have hlen : r.length = l.length := by
    have := congrArg List.length heq
    simpa using this.symm
  refine ⟨hlen, ?_⟩
  intro k x hk
  have h1 := congrArg (fun (m : List (Option β)) => m[k]?) heq
  simp only [List.getElem?_map, hk, Option.map_some'] at h1
  cases hrk : r[k]? with
  | none => simp [hrk] at h1
  | some b =>
    simp only [hrk, Option.map_some', Option.some.injEq] at h1
    exact h1

theorem writeIdxs_flatten {α : Type} (l : List (List (Event α))) :
    writeIdxs l.flatten = (l.map writeIdxs).flatten := by
  simp only [writeIdxs, writesOf_flatten, List.map_flatten, List.map_map]
  rfl

theorem count_writeIdxs_flatten {α : Type} (l : List (List (Event α))) (j : Nat) :
    (writeIdxs l.flatten).count j = (l.map (fun tr => (writeIdxs tr).count j)).sum := by
  rw [writeIdxs_flatten, List.count_flatten, List.map_map]
  rfl

/-! ## One block, and the launch -/

theorem closure_block_spec {α : Type} (input temp : List α) (op : α → α → α)
    (decomp : List index_range) (L fuel k : Nat) (r : index_range)
    (hL : 0 < L) (hN : 0 < input.length)
    (hr : decomp[k]? = some r) (he : r.end_ ≤ input.length)
    (hfuel : r.end_ ≤ r.begin + fuel * L)
    (h0 : k = 0 → r.begin = 0)
    (hc : k ≠ 0 → 0 < r.begin ∧ ∃ c, temp[k - 1]? = some c ∧ input[r.begin - 1]? = some c) :
    closure_block input temp op decomp L fuel k =
        some (blockTrace input temp op decomp L fuel k) ∧
      (∀ t, t < L →
        closure_lane input temp op decomp L fuel k t =
            some (laneTrace input temp op decomp L fuel k t) ∧
          (∀ ev ∈ laneTrace input temp op decomp L fuel k t,
            okEvent input op (carryOf k) r.begin r.end_ ev) ∧
          (∀ j, (writeIdxs (laneTrace input temp op decomp L fuel k t)).count j =
            if r.begin ≤ j ∧ j < r.end_ ∧ (j - r.begin) % L = t then 1 else 0)) ∧
      (∀ j, (writeIdxs (blockTrace input temp op decomp L fuel k).flatten).count j =
        if r.begin ≤ j ∧ j < r.end_ then 1 else 0) := by
  have hlane : ∀ t, t < L →
      closure_lane input temp op decomp L fuel k t =
          some (laneTrace input temp op decomp L fuel k t) ∧
        (∀ ev ∈ laneTrace input temp op decomp L fuel k t,
          okEvent input op (carryOf k) r.begin r.end_ ev) ∧
        (∀ j, (writeIdxs (laneTrace input temp op decomp L fuel k t)).count j =
          if r.begin ≤ j ∧ j < r.end_ ∧ (j - r.begin) % L = t then 1 else 0) := by
    intro t ht
    obtain ⟨tr, htr, hok, hcnt⟩ :=
      closure_lane_spec input temp op decomp L fuel k t r hL ht hN hr he hfuel h0 hc
    have hlt : laneTrace input temp op decomp L fuel k t = tr := by
      simp [laneTrace, htr]
    rw [hlt]
    exact ⟨htr, hok, hcnt⟩
  refine ⟨?_, hlane, ?_⟩
  · unfold closure_block blockTrace
    apply allSome_map_of_forall
    intro t ht
    exact (hlane t (List.mem_range.1 ht)).1
  · intro j
    rw [count_writeIdxs_flatten]
    unfold blockTrace
    rw [List.map_map]
    by_cases hC : r.begin ≤ j ∧ j < r.end_
    · have hcongr : List.map ((fun tr => List.count j (writeIdxs tr)) ∘
            laneTrace input temp op decomp L fuel k) (List.range L) =
          List.map (fun t => if (j - r.begin) % L = t then 1 else 0) (List.range L) := by
        apply List.map_congr_left
        intro t ht
        have := (hlane t (List.mem_range.1 ht)).2.2 j
        simp only [Function.comp_apply, this]
        by_cases hm : (j - r.begin) % L = t
        · simp [hC, hm]
        · simp [hm]
      rw [hcongr, sum_range_indicator, if_pos hC, if_pos (Nat.mod_lt _ hL)]
    · have hcongr : List.map ((fun tr => List.count j (writeIdxs tr)) ∘
            laneTrace input temp op decomp L fuel k) (List.range L) =
          List.map (fun _ => 0) (List.range L) := by
        apply List.map_congr_left
        intro t ht
        have := (hlane t (List.mem_range.1 ht)).2.2 j
        simp only [Function.comp_apply, this]
        have hno : ¬ (r.begin ≤ j ∧ j < r.end_ ∧ (j - r.begin) % L = t) :=
          fun h => hC ⟨h.1, h.2.1⟩
        rw [if_neg hno]
      rw [hcongr, if_neg hC]
      simp

theorem writeIdxs_append {α : Type} (a b : List (Event α)) :
    writeIdxs (a ++ b) = writeIdxs a ++ writeIdxs b := by
  simp [writeIdxs, writesOf_append]

theorem count_writeIdxs_flatten_flatten {α : Type} (j : Nat) :
    ∀ (B : List (List (List (Event α)))),
      (writeIdxs B.flatten.flatten).count j =
        (B.map (fun blk => (writeIdxs blk.flatten).count j)).sum
  | [] => by simp [writeIdxs, writesOf]
  | blk :: B => by
    rw [List.flatten_cons, List.flatten_append, writeIdxs_append, List.count_append,
      count_writeIdxs_flatten_flatten j B]
    simp

theorem chain_head {N : Nat} (d : List index_range) (b : Nat) (r : index_range)
    (h : chain N b d) (hr : d[0]? = some r) : r.begin = b := by
  cases d with
  | nil => simp at hr
  | cons r0 rs =>
    simp only [List.getElem?_cons_zero, Option.some.injEq] at hr
    subst hr
    exact h.1

theorem launch_closure_spec {α : Type} (input temp : List α) (op : α → α → α)
    (decomp : List index_range) (L fuel : Nat)
    (hL : 0 < L) (hN : 0 < input.length) (hd : seeded input.length decomp)
    (hfuel : input.length ≤ fuel)
    (htemp : ∀ (k : Nat) (rg : index_range), decomp[k]? = some rg → k + 1 < decomp.length →
      temp[k]? = input[rg.end_ - 1]?) :
    launch_closure input temp op decomp L fuel =
        some ((List.range decomp.length).map (blockTrace input temp op decomp L fuel)) ∧
      (∀ (k t : Nat) (rg : index_range), decomp[k]? = some rg → t < L →
        closure_lane input temp op decomp L fuel k t =
            some (laneTrace input temp op decomp L fuel k t) ∧
          (∀ ev ∈ laneTrace input temp op decomp L fuel k t,
            okEvent input op (carryOf k) rg.begin rg.end_ ev) ∧
          (∀ j, (writeIdxs (laneTrace input temp op decomp L fuel k t)).count j =
            if rg.begin ≤ j ∧ j < rg.end_ ∧ (j - rg.begin) % L = t then 1 else 0)) ∧
      (∀ j, (writeIdxs ((List.range decomp.length).map
          (blockTrace input temp op decomp L fuel)).flatten.flatten).count j =
        if j < input.length then 1 else 0) := by
  have hchain := hd.1.2
  have hblock : ∀ (k : Nat) (rg : index_range), decomp[k]? = some rg →
      closure_block input temp op decomp L fuel k =
          some (blockTrace input temp op decomp L fuel k) ∧
        (∀ t, t < L →
          closure_lane input temp op decomp L fuel k t =
              some (laneTrace input temp op decomp L fuel k t) ∧
            (∀ ev ∈ laneTrace input temp op decomp L fuel k t,
              okEvent input op (carryOf k) rg.begin rg.end_ ev) ∧
            (∀ j, (writeIdxs (laneTrace input temp op decomp L fuel k t)).count j =
              if rg.begin ≤ j ∧ j < rg.end_ ∧ (j - rg.begin) % L = t then 1 else 0)) ∧
        (∀ j, (writeIdxs (blockTrace input temp op decomp L fuel k).flatten).count j =
          if rg.begin ≤ j ∧ j < rg.end_ then 1 else 0) := by
    intro k rg hrg
    have hb := chain_getElem decomp 0 k rg hchain hrg
    have hmul : fuel ≤ fuel * L := Nat.le_mul_of_pos_right fuel hL
    apply closure_block_spec input temp op decomp L fuel k rg hL hN hrg hb.2.2 (by omega)
    · intro hk
      subst hk
      exact chain_head decomp 0 rg hchain hrg
    · intro hk
      obtain ⟨k1, rfl⟩ := Nat.exists_eq_succ_of_ne_zero hk
      have hpos := seeded_begin_pos hd k1 rg hrg
      have hklt : k1 + 1 < decomp.length := by
        by_contra hcon
        have : decomp[k1 + 1]? = none := List.getElem?_eq_none (by omega)
        rw [this] at hrg
        exact Option.noConfusion hrg
      have hk1 : decomp[k1]? = some decomp[k1] := List.getElem?_eq_getElem (by omega)
      have hsucc := chain_succ decomp 0 k1 decomp[k1] rg hchain hk1 hrg
      have hlt : rg.begin - 1 < input.length := by omega
      refine ⟨hpos, input[rg.begin - 1], ?_, List.getElem?_eq_getElem hlt⟩
      have hpred : k1.succ - 1 = k1 := rfl
      rw [hpred, htemp k1 decomp[k1] hk1 hklt, ← hsucc]
      exact List.getElem?_eq_getElem hlt
  refine ⟨?_, fun k t rg hrg ht => (hblock k rg hrg).2.1 t ht, ?_⟩
  · unfold launch_closure
    apply allSome_map_of_forall
    intro k hk
    have hklt := List.mem_range.1 hk
    exact (hblock k decomp[k] (List.getElem?_eq_getElem hklt)).1
  · intro j
    rw [count_writeIdxs_flatten_flatten, List.map_map]
    have hcongr : List.map ((fun blk => List.count j (writeIdxs blk.flatten)) ∘
          blockTrace input temp op decomp L fuel) (List.range decomp.length) =
        List.map ((fun (o : Option index_range) =>
            match o with
            | some r => if r.begin ≤ j ∧ j < r.end_ then 1 else 0
            | none => 0) ∘ (fun k => decomp[k]?)) (List.range decomp.length) := by
      apply List.map_congr_left
      intro k hk
      have hklt := List.mem_range.1 hk
      have hget : decomp[k]? = some decomp[k] := List.getElem?_eq_getElem hklt
      simp only [Function.comp_apply, hget]
      exact (hblock k decomp[k] hget).2.2 j
    rw [hcongr, ← List.map_map, range_map_getElem?, List.map_map]
    have := chain_count j decomp 0 hchain
    simp only [Nat.zero_le, true_and] at this
    rw [← this]
    rfl

/-! ## The boundary extractor -/

theorem extractor_spec {α : Type} (first : List α) (decomp : List index_range)
    (hd : seeded first.length decomp) :
    ∃ idxs temp,
      allSome ((List.range (decomp.length - 1)).map (last_index_in_each_interval decomp)) =
          some idxs ∧
        gather idxs first = some temp ∧
        idxs.length = decomp.length - 1 ∧ temp.length = decomp.length - 1 ∧
        ∀ (k : Nat) (rg : index_range), decomp[k]? = some rg → k + 1 < decomp.length →
          0 < rg.end_ ∧ rg.end_ ≤ first.length ∧
            idxs[k]? = some ((rg.end_ : Int) - 1) ∧ temp[k]? = first[rg.end_ - 1]? := by
  have hchain := hd.1.2
  have hend : ∀ (k : Nat) (rg : index_range), decomp[k]? = some rg → k + 1 < decomp.length →
      0 < rg.end_ ∧ rg.end_ ≤ first.length := by
    intro k rg hrg hk
    have hk1 : decomp[k + 1]? = some decomp[k + 1] := List.getElem?_eq_getElem hk
    have h1 := chain_succ decomp 0 k rg decomp[k + 1] hchain hrg hk1
    have h2 := seeded_begin_pos hd k decomp[k + 1] hk1
    have h3 := chain_getElem decomp 0 k rg hchain hrg
    omega
  obtain ⟨idxs, hidxs⟩ := allSome_map_exists (last_index_in_each_interval decomp)
    (List.range (decomp.length - 1)) (by
      intro k hk
      have hklt := List.mem_range.1 hk
      have hget : decomp[k]? = some decomp[k] := List.getElem?_eq_getElem (by omega)
      exact ⟨(decomp[k].end_ : Int) - 1, by simp only [last_index_in_each_interval, hget]⟩)
  obtain ⟨hilen, higet⟩ := allSome_map_getElem _ _ _ hidxs
  rw [List.length_range] at hilen
  have hidx : ∀ (k : Nat) (rg : index_range), decomp[k]? = some rg → k + 1 < decomp.length →
      idxs[k]? = some ((rg.end_ : Int) - 1) := by
    intro k rg hrg hk
    have := higet k k (List.getElem?_range (by omega))
    rw [← this]
    simp only [last_index_in_each_interval, hrg]
  obtain ⟨temp, htemp⟩ := allSome_map_exists (readAt first) idxs (by
    intro x hx
    obtain ⟨k, hklt, hkx⟩ := List.getElem_of_mem hx
    have hget : decomp[k]? = some decomp[k] := List.getElem?_eq_getElem (by omega)
    have h1 := hidx k decomp[k] hget (by omega)
    rw [List.getElem?_eq_getElem hklt, hkx, Option.some.injEq] at h1
    have h2 := hend k decomp[k] hget (by omega)
    obtain ⟨v, hv, _⟩ := readAt_some first x (by omega) (by omega)
    exact ⟨v, hv⟩)
  obtain ⟨htlen, htget⟩ := allSome_map_getElem _ _ _ htemp
  refine ⟨idxs, temp, hidxs, htemp, hilen, by omega, ?_⟩
  intro k rg hrg hk
  have h2 := hend k rg hrg hk
  have h1 := hidx k rg hrg hk
  refine ⟨h2.1, h2.2, h1, ?_⟩
  have h3 := htget k _ h1
  rw [← h3]
  have hcast : ((rg.end_ : Int) - 1) = ((rg.end_ - 1 : Nat) : Int) := by omega
  rw [hcast, readAt_ofNat]

/-! ## The output -/

theorem applyWrites_char {α : Type} (N : Nat) (f : Nat → Option α)
    (ws : List (Nat × α)) (out : List α) (hN : N ≤ out.length)
    (hcount : ∀ j, (ws.map Prod.fst).count j = if j < N then 1 else 0)
    (hval : ∀ w ∈ ws, f w.1 = some w.2) :
    ∃ res, applyWrites ws out = some res ∧ res.length = out.length ∧
      ∀ i, res[i]? = if i < N then f i else out[i]? := by
  have hmem : ∀ j, j ∈ ws.map Prod.fst ↔ j < N := by
    intro j
    rw [← List.count_pos_iff, hcount j]
    by_cases h : j < N <;> simp [h]
  have hnd : (ws.map Prod.fst).Nodup := by
    rw [List.nodup_iff_count_le_one]
    intro j
    rw [hcount j]
    by_cases h : j < N <;> simp [h]
  obtain ⟨res, hres, hlen, hout, hin⟩ := applyWrites_spec ws out (by
    intro w hw
    have : w.1 < N := (hmem w.1).1 (List.mem_map_of_mem _ hw)
    omega)
  refine ⟨res, hres, hlen, ?_⟩
  intro i
  by_cases hi : i < N
  · rw [if_pos hi]
    obtain ⟨w, hw, hwi⟩ := List.mem_map.1 ((hmem i).2 hi)
    have h1 := hin hnd w.1 w.2 hw
    rw [← hwi, h1, hval w hw]
  · rw [if_neg hi]
    exact hout i (fun h => hi ((hmem i).1 h))

/-! ## The entry point -/

theorem seeded_length_pos {N : Nat} {decomp : List index_range} (h : seeded N decomp) :
    0 < decomp.length :=
  List.length_pos.2 h.1.1

/-- Every write of the launch carries the value of the sequential definition. -/
theorem launch_write_value {α : Type} (input temp : List α) (op : α → α → α)
    (decomp : List index_range) (L fuel : Nat)
    (hlane : ∀ (k t : Nat) (rg : index_range), decomp[k]? = some rg → t < L →
      ∀ ev ∈ laneTrace input temp op decomp L fuel k t,
        okEvent input op (carryOf k) rg.begin rg.end_ ev)
    (w : Nat × α)
    (hw : w ∈ writesOf ((List.range decomp.length).map
      (blockTrace input temp op decomp L fuel)).flatten.flatten) :
    sequential_definition input op w.1 = some w.2 := by
  have hev : Event.write w.1 w.2 ∈ ((List.range decomp.length).map
      (blockTrace input temp op decomp L fuel)).flatten.flatten :=
    (mem_writesOf _ w.1 w.2).1 hw
  rw [List.mem_flatten] at hev
  obtain ⟨tr, htr, hin⟩ := hev
  rw [List.mem_flatten] at htr
  obtain ⟨blk, hblk, htrb⟩ := htr
  obtain ⟨k, hk, rfl⟩ := List.mem_map.1 hblk
  obtain ⟨t, ht, rfl⟩ := List.mem_map.1 htrb
  have hklt := List.mem_range.1 hk
  have := hlane k t decomp[k] (List.getElem?_eq_getElem hklt) (List.mem_range.1 ht) _ hin
  exact this.2.2

theorem adjacent_difference_spec {α : Type} (first result : List α) (op : α → α → α)
    (decomp : List index_range) (L fuel : Nat)
    (hN : 0 < first.length) (hd : seeded first.length decomp) (hL : 0 < L)
    (hfuel : first.length ≤ fuel) (hres : first.length ≤ result.length) :
    ∃ idxs temp output,
      adjacent_difference first result op decomp L fuel =
          some (Outcome.mk first.length idxs temp
            ((List.range decomp.length).map (blockTrace first temp op decomp L fuel))
            output) ∧
        (idxs.length = decomp.length - 1 ∧ temp.length = decomp.length - 1 ∧
          ∀ (k : Nat) (rg : index_range), decomp[k]? = some rg → k + 1 < decomp.length →
            0 < rg.end_ ∧ rg.end_ ≤ first.length ∧
              idxs[k]? = some ((rg.end_ : Int) - 1) ∧ temp[k]? = first[rg.end_ - 1]?) ∧
        (∀ (k t : Nat) (rg : index_range), decomp[k]? = some rg → t < L →
          closure_lane first temp op decomp L fuel k t =
              some (laneTrace first temp op decomp L fuel k t) ∧
            (∀ ev ∈ laneTrace first temp op decomp L fuel k t,
              okEvent first op (carryOf k) rg.begin rg.end_ ev) ∧
            (∀ j, (writeIdxs (laneTrace first temp op decomp L fuel k t)).count j =
              if rg.begin ≤ j ∧ j < rg.end_ ∧ (j - rg.begin) % L = t then 1 else 0)) ∧
        (∀ j, (writeIdxs ((List.range decomp.length).map
            (blockTrace first temp op decomp L fuel)).flatten.flatten).count j =
          if j < first.length then 1 else 0) ∧
        (∀ ws : List (Nat × α),
          ws.Perm (writesOf ((List.range decomp.length).map
            (blockTrace first temp op decomp L fuel)).flatten.flatten) →
          applyWrites ws result = some output) ∧
        output.length = result.length ∧
        ∀ i, output[i]? = if i < first.length then sequential_definition first op i
          else result[i]? := by
  obtain ⟨idxs, temp, hidxs, htemp, hilen, htlen, hext⟩ := extractor_spec first decomp hd
  obtain ⟨hlaunch, hlane, hcount⟩ := launch_closure_spec first temp op decomp L fuel hL hN hd
    hfuel (fun k rg hrg hk => (hext k rg hrg hk).2.2.2)
  have hval := launch_write_value first temp op decomp L fuel
    (fun k t rg hrg ht => (hlane k t rg hrg ht).2.1)
  have hperm : ∀ ws : List (Nat × α),
      ws.Perm (writesOf ((List.range decomp.length).map
        (blockTrace first temp op decomp L fuel)).flatten.flatten) →
      ∃ res, applyWrites ws result = some res ∧ res.length = result.length ∧
        ∀ i, res[i]? = if i < first.length then sequential_definition first op i
          else result[i]? := by
    intro ws hws
    apply applyWrites_char first.length (sequential_definition first op) ws result hres
    · intro j
      rw [(hws.map Prod.fst).count_eq j]
      exact hcount j
    · intro w hw
      exact hval w (hws.mem_iff.1 hw)
  obtain ⟨output, hout, holen, hoget⟩ := hperm _ (List.Perm.refl _)
  refine ⟨idxs, temp, output, ?_, ⟨hilen, htlen, hext⟩, hlane, hcount, ?_, holen, hoget⟩
  · have hn : first.length ≠ 0 := by omega
    have hm : decomp.length ≠ 0 := by
      have := seeded_length_pos hd
      omega
    simp only [adjacent_difference, if_neg hn, if_neg hm, hidxs, htemp, hlaunch, hout]
  · intro ws hws
    obtain ⟨res, hres1, hrlen, hrget⟩ := hperm ws hws
    rw [hres1]
    congr 1
    apply List.ext_getElem?
    intro i
    rw [hrget i, hoget i]

theorem chain_length_le {N : Nat} :
    ∀ (d : List index_range) (b : Nat), chain N b d → (∀ r ∈ d, r.begin < r.end_) →
      b + d.length ≤ N
  | [], b, h, _ => le_of_eq h
  | r :: rs, b, h, hne => by
    have ih := chain_length_le rs r.end_ h.2.2 (fun x hx => hne x (List.mem_cons_of_mem _ hx))
    have h1 := h.1
    have h2 := hne r (List.mem_cons_self _ _)
    simp only [List.length_cons]
    omega

theorem legal_length {N : Nat} {decomp : List index_range} (h : legal N decomp) :
    1 ≤ decomp.length ∧ decomp.length ≤ N := by
  have h1 := seeded_length_pos (seeded_of_legal h)
  have h2 := chain_length_le decomp 0 h.1.2 h.2
  omega

theorem sequential_definition_pos {α : Type} (S : List α) (op : α → α → α) (i : Nat)
    (h0 : 0 < i) (hi : i < S.length) :
    ∃ x p, S[i]? = some x ∧ S[i - 1]? = some p ∧
      sequential_definition S op i = some (op x p) := by
  have h1 : S[i]? = some S[i] := List.getElem?_eq_getElem hi
  have h2 : S[i - 1]? = some (S[i - 1]) := List.getElem?_eq_getElem (by omega)
  refine ⟨_, _, h1, h2, ?_⟩
  have hne : i ≠ 0 := by omega
  simp only [sequential_definition, if_neg hne, h1, h2]

/-! ## Properties of the specification -/

/-- C1, definition equivalence: for every non-empty input `S`, every binary operator, every
legal decomposition of `[0, N)` (it has `1 ≤ M ≤ N` intervals) and every lane count `L ≥ 1`,
the entry point, given enough fuel and an output storage of at least `N` cells, returns an
output with `out[0] = S[0]` and `out[i] = op (S[i]) (S[i-1])` for every `0 < i < N`; the same
output results in whatever order the writes of the lanes land. -/
theorem definition_equivalence {α : Type} (S result : List α) (op : α → α → α)
    (decomp : List index_range) (L fuel : Nat)
    (hS : S ≠ []) (hd : legal S.length decomp) (hL : 1 ≤ L)
    (hfuel : S.length ≤ fuel) (hres : S.length ≤ result.length) :
    1 ≤ decomp.length ∧ decomp.length ≤ S.length ∧
    ∃ r, adjacent_difference S result op decomp L fuel = some r ∧
      r.output[0]? = S[0]? ∧
      (∀ i, 0 < i → i < S.length →
        ∃ x p, S[i]? = some x ∧ S[i - 1]? = some p ∧ r.output[i]? = some (op x p)) ∧
      ∀ ws : List (Nat × α), ws.Perm (writesOf r.lanes.flatten.flatten) →
        applyWrites ws result = some r.output := by
  have hN : 0 < S.length := List.length_pos.2 hS
  obtain ⟨idxs, temp, output, hrun, _, _, _, hperm, _, hget⟩ :=
    adjacent_difference_spec S result op decomp L fuel hN (seeded_of_legal hd) hL hfuel hres
  refine ⟨(legal_length hd).1, (legal_length hd).2, _, hrun, ?_, ?_, hperm⟩
  · have := hget 0
    rw [if_pos hN] at this
    simpa [sequential_definition] using this
  · intro i h0 hi
    obtain ⟨x, p, hx, hp, hseq⟩ := sequential_definition_pos S op i h0 hi
    refine ⟨x, p, hx, hp, ?_⟩
    have := hget i
    rw [if_pos hi, hseq] at this
    exact this

theorem definition_equivalence_witness :
    1 ≤ [index_range.mk 0 2, index_range.mk 2 3].length ∧
    [index_range.mk 0 2, index_range.mk 2 3].length ≤ [(10 : Int), 20, 30].length ∧
    ∃ r, adjacent_difference [(10 : Int), 20, 30] [0, 0, 0] (fun a b => a - b)
        [index_range.mk 0 2, index_range.mk 2 3] 2 3 = some r ∧
      r.output[0]? = [(10 : Int), 20, 30][0]? ∧
      (∀ i, 0 < i → i < [(10 : Int), 20, 30].length →
        ∃ x p, [(10 : Int), 20, 30][i]? = some x ∧ [(10 : Int), 20, 30][i - 1]? = some p ∧
          r.output[i]? = some (x - p)) ∧
      ∀ ws : List (Nat × Int), ws.Perm (writesOf r.lanes.flatten.flatten) →
        applyWrites ws [0, 0, 0] = some r.output :=
  definition_equivalence [(10 : Int), 20, 30] [0, 0, 0] (fun a b => a - b)
    [index_range.mk 0 2, index_range.mk 2 3] 2 3 (by decide) (by decide) (by decide)
    (by decide) (by decide)

theorem seeded_single (N : Nat) (hN : 0 < N) : seeded N [index_range.mk 0 N] := by
  refine ⟨⟨by simp, rfl, Nat.zero_le _, rfl⟩, ?_⟩
  intro r hr
  simp only [List.head?_cons, Option.some.injEq] at hr
  subst hr
  exact hN

/-- C2, fallback equivalence: for every non-empty input, every operator, every legal
decomposition and every lane count `L ≥ 1`, the parallel path and the sequential fallback (one
block over `[0, N)` with one lane) both return, with the same output storage, index for index,
and the same end position. -/
theorem fallback_equivalence {α : Type} (S result : List α) (op : α → α → α)
    (decomp : List index_range) (L fuel : Nat)
    (hS : S ≠ []) (hd : legal S.length decomp) (hL : 1 ≤ L)
    (hfuel : S.length ≤ fuel) (hres : S.length ≤ result.length) :
    ∃ p s, parallel_path S result op decomp L fuel = some p ∧
      sequential_path S result op fuel = some s ∧
      p.output = s.output ∧ p.result_end = s.result_end := by
  have hN : 0 < S.length := List.length_pos.2 hS
  obtain ⟨_, _, out1, hrun1, _, _, _, _, _, hget1⟩ :=
    adjacent_difference_spec S result op decomp L fuel hN (seeded_of_legal hd) hL hfuel hres
  obtain ⟨_, _, out2, hrun2, _, _, _, _, _, hget2⟩ :=
    adjacent_difference_spec S result op [index_range.mk 0 S.length] 1 fuel hN
      (seeded_single S.length hN) Nat.one_pos hfuel hres
  refine ⟨_, _, hrun1, hrun2, ?_, rfl⟩
  apply List.ext_getElem?
  intro i
  show out1[i]? = out2[i]?
  rw [hget1 i, hget2 i]

theorem fallback_equivalence_witness :
    ∃ p s, parallel_path [(5 : Int), 7, 4, 9] [0, 0, 0, 0] (fun a b => a - 2 * b)
        [index_range.mk 0 1, index_range.mk 1 4] 2 4 = some p ∧
      sequential_path [(5 : Int), 7, 4, 9] [0, 0, 0, 0] (fun a b => a - 2 * b) 4 = some s ∧
      p.output = s.output ∧ p.result_end = s.result_end :=
  fallback_equivalence [(5 : Int), 7, 4, 9] [0, 0, 0, 0] (fun a b => a - 2 * b)
    [index_range.mk 0 1, index_range.mk 1 4] 2 4 (by decide) (by decide) (by decide)
    (by decide) (by decide)

/-- C3, boundary extractor contract: for every input of length `N > 0` and every decomposition
with `M` intervals, whenever the entry point completes the carry buffer it built has length
`M - 1` and its entry `k` is `input[decomp[k].end - 1]` for every `k < M - 1`; and the entry
point does complete for every legal decomposition and lane count `L ≥ 1` (given enough fuel
and `N` output cells). -/
theorem boundary_extractor_contract {α : Type} (S result : List α) (op : α → α → α)
    (decomp : List index_range) (L fuel : Nat) (hS : S ≠ []) :
    (∀ r, adjacent_difference S result op decomp L fuel = some r →
      r.temp.length = decomp.length - 1 ∧
      ∀ k, k < decomp.length - 1 →
        ∃ rg v, decomp[k]? = some rg ∧ 0 < rg.end_ ∧
          S[rg.end_ - 1]? = some v ∧ r.temp[k]? = some v) ∧
    (legal S.length decomp → 1 ≤ L → S.length ≤ fuel → S.length ≤ result.length →
      ∃ r, adjacent_difference S result op decomp L fuel = some r) := by
  have hN : 0 < S.length := List.length_pos.2 hS
  constructor
  · intro r hr
    have hn : S.length ≠ 0 := by omega
    unfold adjacent_difference at hr
    simp only [if_neg hn] at hr
    split at hr
    · exact Option.noConfusion hr
    · split at hr
      · exact Option.noConfusion hr
      · rename_i idxs hidxs
        split at hr
        · exact Option.noConfusion hr
        · rename_i temp htemp
          split at hr
          · exact Option.noConfusion hr
          · split at hr
            · exact Option.noConfusion hr
            · simp only [Option.some.injEq] at hr
              subst hr
              obtain ⟨hilen, higet⟩ := allSome_map_getElem _ _ _ hidxs
              obtain ⟨htlen, htget⟩ := allSome_map_getElem _ _ _ htemp
              rw [List.length_range] at hilen
              refine ⟨by simp only; omega, ?_⟩
              intro k hk
              have hget : decomp[k]? = some decomp[k] := List.getElem?_eq_getElem (by omega)
              have h1 := higet k k (List.getElem?_range hk)
              simp only [last_index_in_each_interval, hget] at h1
              have h2 := htget k _ h1.symm
              have hklt : k < temp.length := by omega
              rw [List.getElem?_eq_getElem hklt] at h2
              have h3 : 0 ≤ (decomp[k].end_ : Int) - 1 := by
                by_contra hneg
                simp [readAt, hneg] at h2
              refine ⟨decomp[k], temp[k], hget, by omega, ?_, List.getElem?_eq_getElem hklt⟩
              have hcast : ((decomp[k].end_ : Int) - 1) = ((decomp[k].end_ - 1 : Nat) : Int) := by
                omega
              rw [hcast, readAt_ofNat] at h2
              exact h2
  · intro hd hL hfuel hres
    obtain ⟨_, _, _, hrun, _⟩ :=
      adjacent_difference_spec S result op decomp L fuel hN (seeded_of_legal hd) hL hfuel hres
    exact ⟨_, hrun⟩

theorem boundary_extractor_contract_witness :
    ∃ r, adjacent_difference [(4 : Int), 8, 15, 16, 23] [0, 0, 0, 0, 0] (fun a b => a - b)
        [index_range.mk 0 2, index_range.mk 2 3, index_range.mk 3 5] 3 5 = some r ∧
      r.temp.length = 2 ∧ r.temp[0]? = some 8 ∧ r.temp[1]? = some 15 := by
  have h := boundary_extractor_contract [(4 : Int), 8, 15, 16, 23] [0, 0, 0, 0, 0]
    (fun a b => a - b) [index_range.mk 0 2, index_range.mk 2 3, index_range.mk 3 5] 3 5
    (by decide)
  obtain ⟨r, hr⟩ := h.2 (by decide) (by decide) (by decide) (by decide)
  obtain ⟨hlen, hent⟩ := h.1 r hr
  refine ⟨r, hr, hlen, ?_, ?_⟩
  · obtain ⟨rg, v, hrg, _, hv, ht⟩ := hent 0 (by decide)
    simp only [List.getElem?_cons_zero, Option.some.injEq] at hrg
    subst hrg
    rw [ht, ← hv]
    rfl
  · obtain ⟨rg, v, hrg, _, hv, ht⟩ := hent 1 (by decide)
    simp only [List.getElem?_cons_succ, List.getElem?_cons_zero, Option.some.injEq] at hrg
    subst hrg
    rw [ht, ← hv]
    rfl

theorem mem_blockTrace {α : Type} (input temp : List α) (op : α → α → α)
    (decomp : List index_range) (L fuel : Nat) (blk : List (List (Event α)))
    (tr : List (Event α))
    (hblk : blk ∈ (List.range decomp.length).map (blockTrace input temp op decomp L fuel))
    (htr : tr ∈ blk) :
    ∃ k t, k < decomp.length ∧ t < L ∧ blk = blockTrace input temp op decomp L fuel k ∧
      tr = laneTrace input temp op decomp L fuel k t := by
  obtain ⟨k, hk, rfl⟩ := List.mem_map.1 hblk
  obtain ⟨t, ht, rfl⟩ := List.mem_map.1 htr
  exact ⟨k, t, List.mem_range.1 hk, List.mem_range.1 ht, rfl, rfl⟩

/-- C4 as amended, no out-of-range access: for every `N > 0`, every decomposition that
satisfies the Interval invariant and whose first interval is not empty, every lane count
`L ≥ 1`, every block and every lane, each index the extractor and the block processor read
from the input lies in `[0, N)`, each index read from the carry buffer lies in `[0, M - 1)`,
and each index written to the output lies in `[0, N)`. -/
theorem no_out_of_range_access {α : Type} (S result : List α) (op : α → α → α)
    (decomp : List index_range) (L fuel : Nat)
    (hS : S ≠ []) (hd : interval_invariant S.length decomp)
    (hfirst : ∀ r, decomp.head? = some r → r.begin < r.end_) (hL : 1 ≤ L)
    (hfuel : S.length ≤ fuel) (hres : S.length ≤ result.length) :
    no_out_of_range S result op decomp L fuel := by
  have hN : 0 < S.length := List.length_pos.2 hS
  have hsd : seeded S.length decomp := ⟨hd, hfirst⟩
  obtain ⟨idxs, temp, output, hrun, ⟨hilen, htlen, hext⟩, hlane, _⟩ :=
    adjacent_difference_spec S result op decomp L fuel hN hsd hL hfuel hres
  have hgather : ∀ (k : Nat) (idx : Int), k < decomp.length - 1 →
      last_index_in_each_interval decomp k = some idx → 0 ≤ idx ∧ idx < (S.length : Int) := by
    intro k idx hk hidx
    have hget : decomp[k]? = some decomp[k] := List.getElem?_eq_getElem (by omega)
    have h1 := hext k decomp[k] hget (by omega)
    simp only [last_index_in_each_interval, hget, Option.some.injEq] at hidx
    omega
  refine ⟨hgather, _, hrun, ?_, by simp, ?_⟩
  · intro idx hidx
    have hmem : idx ∈ idxs := hidx
    obtain ⟨k, hklt, hkx⟩ := List.getElem_of_mem hmem
    have hget : decomp[k]? = some decomp[k] := List.getElem?_eq_getElem (by omega)
    have h1 := hext k decomp[k] hget (by omega)
    have h2 := h1.2.2.1
    rw [List.getElem?_eq_getElem hklt, hkx, Option.some.injEq] at h2
    omega
  · intro blk hblk
    refine ⟨?_, ?_⟩
    · obtain ⟨k, _, rfl⟩ := List.mem_map.1 hblk
      simp [blockTrace]
    · intro tr htr ev hev
      obtain ⟨k, t, hk, ht, _, rfl⟩ := mem_blockTrace S temp op decomp L fuel blk tr hblk htr
      have hget : decomp[k]? = some decomp[k] := List.getElem?_eq_getElem hk
      have hok := (hlane k t decomp[k] hget ht).2.1 ev hev
      have hb := chain_getElem decomp 0 k decomp[k] hd.2 hget
      cases ev with
      | readInput idx => exact hok
      | readCarry idx =>
        obtain ⟨h1, h2⟩ := hok
        exact ⟨by omega, by omega⟩
      | barrier => trivial
      | apply x l => trivial
      | write j v =>
        have : j < decomp[k].end_ := hok.2.1
        show j < S.length
        omega

theorem no_out_of_range_access_witness :
    no_out_of_range [(4 : Int), 8, 15, 16, 23] [0, 0, 0, 0, 0] (fun a b => a - b)
      [index_range.mk 0 2, index_range.mk 2 2, index_range.mk 2 5] 2 5 :=
  no_out_of_range_access [(4 : Int), 8, 15, 16, 23] [0, 0, 0, 0, 0] (fun a b => a - b)
    [index_range.mk 0 2, index_range.mk 2 2, index_range.mk 2 5] 2 5
    (by decide) (by decide) (by decide) (by decide) (by decide) (by decide)

/-- C4 as stated fails: the decomposition `[0,0), [0,1)` of `[0, 1)` satisfies the Interval
invariant (`begin ≤ end ≤ N`, the intervals cover `[0, 1)` in order without gap or overlap),
and with lane count 1 the gather of the boundary extractor computes the input index
`decomp[0].end - 1 = -1`, which is outside `[0, 1)`: the read of `input[-1]` is a fault. -/
theorem no_out_of_range_access_counterexample :
    interval_invariant [(7 : Int)].length [index_range.mk 0 0, index_range.mk 0 1] ∧
    last_index_in_each_interval [index_range.mk 0 0, index_range.mk 0 1] 0 = some (-1) ∧
    readAt [(7 : Int)] (-1) = none ∧
    adjacent_difference [(7 : Int)] [0] (fun a b => a - b)
      [index_range.mk 0 0, index_range.mk 0 1] 1 1 = none ∧
    ¬ no_out_of_range [(7 : Int)] [0] (fun a b => a - b)
      [index_range.mk 0 0, index_range.mk 0 1] 1 1 := by
  refine ⟨by decide, rfl, rfl, rfl, ?_⟩
  intro h
  have hidx : last_index_in_each_interval [index_range.mk 0 0, index_range.mk 0 1] 0 =
      some (-1) := rfl
  have := h.1 0 (-1) (by decide) hidx
  omega

theorem chunkWrites_snd {α : Type} :
    ∀ (tr : List (Event α)) (c : Nat), (chunkWrites c tr).map Prod.snd = writeIdxs tr
  | [], c => rfl
  | ev :: tr, c => by
    cases ev <;> simp [chunkWrites, writeIdxs, writesOf] <;>
      exact chunkWrites_snd tr _

theorem mem_chunkWrites {α : Type} :
    ∀ (tr : List (Event α)) (c q i : Nat), (q, i) ∈ chunkWrites c tr →
      ∃ v, Event.write i v ∈ tr
  | [], c, q, i, h => by simp [chunkWrites] at h
  | ev :: tr, c, q, i, h => by
    cases ev with
    | write j v =>
      simp only [chunkWrites, List.mem_cons, Prod.mk.injEq] at h
      rcases h with ⟨_, rfl⟩ | h
      · exact ⟨v, List.mem_cons_self _ _⟩
      · obtain ⟨v1, hv1⟩ := mem_chunkWrites tr c q i h
        exact ⟨v1, List.mem_cons_of_mem _ hv1⟩
    | barrier =>
      obtain ⟨v1, hv1⟩ := mem_chunkWrites tr (c + 1) q i h
      exact ⟨v1, List.mem_cons_of_mem _ hv1⟩
    | readInput idx =>
      obtain ⟨v1, hv1⟩ := mem_chunkWrites tr c q i h
      exact ⟨v1, List.mem_cons_of_mem _ hv1⟩
    | readCarry idx =>
      obtain ⟨v1, hv1⟩ := mem_chunkWrites tr c q i h
      exact ⟨v1, List.mem_cons_of_mem _ hv1⟩
    | apply x l =>
      obtain ⟨v1, hv1⟩ := mem_chunkWrites tr c q i h
      exact ⟨v1, List.mem_cons_of_mem _ hv1⟩

theorem enum_flatMap_snd {β γ : Type} (g : β → List γ) (l : List β) :
    l.enum.flatMap (fun p => g p.2) = l.flatMap g := by
  have h : l.flatMap g = (l.enum.map Prod.snd).flatMap g := by rw [List.enum_map_snd]
  rw [h, List.flatMap_map]

theorem taggedWrites_idx {α : Type} (lanes : List (List (List (Event α)))) :
    (taggedWrites lanes).map (fun w => w.2.2.2) = writeIdxs lanes.flatten.flatten := by
  unfold taggedWrites
  rw [List.map_flatMap]
  have hinner : ∀ kb : Nat × List (List (Event α)),
      List.map (fun (w : Nat × Nat × Nat × Nat) => w.2.2.2)
        (kb.2.enum.flatMap (fun tt =>
          (chunkWrites 0 tt.2).map (fun qi => (kb.1, tt.1, qi.1, qi.2)))) =
      writeIdxs kb.2.flatten := by
    intro kb
    rw [List.map_flatMap]
    have hlane : ∀ tt : Nat × List (Event α),
        List.map (fun (w : Nat × Nat × Nat × Nat) => w.2.2.2)
          ((chunkWrites 0 tt.2).map (fun qi => (kb.1, tt.1, qi.1, qi.2))) =
        writeIdxs tt.2 := by
      intro tt
      rw [List.map_map, ← chunkWrites_snd tt.2 0]
      rfl
    simp only [hlane]
    rw [enum_flatMap_snd writeIdxs kb.2, writeIdxs_flatten, List.flatMap_def]
  simp only [hinner]
  rw [enum_flatMap_snd (fun blk => writeIdxs blk.flatten) lanes]
  induction lanes with
  | nil => rfl
  | cons blk rest ih =>
    rw [List.flatMap_cons, ih, List.flatten_cons, List.flatten_append, writeIdxs_append]

theorem mem_taggedWrites {α : Type} (lanes : List (List (List (Event α))))
    (w : Nat × Nat × Nat × Nat) (hw : w ∈ taggedWrites lanes) :
    ∃ blk tr v, lanes[w.1]? = some blk ∧ blk[w.2.1]? = some tr ∧
      Event.write w.2.2.2 v ∈ tr := by
  unfold taggedWrites at hw
  rw [List.mem_flatMap] at hw
  obtain ⟨kb, hkb, hw⟩ := hw
  rw [List.mem_flatMap] at hw
  obtain ⟨tt, htt, hw⟩ := hw
  rw [List.mem_map] at hw
  obtain ⟨qi, hqi, rfl⟩ := hw
  obtain ⟨v, hv⟩ := mem_chunkWrites tt.2 0 qi.1 qi.2 hqi
  exact ⟨kb.2, tt.2, v, List.mem_enum_iff_getElem?.1 hkb, List.mem_enum_iff_getElem?.1 htt, hv⟩

theorem range_map_getElem?_some {β : Type} (f : Nat → β) (M k : Nat) (b : β)
    (h : ((List.range M).map f)[k]? = some b) : k < M ∧ b = f k := by
  by_cases hk : k < M
  · rw [List.getElem?_map, List.getElem?_range hk] at h
    simp only [Option.map_some', Option.some.injEq] at h
    exact ⟨hk, h.symm⟩
  · rw [List.getElem?_eq_none (by simpa using hk)] at h
    exact Option.noConfusion h

/-- C5, disjoint write sets: for every `N > 0`, every legal decomposition and every lane count
`L ≥ 1`, the write events of the whole call that target output index `i < N` are exactly one,
made by one (block, lane, chunk iteration) triple, and the interval of that block contains
`i`; no write targets an index outside `[0, N)`. -/
theorem disjoint_write_sets {α : Type} (S result : List α) (op : α → α → α)
    (decomp : List index_range) (L fuel : Nat)
    (hS : S ≠ []) (hd : legal S.length decomp) (hL : 1 ≤ L)
    (hfuel : S.length ≤ fuel) (hres : S.length ≤ result.length) :
    ∃ r, adjacent_difference S result op decomp L fuel = some r ∧
      (∀ i, i < S.length →
        ∃ k t q rg,
          (taggedWrites r.lanes).filter (fun w => decide (w.2.2.2 = i)) = [(k, t, q, i)] ∧
          t < L ∧ decomp[k]? = some rg ∧ rg.begin ≤ i ∧ i < rg.end_) ∧
      ∀ w ∈ taggedWrites r.lanes, w.2.2.2 < S.length := by
  have hN : 0 < S.length := List.length_pos.2 hS
  obtain ⟨idxs, temp, output, hrun, _, hlane, hcount, _⟩ :=
    adjacent_difference_spec S result op decomp L fuel hN (seeded_of_legal hd) hL hfuel hres
  have hinside : ∀ w ∈ taggedWrites ((List.range decomp.length).map
      (blockTrace S temp op decomp L fuel)),
      w.2.1 < L ∧ ∃ rg, decomp[w.1]? = some rg ∧ rg.begin ≤ w.2.2.2 ∧ w.2.2.2 < rg.end_ ∧
        rg.end_ ≤ S.length := by
    intro w hw
    obtain ⟨blk, tr, v, hblk, htr, hev⟩ := mem_taggedWrites _ w hw
    obtain ⟨hk, rfl⟩ := range_map_getElem?_some _ _ _ _ hblk
    obtain ⟨ht, rfl⟩ := range_map_getElem?_some _ _ _ _ htr
    have hget : decomp[w.1]? = some decomp[w.1] := List.getElem?_eq_getElem hk
    have hok := (hlane w.1 w.2.1 decomp[w.1] hget ht).2.1 _ hev
    have hb := chain_getElem decomp 0 w.1 decomp[w.1] hd.1.2 hget
    exact ⟨ht, decomp[w.1], hget, hok.1, hok.2.1, hb.2.2⟩
  refine ⟨_, hrun, ?_, ?_⟩
  · intro i hi
    have hc := hcount i
    rw [if_pos hi, ← taggedWrites_idx, List.count_eq_countP, List.countP_map,
      List.countP_eq_length_filter, List.length_eq_one] at hc
    obtain ⟨w, hw⟩ := hc
    have hfilter : (taggedWrites ((List.range decomp.length).map
        (blockTrace S temp op decomp L fuel))).filter (fun w => decide (w.2.2.2 = i)) = [w] := by
      rw [← hw]
      apply List.filter_congr
      intro x _
      by_cases hx : x.2.2.2 = i <;> simp [hx]
    have hmem : w ∈ (taggedWrites ((List.range decomp.length).map
        (blockTrace S temp op decomp L fuel))).filter (fun w => decide (w.2.2.2 = i)) := by
      rw [hfilter]
      exact List.mem_singleton_self w
    rw [List.mem_filter] at hmem
    obtain ⟨hwmem, hwi⟩ := hmem
    have hwi2 : w.2.2.2 = i := by simpa using hwi
    obtain ⟨ht, rg, hrg, h1, h2, _⟩ := hinside w hwmem
    refine ⟨w.1, w.2.1, w.2.2.1, rg, ?_, ht, hrg, by omega, by omega⟩
    show (taggedWrites ((List.range decomp.length).map
        (blockTrace S temp op decomp L fuel))).filter (fun w => decide (w.2.2.2 = i)) = _
    rw [hfilter, ← hwi2]
  · intro w hw
    obtain ⟨_, rg, _, _, h2, h3⟩ := hinside w hw
    omega

theorem disjoint_write_sets_witness :
    ∃ r, adjacent_difference [(4 : Int), 8, 15, 16, 23] [0, 0, 0, 0, 0] (fun a b => a - b)
        [index_range.mk 0 2, index_range.mk 2 5] 2 5 = some r ∧
      (∀ i, i < [(4 : Int), 8, 15, 16, 23].length →
        ∃ k t q rg,
          (taggedWrites r.lanes).filter (fun w => decide (w.2.2.2 = i)) = [(k, t, q, i)] ∧
          t < 2 ∧ [index_range.mk 0 2, index_range.mk 2 5][k]? = some rg ∧
          rg.begin ≤ i ∧ i < rg.end_) ∧
      ∀ w ∈ taggedWrites r.lanes, w.2.2.2 < [(4 : Int), 8, 15, 16, 23].length :=
  disjoint_write_sets [(4 : Int), 8, 15, 16, 23] [0, 0, 0, 0, 0] (fun a b => a - b)
    [index_range.mk 0 2, index_range.mk 2 5] 2 5 (by decide) (by decide) (by decide)
    (by decide) (by decide)

/-- C6, empty input: when `last == first` the entry point returns `result` itself (offset 0)
and does no work, whatever the decomposition, the lane count and the fuel: the gather reads no
input index, no carry buffer is built, no block processor runs (so there is no read and no
write) and the output storage is unchanged. -/
theorem empty_input {α : Type} (result : List α) (op : α → α → α)
    (decomp : List index_range) (L fuel : Nat) :
    ∃ r, adjacent_difference ([] : List α) result op decomp L fuel = some r ∧
      r.result_end = 0 ∧ r.gathered = [] ∧ r.temp = [] ∧ r.lanes = [] ∧
      writesOf r.lanes.flatten.flatten = [] ∧ r.output = result :=
  ⟨Outcome.mk 0 [] [] [] result, rfl, rfl, rfl, rfl, rfl, rfl, rfl⟩

theorem result_end_of_some {α : Type} (S result : List α) (op : α → α → α)
    (decomp : List index_range) (L fuel : Nat) (r : Outcome α)
    (hr : adjacent_difference S result op decomp L fuel = some r) :
    r.result_end = S.length := by
  unfold adjacent_difference at hr
  by_cases hn : S.length = 0
  · simp only [if_pos hn, Option.some.injEq] at hr
    subst hr
    exact hn.symm
  · simp only [if_neg hn] at hr
    split at hr
    · exact Option.noConfusion hr
    · split at hr
      · exact Option.noConfusion hr
      · split at hr
        · exact Option.noConfusion hr
        · split at hr
          · exact Option.noConfusion hr
          · split at hr
            · exact Option.noConfusion hr
            · simp only [Option.some.injEq] at hr
              subst hr
              rfl

/-- C7, returned end position: whenever the entry point completes on an input range of length
`n ≥ 0` it returns `result + n`; it completes for the empty input and, for `n > 0`, for every
legal decomposition and lane count `L ≥ 1`, and then the output indices written are exactly
those below the returned position. -/
theorem returned_end_position {α : Type} (S result : List α) (op : α → α → α)
    (decomp : List index_range) (L fuel : Nat) :
    (∀ r, adjacent_difference S result op decomp L fuel = some r →
      r.result_end = S.length) ∧
    ((S = [] ∨ (legal S.length decomp ∧ 1 ≤ L ∧ S.length ≤ fuel ∧
        S.length ≤ result.length)) →
      ∃ r, adjacent_difference S result op decomp L fuel = some r ∧
        r.result_end = S.length ∧
        ∀ j, j ∈ writeIdxs r.lanes.flatten.flatten ↔ j < r.result_end) := by
  refine ⟨result_end_of_some S result op decomp L fuel, ?_⟩
  rintro (hS | ⟨hd, hL, hfuel, hres⟩)
  · subst hS
    refine ⟨Outcome.mk 0 [] [] [] result, rfl, rfl, ?_⟩
    intro j
    simp [writeIdxs, writesOf]
  · by_cases hS : S = []
    · subst hS
      refine ⟨Outcome.mk 0 [] [] [] result, rfl, rfl, ?_⟩
      intro j
      simp [writeIdxs, writesOf]
    · have hN : 0 < S.length := List.length_pos.2 hS
      obtain ⟨idxs, temp, output, hrun, _, _, hcount, _⟩ :=
        adjacent_difference_spec S result op decomp L fuel hN (seeded_of_legal hd) hL hfuel
          hres
      refine ⟨_, hrun, rfl, ?_⟩
      intro j
      show j ∈ writeIdxs ((List.range decomp.length).map
        (blockTrace S temp op decomp L fuel)).flatten.flatten ↔ j < S.length
      rw [← List.count_pos_iff, hcount j]
      by_cases h : j < S.length <;> simp [h]

theorem returned_end_position_witness :
    ∃ r, adjacent_difference [(4 : Int), 8, 15] [0, 0, 0, 0] (fun a b => a - b)
        [index_range.mk 0 1, index_range.mk 1 3] 4 3 = some r ∧ r.result_end = 3 ∧
      ∀ j, j ∈ writeIdxs r.lanes.flatten.flatten ↔ j < r.result_end :=
  (returned_end_position [(4 : Int), 8, 15] [0, 0, 0, 0] (fun a b => a - b)
    [index_range.mk 0 1, index_range.mk 1 3] 4 3).2
    (Or.inr ⟨by decide, by decide, by decide, by decide⟩)

/-- C8, boundary correctness: for `S = [10,20,30,40,50,60,70,80,90]`, the decomposition
`[0,3), [3,7), [7,9)`, `op(a,b) = a - b` and every lane count `L ≥ 1` (enough fuel, an output
storage of 9 cells), the carry buffer is `[30,70]` and the output is nine times 10. -/
theorem boundary_correctness (result : List Int) (L fuel : Nat) (hL : 1 ≤ L)
    (hfuel : 9 ≤ fuel) (hres : result.length = 9) :
    ∃ r, adjacent_difference [(10 : Int), 20, 30, 40, 50, 60, 70, 80, 90] result
        (fun a b => a - b) [index_range.mk 0 3, index_range.mk 3 7, index_range.mk 7 9]
        L fuel = some r ∧
      r.temp = [30, 70] ∧ r.output = [10, 10, 10, 10, 10, 10, 10, 10, 10] := by
  obtain ⟨idxs, temp, output, hrun, ⟨_, htlen, hext⟩, _, _, _, holen, hget⟩ :=
    adjacent_difference_spec [(10 : Int), 20, 30, 40, 50, 60, 70, 80, 90] result
      (fun a b => a - b) [index_range.mk 0 3, index_range.mk 3 7, index_range.mk 7 9]
      L fuel (by decide) (seeded_of_legal (by decide)) hL hfuel (by rw [hres]; decide)
  refine ⟨_, hrun, ?_, ?_⟩
  · show temp = [30, 70]
    have h0 := (hext 0 (index_range.mk 0 3) rfl (by decide)).2.2.2
    have h1 := (hext 1 (index_range.mk 3 7) rfl (by decide)).2.2.2
    apply List.ext_getElem?
    intro i
    match i with
    | 0 => rw [h0]; rfl
    | 1 => rw [h1]; rfl
    | i + 2 =>
      rw [List.getElem?_eq_none (by rw [htlen]; simp), List.getElem?_eq_none (by simp)]
  · show output = [10, 10, 10, 10, 10, 10, 10, 10, 10]
    apply List.ext_getElem?
    intro i
    rw [hget i]
    by_cases hi : i < 9
    · have hi2 : i < [(10 : Int), 20, 30, 40, 50, 60, 70, 80, 90].length := hi
      rw [if_pos hi2]
      interval_cases i <;> rfl
    · have hi2 : ¬ i < [(10 : Int), 20, 30, 40, 50, 60, 70, 80, 90].length := hi
      rw [if_neg hi2, List.getElem?_eq_none (by omega), List.getElem?_eq_none (by simp; omega)]

theorem boundary_correctness_witness :
    ∃ r, adjacent_difference [(10 : Int), 20, 30, 40, 50, 60, 70, 80, 90]
        [0, 0, 0, 0, 0, 0, 0, 0, 0]
        (fun a b => a - b) [index_range.mk 0 3, index_range.mk 3 7, index_range.mk 7 9]
        4 9 = some r ∧
      r.temp = [30, 70] ∧ r.output = [10, 10, 10, 10, 10, 10, 10, 10, 10] :=
  boundary_correctness [0, 0, 0, 0, 0, 0, 0, 0, 0] 4 9 (by decide) (by decide) (by decide)

/-- C9, argument order: with the order-sensitive operator `op(a,b) = a - 2*b` on integers,
for every non-empty `S`, every legal decomposition and every lane count `L ≥ 1`, the output
has `out[i] = S[i] - 2 * S[i-1]` for every `0 < i < N`; in particular at the first index `b`
of every block but the first, where the left operand of the subtraction is the carry entry
`carry[k] = S[b-1]` of the previous block. -/
theorem argument_order_preserved (S result : List Int) (decomp : List index_range)
    (L fuel : Nat) (hS : S ≠ []) (hd : legal S.length decomp) (hL : 1 ≤ L)
    (hfuel : S.length ≤ fuel) (hres : S.length ≤ result.length) :
    ∃ r, adjacent_difference S result (fun a b => a - 2 * b) decomp L fuel = some r ∧
      (∀ i, 0 < i → i < S.length →
        ∃ x p, S[i]? = some x ∧ S[i - 1]? = some p ∧ r.output[i]? = some (x - 2 * p)) ∧
      ∀ (k : Nat) (rg : index_range), decomp[k + 1]? = some rg →
        ∃ x c, 0 < rg.begin ∧ S[rg.begin]? = some x ∧ S[rg.begin - 1]? = some c ∧
          r.temp[k]? = some c ∧ r.output[rg.begin]? = some (x - 2 * c) := by
  have hN : 0 < S.length := List.length_pos.2 hS
  obtain ⟨idxs, temp, output, hrun, ⟨_, _, hext⟩, _, _, _, _, hget⟩ :=
    adjacent_difference_spec S result (fun a b => a - 2 * b) decomp L fuel hN
      (seeded_of_legal hd) hL hfuel hres
  have hall : ∀ i, 0 < i → i < S.length →
      ∃ x p, S[i]? = some x ∧ S[i - 1]? = some p ∧ output[i]? = some (x - 2 * p) := by
    intro i h0 hi
    obtain ⟨x, p, hx, hp, hseq⟩ :=
      sequential_definition_pos S (fun a b => a - 2 * b) i h0 hi
    refine ⟨x, p, hx, hp, ?_⟩
    rw [hget i, if_pos hi, hseq]
  refine ⟨_, hrun, hall, ?_⟩
  intro k rg hrg
  have hklt : k + 1 < decomp.length := by
    by_contra hcon
    rw [List.getElem?_eq_none (by omega)] at hrg
    exact Option.noConfusion hrg
  have hk : decomp[k]? = some decomp[k] := List.getElem?_eq_getElem (by omega)
  have hsucc := chain_succ decomp 0 k decomp[k] rg hd.1.2 hk hrg
  have hb := chain_getElem decomp 0 (k + 1) rg hd.1.2 hrg
  have hne : rg.begin < rg.end_ := hd.2 rg (List.getElem?_mem hrg)
  obtain ⟨hpos, _, _, htemp⟩ := hext k decomp[k] hk hklt
  obtain ⟨x, c, hx, hc, hout⟩ := hall rg.begin (by omega) (by omega)
  refine ⟨x, c, by omega, hx, hc, ?_, hout⟩
  show temp[k]? = some c
  rw [htemp, ← hsucc]
  exact hc

theorem argument_order_preserved_witness :
    ∃ r, adjacent_difference [(5 : Int), 7, 4, 9] [0, 0, 0, 0] (fun a b => a - 2 * b)
        [index_range.mk 0 1, index_range.mk 1 4] 2 4 = some r ∧
      (∀ i, 0 < i → i < [(5 : Int), 7, 4, 9].length →
        ∃ x p, [(5 : Int), 7, 4, 9][i]? = some x ∧ [(5 : Int), 7, 4, 9][i - 1]? = some p ∧
          r.output[i]? = some (x - 2 * p)) ∧
      ∀ (k : Nat) (rg : index_range),
        [index_range.mk 0 1, index_range.mk 1 4][k + 1]? = some rg →
        ∃ x c, 0 < rg.begin ∧ [(5 : Int), 7, 4, 9][rg.begin]? = some x ∧
          [(5 : Int), 7, 4, 9][rg.begin - 1]? = some c ∧
          r.temp[k]? = some c ∧ r.output[rg.begin]? = some (x - 2 * c) :=
  argument_order_preserved [(5 : Int), 7, 4, 9] [0, 0, 0, 0]
    [index_range.mk 0 1, index_range.mk 1 4] 2 4 (by decide) (by decide) (by decide)
    (by decide) (by decide)

/-- C10, single-element input: for every one-element input `[x]`, every operator, every legal
decomposition of `[0, 1)` and every lane count `L ≥ 1`, the entry point completes, the one
output cell it covers holds `x`, the rest of the storage is untouched, and no lane applies
the operator. -/
theorem single_element_input {α : Type} (x : α) (result : List α) (op : α → α → α)
    (decomp : List index_range) (L fuel : Nat) (hd : legal 1 decomp) (hL : 1 ≤ L)
    (hfuel : 1 ≤ fuel) (hres : 1 ≤ result.length) :
    ∃ r, adjacent_difference [x] result op decomp L fuel = some r ∧
      r.output.take 1 = [x] ∧ r.output.drop 1 = result.drop 1 ∧
      ∀ blk ∈ r.lanes, ∀ tr ∈ blk, ∀ a b, Event.apply a b ∉ tr := by
  obtain ⟨idxs, temp, output, hrun, _, hlane, _, _, holen, hget⟩ :=
    adjacent_difference_spec [x] result op decomp L fuel (by simp) (seeded_of_legal hd) hL
      hfuel hres
  refine ⟨_, hrun, ?_, ?_, ?_⟩
  · show output.take 1 = [x]
    apply List.ext_getElem?
    intro i
    rw [List.getElem?_take]
    match i with
    | 0 =>
      rw [if_pos Nat.one_pos, hget 0]
      simp [sequential_definition]
    | i + 1 => simp
  · show output.drop 1 = result.drop 1
    apply List.ext_getElem?
    intro i
    rw [List.getElem?_drop, List.getElem?_drop, hget (1 + i)]
    have : ¬ 1 + i < [x].length := by simp
    rw [if_neg this]
  · intro blk hblk tr htr a b hev
    obtain ⟨k, t, hk, ht, _, rfl⟩ := mem_blockTrace [x] temp op decomp L fuel blk tr hblk htr
    have hget2 : decomp[k]? = some decomp[k] := List.getElem?_eq_getElem hk
    obtain ⟨j, hj, hxj, _⟩ := (hlane k t decomp[k] hget2 ht).2.1 _ hev
    rw [List.getElem?_eq_none (by simp; omega)] at hxj
    exact Option.noConfusion hxj

theorem single_element_input_witness :
    ∃ r, adjacent_difference [(42 : Int)] [0, 7] (fun a b => a - b)
        [index_range.mk 0 1] 3 1 = some r ∧
      r.output.take 1 = [42] ∧ r.output.drop 1 = [(0 : Int), 7].drop 1 ∧
      ∀ blk ∈ r.lanes, ∀ tr ∈ blk, ∀ a b, Event.apply a b ∉ tr :=
  single_element_input (42 : Int) [0, 7] (fun a b => a - b) [index_range.mk 0 1] 3 1
    (by decide) (by decide) (by decide) (by decide)

/-! ## The loop, chunk by chunk -/

theorem closure_loop_done {α : Type} (input : List α) (op : α → α → α) (e L : Nat)
    (fuel base i : Nat) (nl : α) (hb : ¬ base < e) :
    closure_loop input op e L fuel base i nl = some [] := by
  cases fuel <;> simp [closure_loop, hb]

theorem closure_loop_step {α : Type} (input : List α) (op : α → α → α) (e L : Nat)
    (fuel base i : Nat) (nl nl1 : α) (pre commit : List (Event α)) (hb : base < e)
    (hstep : chunkStep input op e L i nl nl1 pre commit) :
    closure_loop input op e L (fuel + 1) base i nl =
      (closure_loop input op e L fuel (base + L) (i + L) nl1).map
        (fun rest => pre ++ Event.barrier :: commit ++ rest) := by
  obtain ⟨hpre, hnl1, hcommit⟩ := hstep
  have h1 : (if i + L < e then
        (readAt input ((i : Int) + (L : Int) - 1)).map
          (fun v => (v, [Event.readInput ((i : Int) + (L : Int) - 1)]))
      else some (nl, [])) = some (nl1, pre) := by
    by_cases hp : i + L < e
    · rw [if_pos hp] at hpre hnl1
      rw [if_pos hp, hnl1, hpre]
      rfl
    · rw [if_neg hp] at hpre hnl1
      rw [if_neg hp, hnl1, hpre]
  have h2 : (if i < e then
        (readAt input (i : Int)).map (fun x =>
          if i = 0 then [Event.readInput (i : Int), Event.write i x]
          else [Event.readInput (i : Int), Event.apply x nl, Event.write i (op x nl)])
      else some []) = some commit := by
    by_cases hi : i < e
    · rw [if_pos hi] at hcommit
      obtain ⟨x, hx, hc⟩ := hcommit
      rw [if_pos hi, readAt_ofNat, hx, hc]
      rfl
    · rw [if_neg hi] at hcommit
      rw [if_neg hi, hcommit]
  simp only [closure_loop, if_pos hb]
  rw [h1]
  simp only []
  rw [h2]
  simp only []
  cases closure_loop input op e L fuel (base + L) (i + L) nl1 <;> rfl

theorem closure_loop_inv {α : Type} (input : List α) (op : α → α → α) (e L : Nat)
    (fuel base i : Nat) (nl : α) (tr : List (Event α)) (hb : base < e)
    (h : closure_loop input op e L fuel base i nl = some tr) :
    ∃ fuel1 nl1 pre commit rest, fuel = fuel1 + 1 ∧
      chunkStep input op e L i nl nl1 pre commit ∧
      closure_loop input op e L fuel1 (base + L) (i + L) nl1 = some rest ∧
      tr = pre ++ Event.barrier :: commit ++ rest := by
  cases fuel with
  | zero => simp [closure_loop, hb] at h
  | succ fuel1 =>
    have hex : ∃ nl1 pre commit, chunkStep input op e L i nl nl1 pre commit := by
      simp only [closure_loop, if_pos hb] at h
      by_cases hp : i + L < e
      · cases hr : readAt input ((i : Int) + (L : Int) - 1) with
        | none => simp [hp, hr] at h
        | some v =>
          by_cases hi : i < e
          · cases hx : input[i]? with
            | none => simp [hp, hr, hi, readAt_ofNat, hx] at h
            | some x =>
              exact ⟨v, _, _, rfl, by rw [if_pos hp]; exact hr,
                by rw [if_pos hi]; exact ⟨x, hx, rfl⟩⟩
          · exact ⟨v, _, [], rfl, by rw [if_pos hp]; exact hr, by rw [if_neg hi]⟩
      · by_cases hi : i < e
        · cases hx : input[i]? with
          | none => simp [hp, hi, readAt_ofNat, hx] at h
          | some x =>
            exact ⟨nl, _, _, rfl, by rw [if_neg hp], by rw [if_pos hi]; exact ⟨x, hx, rfl⟩⟩
        · exact ⟨nl, _, [], rfl, by rw [if_neg hp], by rw [if_neg hi]⟩
    obtain ⟨nl1, pre, commit, hstep⟩ := hex
    rw [closure_loop_step input op e L fuel1 base i nl nl1 pre commit hb hstep] at h
    cases hrest : closure_loop input op e L fuel1 (base + L) (i + L) nl1 with
    | none => simp [hrest] at h
    | some rest =>
      simp only [hrest, Option.map_some', Option.some.injEq] at h
      exact ⟨fuel1, nl1, pre, commit, rest, rfl, hstep, hrest, h.symm⟩

theorem closure_loop_inv_succ {α : Type} (input : List α) (op : α → α → α) (e L : Nat)
    (fuel base i : Nat) (nl : α) (tr : List (Event α)) (hb : base < e)
    (h : closure_loop input op e L (fuel + 1) base i nl = some tr) :
    ∃ nl1 pre commit rest,
      chunkStep input op e L i nl nl1 pre commit ∧
      closure_loop input op e L fuel (base + L) (i + L) nl1 = some rest ∧
      tr = pre ++ Event.barrier :: commit ++ rest := by
  obtain ⟨fuel1, nl1, pre, commit, rest, hf, hstep, hrest, htr⟩ :=
    closure_loop_inv input op e L (fuel + 1) base i nl tr hb h
  have : fuel = fuel1 := Nat.succ.inj hf
  subst this
  exact ⟨nl1, pre, commit, rest, hstep, hrest, htr⟩

theorem closure_lane_step {α : Type} (input temp : List α) (op : α → α → α)
    (decomp : List index_range) (L fuel k t : Nat) (rg : index_range) (nl0 nl : α)
    (seed prime : List (Event α)) (hrg : decomp[k]? = some rg)
    (hstart : laneStart input temp rg k t nl0 nl seed prime) :
    closure_lane input temp op decomp L fuel k t =
      (closure_loop input op rg.end_ L fuel rg.begin (rg.begin + t) nl).map
        (fun body => seed ++ prime ++ body) := by
  obtain ⟨hseed, hprime⟩ := hstart
  have h1 : (if k = 0 then (readAt input 0).map (fun v => (v, [Event.readInput 0]))
      else (readAt temp ((k : Int) - 1)).map
        (fun v => (v, [Event.readCarry ((k : Int) - 1)]))) = some (nl0, seed) := by
    by_cases hk : k = 0
    · rw [if_pos hk] at hseed
      rw [if_pos hk, hseed.1, hseed.2]
      rfl
    · rw [if_neg hk] at hseed
      rw [if_neg hk, hseed.1, hseed.2]
      rfl
  have h2 : (if rg.begin + t < rg.end_ ∧ t > 0 then
        (readAt input (((rg.begin + t : Nat) : Int) - 1)).map
          (fun v => (v, [Event.readInput (((rg.begin + t : Nat) : Int) - 1)]))
      else some (nl0, [])) = some (nl, prime) := by
    by_cases hp : rg.begin + t < rg.end_ ∧ t > 0
    · rw [if_pos hp] at hprime
      rw [if_pos hp, hprime.1, hprime.2]
      rfl
    · rw [if_neg hp] at hprime
      rw [if_neg hp, hprime.1, hprime.2]
  simp only [closure_lane, hrg]
  rw [h1]
  simp only []
  rw [h2]
  simp only []
  cases closure_loop input op rg.end_ L fuel rg.begin (rg.begin + t) nl <;> rfl

theorem closure_lane_inv {α : Type} (input temp : List α) (op : α → α → α)
    (decomp : List index_range) (L fuel k t : Nat) (rg : index_range)
    (tr : List (Event α)) (hrg : decomp[k]? = some rg)
    (h : closure_lane input temp op decomp L fuel k t = some tr) :
    ∃ nl0 nl seed prime body, laneStart input temp rg k t nl0 nl seed prime ∧
      closure_loop input op rg.end_ L fuel rg.begin (rg.begin + t) nl = some body ∧
      tr = seed ++ prime ++ body := by
  have hex : ∃ nl0 nl seed prime, laneStart input temp rg k t nl0 nl seed prime := by
    simp only [closure_lane, hrg] at h
    have hseed : ∃ (nl0 : α) (seed : List (Event α)), (if k = 0 then
          readAt input 0 = some nl0 ∧ seed = [Event.readInput 0]
        else readAt temp ((k : Int) - 1) = some nl0 ∧
          seed = [Event.readCarry ((k : Int) - 1)]) := by
      by_cases hk : k = 0
      · cases hr : readAt input 0 with
        | none => simp [hk, hr] at h
        | some v => exact ⟨v, _, by rw [if_pos hk]; exact ⟨rfl, rfl⟩⟩
      · cases hr : readAt temp ((k : Int) - 1) with
        | none => simp [hk, hr] at h
        | some v => exact ⟨v, _, by rw [if_neg hk]; exact ⟨rfl, rfl⟩⟩
    obtain ⟨nl0, seed, hseed⟩ := hseed
    have h1 : (if k = 0 then (readAt input 0).map (fun v => (v, [Event.readInput 0]))
        else (readAt temp ((k : Int) - 1)).map
          (fun v => (v, [Event.readCarry ((k : Int) - 1)]))) = some (nl0, seed) := by
      by_cases hk : k = 0
      · rw [if_pos hk] at hseed
        rw [if_pos hk, hseed.1, hseed.2]
        rfl
      · rw [if_neg hk] at hseed
        rw [if_neg hk, hseed.1, hseed.2]
        rfl
    rw [h1] at h
    simp only [] at h
    by_cases hp : rg.begin + t < rg.end_ ∧ t > 0
    · cases hr : readAt input (((rg.begin + t : Nat) : Int) - 1) with
      | none =>
        rw [if_pos hp, hr] at h
        simp at h
      | some v => exact ⟨nl0, v, seed, _, hseed, by rw [if_pos hp]; exact ⟨hr, rfl⟩⟩
    · exact ⟨nl0, nl0, seed, [], hseed, by rw [if_neg hp]; exact ⟨rfl, rfl⟩⟩
  obtain ⟨nl0, nl, seed, prime, hstart⟩ := hex
  rw [closure_lane_step input temp op decomp L fuel k t rg nl0 nl seed prime hrg hstart] at h
  cases hbody : closure_loop input op rg.end_ L fuel rg.begin (rg.begin + t) nl with
  | none => simp [hbody] at h
  | some body =>
    simp only [hbody, Option.map_some', Option.some.injEq] at h
    exact ⟨nl0, nl, seed, prime, body, hstart, hbody, h.symm⟩

/-! ## Chunk count and termination -/

theorem barriers_append {α : Type} :
    ∀ (a b : List (Event α)), barriers (a ++ b) = barriers a + barriers b
  | [], b => by simp [barriers]
  | ev :: a, b => by
    cases ev <;> simp [barriers, barriers_append a b]
    omega

theorem chunkStep_barriers {α : Type} (input : List α) (op : α → α → α) (e L i : Nat)
    (nl nl1 : α) (pre commit : List (Event α))
    (h : chunkStep input op e L i nl nl1 pre commit) :
    barriers pre = 0 ∧ barriers commit = 0 := by
  obtain ⟨hpre, _, hcommit⟩ := h
  constructor
  · rw [hpre]
    split <;> rfl
  · by_cases hi : i < e
    · rw [if_pos hi] at hcommit
      obtain ⟨x, _, hc⟩ := hcommit
      rw [hc]
      split <;> rfl
    · rw [if_neg hi] at hcommit
      rw [hcommit]
      rfl

theorem ceil_step (e base L : Nat) (hL : 0 < L) (hb : base < e) :
    (e - base + L - 1) / L = (e - (base + L) + L - 1) / L + 1 := by
  by_cases hge : L ≤ e - base
  · have h1 : e - base + L - 1 = (e - (base + L) + L - 1) + L := by omega
    rw [h1, Nat.add_div_right _ hL]
  · have h1 : e - (base + L) + L - 1 = L - 1 := by omega
    have h2 : e - base + L - 1 = (e - base - 1) + L := by omega
    rw [h1, h2, Nat.add_div_right _ hL, Nat.div_eq_of_lt (by omega), Nat.div_eq_of_lt (by omega)]

theorem closure_loop_barriers {α : Type} (input : List α) (op : α → α → α) (e L : Nat)
    (hL : 0 < L) :
    ∀ (fuel base i : Nat) (nl : α) (tr : List (Event α)),
      closure_loop input op e L fuel base i nl = some tr →
      barriers tr = (e - base + L - 1) / L := by
  intro fuel
  induction fuel with
  | zero =>
    intro base i nl tr h
    by_cases hb : base < e
    · simp [closure_loop, hb] at h
    · rw [closure_loop_done input op e L 0 base i nl hb, Option.some.injEq] at h
      subst h
      have : e - base + L - 1 < L := by omega
      rw [Nat.div_eq_of_lt this]
      rfl
  | succ fuel ih =>
    intro base i nl tr h
    by_cases hb : base < e
    · obtain ⟨nl1, pre, commit, rest, hstep, hrest, htr⟩ :=
        closure_loop_inv_succ input op e L fuel base i nl tr hb h
      obtain ⟨hp, hc⟩ := chunkStep_barriers input op e L i nl nl1 pre commit hstep
      have hbar : barriers (Event.barrier :: commit) = barriers commit + 1 := rfl
      rw [htr, barriers_append, barriers_append, hbar, hp, hc, ih _ _ _ _ hrest,
        ceil_step e base L hL hb]
      omega
    · rw [closure_loop_done input op e L (fuel + 1) base i nl hb, Option.some.injEq] at h
      subst h
      have : e - base + L - 1 < L := by omega
      rw [Nat.div_eq_of_lt this]
      rfl

theorem closure_loop_fuel {α : Type} (input : List α) (op : α → α → α) (e L : Nat)
    (hL : 0 < L) :
    ∀ (fuel base i : Nat) (nl : α) (tr : List (Event α)),
      closure_loop input op e L fuel base i nl = some tr →
      ∀ fuel1, closure_loop input op e L fuel1 base i nl =
        if (e - base + L - 1) / L ≤ fuel1 then some tr else none := by
  intro fuel
  induction fuel with
  | zero =>
    intro base i nl tr h fuel1
    by_cases hb : base < e
    · simp [closure_loop, hb] at h
    · rw [closure_loop_done input op e L 0 base i nl hb, Option.some.injEq] at h
      subst h
      have : e - base + L - 1 < L := by omega
      rw [Nat.div_eq_of_lt this, if_pos (Nat.zero_le _)]
      exact closure_loop_done input op e L fuel1 base i nl hb
  | succ fuel ih =>
    intro base i nl tr h fuel1
    by_cases hb : base < e
    · obtain ⟨nl1, pre, commit, rest, hstep, hrest, htr⟩ :=
        closure_loop_inv_succ input op e L fuel base i nl tr hb h
      rw [ceil_step e base L hL hb]
      cases fuel1 with
      | zero =>
        rw [if_neg (Nat.not_succ_le_zero _)]
        simp [closure_loop, hb]
      | succ fuel2 =>
        rw [closure_loop_step input op e L fuel2 base i nl nl1 pre commit hb hstep,
          ih _ _ _ _ hrest fuel2]
        by_cases hc : (e - (base + L) + L - 1) / L ≤ fuel2
        · have hc2 : (e - (base + L) + L - 1) / L + 1 ≤ fuel2 + 1 := Nat.succ_le_succ hc
          rw [if_pos hc, if_pos hc2, htr]
          rfl
        · have hc2 : ¬ ((e - (base + L) + L - 1) / L + 1 ≤ fuel2 + 1) :=
            fun h => hc (Nat.le_of_succ_le_succ h)
          rw [if_neg hc, if_neg hc2]
          rfl
    · rw [closure_loop_done input op e L (fuel + 1) base i nl hb, Option.some.injEq] at h
      subst h
      have : e - base + L - 1 < L := by omega
      rw [Nat.div_eq_of_lt this, if_pos (Nat.zero_le _)]
      exact closure_loop_done input op e L fuel1 base i nl hb

theorem laneStart_barriers {α : Type} (input temp : List α) (rg : index_range) (k t : Nat)
    (nl0 nl : α) (seed prime : List (Event α))
    (h : laneStart input temp rg k t nl0 nl seed prime) :
    barriers seed = 0 ∧ barriers prime = 0 := by
  obtain ⟨hseed, hprime⟩ := h
  constructor
  · by_cases hk : k = 0
    · rw [if_pos hk] at hseed
      rw [hseed.2]
      rfl
    · rw [if_neg hk] at hseed
      rw [hseed.2]
      rfl
  · by_cases hp : rg.begin + t < rg.end_ ∧ t > 0
    · rw [if_pos hp] at hprime
      rw [hprime.2]
      rfl
    · rw [if_neg hp] at hprime
      rw [hprime.2]
      rfl

theorem closure_lane_chunks {α : Type} (input temp : List α) (op : α → α → α)
    (decomp : List index_range) (L fuel k t : Nat) (rg : index_range)
    (tr : List (Event α)) (hL : 0 < L) (hrg : decomp[k]? = some rg)
    (h : closure_lane input temp op decomp L fuel k t = some tr) :
    barriers tr = (rg.end_ - rg.begin + L - 1) / L ∧
    ∀ fuel1, closure_lane input temp op decomp L fuel1 k t =
      if (rg.end_ - rg.begin + L - 1) / L ≤ fuel1 then some tr else none := by
  obtain ⟨nl0, nl, seed, prime, body, hstart, hbody, htr⟩ :=
    closure_lane_inv input temp op decomp L fuel k t rg tr hrg h
  obtain ⟨hs, hp⟩ := laneStart_barriers input temp rg k t nl0 nl seed prime hstart
  constructor
  · rw [htr, barriers_append, barriers_append, hs, hp,
      closure_loop_barriers input op rg.end_ L hL _ _ _ _ _ hbody]
    omega
  · intro fuel1
    rw [closure_lane_step input temp op decomp L fuel1 k t rg nl0 nl seed prime hrg hstart,
      closure_loop_fuel input op rg.end_ L hL _ _ _ _ _ hbody fuel1]
    by_cases hc : (rg.end_ - rg.begin + L - 1) / L ≤ fuel1
    · rw [if_pos hc, if_pos hc, htr]
      rfl
    · rw [if_neg hc, if_neg hc]
      rfl

theorem range_map_getElem?_lt {β : Type} (f : Nat → β) (M k : Nat) (hk : k < M) :
    ((List.range M).map f)[k]? = some (f k) := by
  rw [List.getElem?_map, List.getElem?_range hk]
  rfl

theorem getElem?_lt_length {decomp : List index_range} {k : Nat} {rg : index_range}
    (hrg : decomp[k]? = some rg) : k < decomp.length := by
  by_contra hcon
  rw [List.getElem?_eq_none (by omega)] at hrg
  exact Option.noConfusion hrg

/-- C15, uniform chunk count and termination: for every legal decomposition, every block with
interval `[begin, end)` and every lane count `L ≥ 1`, every lane of the block, whatever its
lane index, completes its loop exactly when it is given `ceil((end - begin) / L)` iterations
or more (with fewer it is still inside the loop), and its trace passes the barrier exactly
`ceil((end - begin) / L)` times; all lanes of a block have the same count. -/
theorem uniform_chunk_count {α : Type} (S result : List α) (op : α → α → α)
    (decomp : List index_range) (L fuel : Nat)
    (hS : S ≠ []) (hd : legal S.length decomp) (hL : 1 ≤ L)
    (hfuel : S.length ≤ fuel) (hres : S.length ≤ result.length) :
    ∃ r, adjacent_difference S result op decomp L fuel = some r ∧
      ∀ (k t : Nat) (rg : index_range), decomp[k]? = some rg → t < L →
        ∃ blk tr, r.lanes[k]? = some blk ∧ blk[t]? = some tr ∧
          barriers tr = (rg.end_ - rg.begin + L - 1) / L ∧
          ∀ fuel1, closure_lane S r.temp op decomp L fuel1 k t =
            if (rg.end_ - rg.begin + L - 1) / L ≤ fuel1 then some tr else none := by
  have hN : 0 < S.length := List.length_pos.2 hS
  obtain ⟨idxs, temp, output, hrun, _, hlane, _⟩ :=
    adjacent_difference_spec S result op decomp L fuel hN (seeded_of_legal hd) hL hfuel hres
  refine ⟨_, hrun, ?_⟩
  intro k t rg hrg ht
  have hk := getElem?_lt_length hrg
  refine ⟨blockTrace S temp op decomp L fuel k, laneTrace S temp op decomp L fuel k t,
    range_map_getElem?_lt _ _ _ hk, range_map_getElem?_lt _ _ _ ht, ?_⟩
  exact closure_lane_chunks S temp op decomp L fuel k t rg _ hL hrg (hlane k t rg hrg ht).1

theorem uniform_chunk_count_witness :
    ∃ r, adjacent_difference [(4 : Int), 8, 15, 16, 23] [0, 0, 0, 0, 0] (fun a b => a - b)
        [index_range.mk 0 2, index_range.mk 2 5] 2 5 = some r ∧
      ∀ (k t : Nat) (rg : index_range),
        [index_range.mk 0 2, index_range.mk 2 5][k]? = some rg → t < 2 →
        ∃ blk tr, r.lanes[k]? = some blk ∧ blk[t]? = some tr ∧
          barriers tr = (rg.end_ - rg.begin + 2 - 1) / 2 ∧
          ∀ fuel1, closure_lane [(4 : Int), 8, 15, 16, 23] r.temp (fun a b => a - b)
              [index_range.mk 0 2, index_range.mk 2 5] 2 fuel1 k t =
            if (rg.end_ - rg.begin + 2 - 1) / 2 ≤ fuel1 then some tr else none :=
  uniform_chunk_count [(4 : Int), 8, 15, 16, 23] [0, 0, 0, 0, 0] (fun a b => a - b)
    [index_range.mk 0 2, index_range.mk 2 5] 2 5 (by decide) (by decide) (by decide)
    (by decide) (by decide)

/-! ## The left neighbour -/

theorem chunkStep_pre_write {α : Type} (input : List α) (op : α → α → α) (e L i : Nat)
    (nl nl1 : α) (pre commit : List (Event α))
    (h : chunkStep input op e L i nl nl1 pre commit) (j : Nat) (v : α) :
    Event.write j v ∉ pre := by
  obtain ⟨hpre, _, _⟩ := h
  rw [hpre]
  split <;> simp

theorem closure_loop_left {α : Type} (input : List α) (op : α → α → α) (e L : Nat)
    (hL : 0 < L) :
    ∀ (fuel base i : Nat) (nl : α) (tr : List (Event α)),
      closure_loop input op e L fuel base i nl = some tr →
      ∀ (j : Nat) (v : α), Event.write j v ∈ tr → 0 < j →
        i ≤ j ∧ j < e ∧ ∃ x l, input[j]? = some x ∧ v = op x l ∧
          List.IsInfix [Event.apply x l, Event.write j v] tr ∧
          ((j = i ∧ l = nl) ∨
            (j ≠ i ∧ readAt input ((j : Int) - 1) = some l ∧
              Event.readInput ((j : Int) - 1) ∈ tr)) := by
  intro fuel
  induction fuel with
  | zero =>
    intro base i nl tr h j v hmem _
    by_cases hb : base < e
    · simp [closure_loop, hb] at h
    · rw [closure_loop_done input op e L 0 base i nl hb, Option.some.injEq] at h
      subst h
      simp at hmem
  | succ fuel ih =>
    intro base i nl tr h j v hmem hj
    by_cases hb : base < e
    · obtain ⟨nl1, pre, commit, rest, hstep, hrest, htr⟩ :=
        closure_loop_inv_succ input op e L fuel base i nl tr hb h
      have hnopre := chunkStep_pre_write input op e L i nl nl1 pre commit hstep j v
      obtain ⟨hpre, hnl1, hcommit⟩ := hstep
      rw [htr, List.mem_append, List.mem_append, List.mem_cons] at hmem
      rcases hmem with (hmem | hmem | hmem) | hmem
      · exact absurd hmem hnopre
      · exact Event.noConfusion hmem
      · -- the write of this chunk
        by_cases hi : i < e
        · rw [if_pos hi] at hcommit
          obtain ⟨x, hx, hc⟩ := hcommit
          by_cases h0 : i = 0
          · rw [if_pos h0] at hc
            rw [hc] at hmem
            simp only [List.mem_cons, List.mem_singleton, List.not_mem_nil, or_false] at hmem
            rcases hmem with hmem | hmem
            · exact Event.noConfusion hmem
            · injection hmem with h1 h2
              omega
          · rw [if_neg h0] at hc
            rw [hc] at hmem
            simp only [List.mem_cons, List.mem_singleton, List.not_mem_nil, or_false] at hmem
            rcases hmem with hmem | hmem | hmem
            · exact Event.noConfusion hmem
            · exact Event.noConfusion hmem
            · injection hmem with h1 h2
              subst h1
              subst h2
              refine ⟨le_refl _, hi, x, nl, hx, rfl, ?_, Or.inl ⟨rfl, rfl⟩⟩
              refine ⟨pre ++ [Event.barrier, Event.readInput (j : Int)], rest, ?_⟩
              rw [htr, hc]
              simp
        · rw [if_neg hi] at hcommit
          rw [hcommit] at hmem
          simp at hmem
      · -- a write of a later chunk
        obtain ⟨h1, h2, x, l, hx, hv, hinf, hcase⟩ := ih _ _ _ _ hrest j v hmem hj
        have hsuf : List.IsInfix rest tr := by
          rw [htr]
          exact (List.suffix_append _ _).isInfix
        refine ⟨by omega, h2, x, l, hx, hv, hinf.trans hsuf, Or.inr ⟨by omega, ?_⟩⟩
        rcases hcase with ⟨hji, hl⟩ | ⟨_, hl, hread⟩
        · have hp : i + L < e := by omega
          rw [if_pos hp] at hnl1 hpre
          have hidx : ((j : Int) - 1) = (i : Int) + (L : Int) - 1 := by omega
          rw [hidx, hl]
          refine ⟨hnl1, ?_⟩
          rw [htr, hpre]
          simp
        · refine ⟨hl, ?_⟩
          rw [htr]
          exact List.mem_append_right _ hread
    · rw [closure_loop_done input op e L (fuel + 1) base i nl hb, Option.some.injEq] at h
      subst h
      simp at hmem

theorem laneStart_write {α : Type} (input temp : List α) (rg : index_range) (k t : Nat)
    (nl0 nl : α) (seed prime : List (Event α))
    (h : laneStart input temp rg k t nl0 nl seed prime) (j : Nat) (v : α) :
    Event.write j v ∉ seed ∧ Event.write j v ∉ prime := by
  obtain ⟨hseed, hprime⟩ := h
  constructor
  · by_cases hk : k = 0
    · rw [if_pos hk] at hseed
      rw [hseed.2]
      simp
    · rw [if_neg hk] at hseed
      rw [hseed.2]
      simp
  · by_cases hp : rg.begin + t < rg.end_ ∧ t > 0
    · rw [if_pos hp] at hprime
      rw [hprime.2]
      simp
    · rw [if_neg hp] at hprime
      rw [hprime.2]
      simp

theorem closure_lane_left {α : Type} (input temp : List α) (op : α → α → α)
    (decomp : List index_range) (L fuel k t : Nat) (rg : index_range)
    (tr : List (Event α)) (hL : 0 < L) (hrg : decomp[k]? = some rg)
    (h0 : k = 0 → rg.begin = 0)
    (h : closure_lane input temp op decomp L fuel k t = some tr) :
    ∀ (j : Nat) (v : α), Event.write j v ∈ tr → 0 < j →
      rg.begin + t ≤ j ∧ j < rg.end_ ∧ ∃ x l, input[j]? = some x ∧ v = op x l ∧
        List.IsInfix [Event.apply x l, Event.write j v] tr ∧
        ((j = rg.begin ∧ t = 0 ∧ 0 < k ∧ readAt temp ((k : Int) - 1) = some l ∧
            Event.readCarry ((k : Int) - 1) ∈ tr) ∨
          (j ≠ rg.begin ∧ readAt input ((j : Int) - 1) = some l ∧
            Event.readInput ((j : Int) - 1) ∈ tr)) := by
  intro j v hmem hj
  obtain ⟨nl0, nl, seed, prime, body, hstart, hbody, htr⟩ :=
    closure_lane_inv input temp op decomp L fuel k t rg tr hrg h
  obtain ⟨hns, hnp⟩ := laneStart_write input temp rg k t nl0 nl seed prime hstart j v
  obtain ⟨hseed, hprime⟩ := hstart
  have hmemb : Event.write j v ∈ body := by
    rw [htr, List.mem_append, List.mem_append] at hmem
    rcases hmem with (hmem | hmem) | hmem
    · exact absurd hmem hns
    · exact absurd hmem hnp
    · exact hmem
  obtain ⟨h1, h2, x, l, hx, hv, hinf, hcase⟩ :=
    closure_loop_left input op rg.end_ L hL _ _ _ _ _ hbody j v hmemb hj
  have hsuf : List.IsInfix body tr := by
    rw [htr]
    exact (List.suffix_append _ _).isInfix
  refine ⟨h1, h2, x, l, hx, hv, hinf.trans hsuf, ?_⟩
  rcases hcase with ⟨hji, hl⟩ | ⟨hji, hl, hread⟩
  · by_cases ht : t = 0
    · have hp : ¬ (rg.begin + t < rg.end_ ∧ t > 0) := by omega
      rw [if_neg hp] at hprime
      have hk : k ≠ 0 := by
        intro hk
        have := h0 hk
        omega
      rw [if_neg hk] at hseed
      left
      refine ⟨by omega, ht, Nat.pos_of_ne_zero hk, ?_, ?_⟩
      · rw [hl, hprime.1]
        exact hseed.1
      · rw [htr, hseed.2]
        simp
    · have hp : rg.begin + t < rg.end_ ∧ t > 0 := ⟨by omega, Nat.pos_of_ne_zero ht⟩
      rw [if_pos hp] at hprime
      right
      have hidx : ((j : Int) - 1) = ((rg.begin + t : Nat) : Int) - 1 := by omega
      refine ⟨by omega, ?_, ?_⟩
      · rw [hidx, hl]
        exact hprime.1
      · rw [htr, hprime.2, hidx]
        simp
  · right
    refine ⟨by omega, hl, ?_⟩
    rw [htr]
    exact List.mem_append_right _ hread

theorem readAt_pred {α : Type} (xs : List α) (j : Nat) (hj : 0 < j) :
    readAt xs ((j : Int) - 1) = xs[j - 1]? := by
  have hcast : ((j : Int) - 1) = ((j - 1 : Nat) : Int) := by omega
  rw [hcast, readAt_ofNat]

/-- C14, left-neighbour loop invariant: for every legal decomposition, every block `k` with
interval `[begin, end)`, every lane count `L ≥ 1`, every lane `t` and every write of that lane
to an index `i > 0` (it lies inside the interval), the write is immediately preceded by the
application of the operator to `input[i]` and `curr_left`, and `curr_left` is `input[i-1]`.
When `i = begin` (lane 0, first chunk, block `k > 0`) that value is the carry entry
`carry[k-1]`, read from the carry buffer by this lane; otherwise the lane itself has read it
from `input[i-1]` (before its loop, or as the prefetch of the chunk before). -/
theorem left_neighbour_invariant {α : Type} (S result : List α) (op : α → α → α)
    (decomp : List index_range) (L fuel : Nat)
    (hS : S ≠ []) (hd : legal S.length decomp) (hL : 1 ≤ L)
    (hfuel : S.length ≤ fuel) (hres : S.length ≤ result.length) :
    ∃ r, adjacent_difference S result op decomp L fuel = some r ∧
      ∀ (k t : Nat) (rg : index_range) (blk : List (List (Event α))) (tr : List (Event α)),
        decomp[k]? = some rg → r.lanes[k]? = some blk → blk[t]? = some tr →
        ∀ (i : Nat) (v : α), Event.write i v ∈ tr → 0 < i →
          rg.begin ≤ i ∧ i < rg.end_ ∧
          ∃ x left, S[i]? = some x ∧ S[i - 1]? = some left ∧ v = op x left ∧
            List.IsInfix [Event.apply x left, Event.write i v] tr ∧
            (i = rg.begin → t = 0 ∧ 0 < k ∧ r.temp[k - 1]? = some left ∧
              Event.readCarry ((k : Int) - 1) ∈ tr) ∧
            (i ≠ rg.begin → Event.readInput ((i : Int) - 1) ∈ tr) := by
  have hN : 0 < S.length := List.length_pos.2 hS
  have hsd := seeded_of_legal hd
  obtain ⟨idxs, temp, output, hrun, ⟨_, _, hext⟩, hlane, _⟩ :=
    adjacent_difference_spec S result op decomp L fuel hN hsd hL hfuel hres
  refine ⟨_, hrun, ?_⟩
  intro k t rg blk tr hrg hblk htr i v hmem hi
  obtain ⟨hk, rfl⟩ := range_map_getElem?_some _ _ _ _ hblk
  obtain ⟨ht, rfl⟩ := range_map_getElem?_some _ _ _ _ htr
  have hrunlane := (hlane k t rg hrg ht).1
  have h0 : k = 0 → rg.begin = 0 := by
    intro hk0
    subst hk0
    exact chain_head decomp 0 rg hd.1.2 hrg
  obtain ⟨h1, h2, x, l, hx, hv, hinf, hcase⟩ :=
    closure_lane_left S temp op decomp L fuel k t rg _ hL hrg h0 hrunlane i v hmem hi
  rcases hcase with ⟨hib, ht0, hkpos, hl, hread⟩ | ⟨hib, hl, hread⟩
  · obtain ⟨k1, rfl⟩ := Nat.exists_eq_succ_of_ne_zero (Nat.pos_iff_ne_zero.1 hkpos)
    have hk1 : decomp[k1]? = some decomp[k1] := List.getElem?_eq_getElem (by omega)
    have hsucc := chain_succ decomp 0 k1 decomp[k1] rg hd.1.2 hk1 hrg
    have htemp := (hext k1 decomp[k1] hk1 hk).2.2.2
    have hl2 : temp[k1]? = some l := by
      rw [readAt_pred temp (k1 + 1) (Nat.succ_pos _)] at hl
      exact hl
    refine ⟨by omega, h2, x, l, hx, ?_, hv, hinf, fun _ => ⟨ht0, hkpos, hl2, hread⟩,
      fun hne => absurd hib hne⟩
    rw [hib, hsucc, ← htemp]
    exact hl2
  · rw [readAt_pred S i hi] at hl
    exact ⟨by omega, h2, x, l, hx, hl, hv, hinf, fun heq => absurd heq hib, fun _ => hread⟩

theorem left_neighbour_invariant_witness :
    ∃ r, adjacent_difference [(4 : Int), 8, 15, 16, 23] [0, 0, 0, 0, 0] (fun a b => a - b)
        [index_range.mk 0 2, index_range.mk 2 5] 2 5 = some r ∧
      ∀ (k t : Nat) (rg : index_range) (blk : List (List (Event Int)))
        (tr : List (Event Int)),
        [index_range.mk 0 2, index_range.mk 2 5][k]? = some rg →
        r.lanes[k]? = some blk → blk[t]? = some tr →
        ∀ (i : Nat) (v : Int), Event.write i v ∈ tr → 0 < i →
          rg.begin ≤ i ∧ i < rg.end_ ∧
          ∃ x left, [(4 : Int), 8, 15, 16, 23][i]? = some x ∧
            [(4 : Int), 8, 15, 16, 23][i - 1]? = some left ∧ v = x - left ∧
            List.IsInfix [Event.apply x left, Event.write i v] tr ∧
            (i = rg.begin → t = 0 ∧ 0 < k ∧ r.temp[k - 1]? = some left ∧
              Event.readCarry ((k : Int) - 1) ∈ tr) ∧
            (i ≠ rg.begin → Event.readInput ((i : Int) - 1) ∈ tr) :=
  left_neighbour_invariant [(4 : Int), 8, 15, 16, 23] [0, 0, 0, 0, 0] (fun a b => a - b)
    [index_range.mk 0 2, index_range.mk 2 5] 2 5 (by decide) (by decide) (by decide)
    (by decide) (by decide)

/-! ## The seed of `next_left` -/

theorem closure_lane_eq_seeded {α : Type} (input temp : List α) (op : α → α → α)
    (decomp : List index_range) (L fuel k t : Nat) (rg : index_range)
    (hrg : decomp[k]? = some rg) :
    closure_lane input temp op decomp L fuel k t =
      if k = 0 then
        (readAt input 0).bind (fun v =>
          (closure_lane_seeded input op rg L fuel t v).map
            (fun tr => Event.readInput 0 :: tr))
      else
        (readAt temp ((k : Int) - 1)).bind (fun v =>
          (closure_lane_seeded input op rg L fuel t v).map
            (fun tr => Event.readCarry ((k : Int) - 1) :: tr)) := by
  simp only [closure_lane, closure_lane_seeded, hrg]
  by_cases hk : k = 0
  · rw [if_pos hk, if_pos hk]
    cases readAt input 0 with
    | none => rfl
    | some v =>
      simp only [Option.map_some', Option.some_bind]
      split
      · rfl
      · rename_i nl prime hp
        cases closure_loop input op rg.end_ L fuel rg.begin (rg.begin + t) nl <;> rfl
  · rw [if_neg hk, if_neg hk]
    cases readAt temp ((k : Int) - 1) with
    | none => rfl
    | some v =>
      simp only [Option.map_some', Option.some_bind]
      split
      · rfl
      · rename_i nl prime hp
        cases closure_loop input op rg.end_ L fuel rg.begin (rg.begin + t) nl <;> rfl

theorem closure_loop_idle {α : Type} (input : List α) (op : α → α → α) (e L : Nat) :
    ∀ (fuel base i : Nat) (nl nl2 : α), e ≤ i →
      closure_loop input op e L fuel base i nl = closure_loop input op e L fuel base i nl2 := by
  intro fuel
  induction fuel with
  | zero =>
    intro base i nl nl2 _
    simp [closure_loop]
  | succ fuel ih =>
    intro base i nl nl2 hi
    by_cases hb : base < e
    · have hp : ¬ i + L < e := by omega
      have hlt : ¬ i < e := by omega
      have hstep : ∀ z : α, chunkStep input op e L i z z [] [] := by
        intro z
        refine ⟨by rw [if_neg hp], by rw [if_neg hp], by rw [if_neg hlt]⟩
      rw [closure_loop_step input op e L fuel base i nl nl [] [] hb (hstep nl),
        closure_loop_step input op e L fuel base i nl2 nl2 [] [] hb (hstep nl2),
        ih (base + L) (i + L) nl nl2 (by omega)]
    · rw [closure_loop_done input op e L _ base i nl hb,
        closure_loop_done input op e L _ base i nl2 hb]

theorem chunkStep_writes {α : Type} (input : List α) (op : α → α → α) (e L i : Nat)
    (nl nl1 : α) (pre commit : List (Event α))
    (h : chunkStep input op e L i nl nl1 pre commit) :
    writesOf pre = [] ∧ writeIdxs commit = (if i < e then [i] else []) ∧
      ∀ w ∈ writesOf commit, w.1 = i := by
  obtain ⟨hpre, _, hcommit⟩ := h
  refine ⟨?_, ?_, ?_⟩
  · rw [hpre]
    split <;> rfl
  · by_cases hi : i < e
    · rw [if_pos hi] at hcommit
      obtain ⟨x, _, hc⟩ := hcommit
      rw [hc, if_pos hi]
      split <;> rfl
    · rw [if_neg hi] at hcommit
      rw [hcommit, if_neg hi]
      rfl
  · by_cases hi : i < e
    · rw [if_pos hi] at hcommit
      obtain ⟨x, _, hc⟩ := hcommit
      rw [hc]
      intro w hw
      split at hw <;> simp [writesOf] at hw <;> rw [hw]
    · rw [if_neg hi] at hcommit
      rw [hcommit]
      intro w hw
      simp [writesOf] at hw

theorem chunk_trace_writes {α : Type} (pre commit rest : List (Event α))
    (hpre : writesOf pre = []) :
    writesOf (pre ++ Event.barrier :: commit ++ rest) = writesOf commit ++ writesOf rest := by
  have hbar : writesOf (Event.barrier :: commit) = writesOf commit := rfl
  rw [writesOf_append, writesOf_append, hpre, hbar, List.nil_append]

theorem filter_eq_nil_of_fst {α : Type} (ws : List (Nat × α)) (i : Nat)
    (h : ∀ w ∈ ws, w.1 = i) : ws.filter (fun w => decide (w.1 ≠ i)) = [] := by
  rw [List.filter_eq_nil_iff]
  intro w hw
  simp [h w hw]

theorem closure_loop_seed {α : Type} (input : List α) (op : α → α → α) (e L : Nat)
    (fuel base i : Nat) (nl : α) (tr : List (Event α))
    (h : closure_loop input op e L fuel base i nl = some tr) (nl2 : α) :
    ∃ tr2, closure_loop input op e L fuel base i nl2 = some tr2 ∧
      writeIdxs tr2 = writeIdxs tr ∧ (i = 0 ∨ e ≤ i → tr2 = tr) ∧
      (writesOf tr2).filter (fun w => decide (w.1 ≠ i)) =
        (writesOf tr).filter (fun w => decide (w.1 ≠ i)) := by
  by_cases hb : base < e
  · obtain ⟨fuel1, nl1, pre, commit, rest, hf, hstep, hrest, htr⟩ :=
      closure_loop_inv input op e L fuel base i nl tr hb h
    subst hf
    -- the same chunk with the other value of `next_left`
    obtain ⟨nl3, commit2, hstep2, hrest2, hsame⟩ :
        ∃ nl3 commit2, chunkStep input op e L i nl2 nl3 pre commit2 ∧
          closure_loop input op e L fuel1 (base + L) (i + L) nl3 = some rest ∧
          (i = 0 ∨ e ≤ i → commit2 = commit) := by
      obtain ⟨hpre, hnl1, hcommit⟩ := hstep
      have hnext : ∃ nl3, (if i + L < e then
            readAt input ((i : Int) + (L : Int) - 1) = some nl3 else nl3 = nl2) ∧
          closure_loop input op e L fuel1 (base + L) (i + L) nl3 = some rest := by
        by_cases hp : i + L < e
        · rw [if_pos hp] at hnl1
          exact ⟨nl1, by rw [if_pos hp]; exact hnl1, hrest⟩
        · rw [if_neg hp] at hnl1
          refine ⟨nl2, by rw [if_neg hp], ?_⟩
          rw [closure_loop_idle input op e L fuel1 (base + L) (i + L) nl2 nl1 (by omega)]
          exact hrest
      obtain ⟨nl3, hnl3, hrest3⟩ := hnext
      by_cases hi : i < e
      · rw [if_pos hi] at hcommit
        obtain ⟨x, hx, hc⟩ := hcommit
        refine ⟨nl3, (if i = 0 then [Event.readInput (i : Int), Event.write i x]
          else [Event.readInput (i : Int), Event.apply x nl2, Event.write i (op x nl2)]),
          ⟨hpre, hnl3, by rw [if_pos hi]; exact ⟨x, hx, rfl⟩⟩, hrest3, ?_⟩
        rintro (h0 | h0)
        · rw [hc, if_pos h0, if_pos h0]
        · omega
      · rw [if_neg hi] at hcommit
        exact ⟨nl3, [], ⟨hpre, hnl3, by rw [if_neg hi]⟩, hrest3, fun _ => hcommit.symm⟩
    obtain ⟨hw1, hw2, hw3⟩ := chunkStep_writes input op e L i nl nl1 pre commit hstep
    obtain ⟨_, hv2, hv3⟩ := chunkStep_writes input op e L i nl2 nl3 pre commit2 hstep2
    refine ⟨pre ++ Event.barrier :: commit2 ++ rest, ?_, ?_, ?_, ?_⟩
    · rw [closure_loop_step input op e L fuel1 base i nl2 nl3 pre commit2 hb hstep2, hrest2]
      rfl
    · have e1 := chunk_trace_writes pre commit rest hw1
      have e2 := chunk_trace_writes pre commit2 rest hw1
      simp only [writeIdxs] at hw2 hv2 ⊢
      rw [htr, e1, e2, List.map_append, List.map_append, hw2, hv2]
    · intro h0
      rw [htr, hsame h0]
    · rw [htr, chunk_trace_writes pre commit rest hw1,
        chunk_trace_writes pre commit2 rest hw1, List.filter_append, List.filter_append,
        filter_eq_nil_of_fst _ i hw3, filter_eq_nil_of_fst _ i hv3]
  · rw [closure_loop_done input op e L fuel base i nl hb, Option.some.injEq] at h
    subst h
    exact ⟨[], closure_loop_done input op e L fuel base i nl2 hb, rfl, fun _ => rfl, rfl⟩

theorem closure_lane_seed {α : Type} (input : List α) (op : α → α → α)
    (rg : index_range) (L fuel t : Nat) (z : α) (tr : List (Event α))
    (h : closure_lane_seeded input op rg L fuel t z = some tr) (z2 : α) :
    ∃ tr2, closure_lane_seeded input op rg L fuel t z2 = some tr2 ∧
      writeIdxs tr2 = writeIdxs tr ∧ (t ≠ 0 ∨ rg.begin = 0 → tr2 = tr) ∧
      (writesOf tr2).filter (fun w => decide (w.1 ≠ rg.begin)) =
        (writesOf tr).filter (fun w => decide (w.1 ≠ rg.begin)) := by
  simp only [closure_lane_seeded] at h ⊢
  by_cases hp : rg.begin + t < rg.end_ ∧ t > 0
  · rw [if_pos hp] at h ⊢
    exact ⟨tr, h, rfl, fun _ => rfl, rfl⟩
  · rw [if_neg hp] at h ⊢
    simp only [] at h ⊢
    cases hbody : closure_loop input op rg.end_ L fuel rg.begin (rg.begin + t) z with
    | none => simp [hbody] at h
    | some body =>
      simp only [hbody, List.nil_append, Option.some.injEq] at h
      subst h
      obtain ⟨body2, hbody2, hidx, hsame, hfilter⟩ :=
        closure_loop_seed input op rg.end_ L fuel rg.begin (rg.begin + t) z body hbody z2
      refine ⟨body2, by simp only [hbody2, List.nil_append], hidx, ?_, ?_⟩
      · rintro (ht | hb0)
        · exact hsame (Or.inr (by omega))
        · by_cases ht : t = 0
          · exact hsame (Or.inl (by omega))
          · exact hsame (Or.inr (by omega))
      · by_cases ht : t = 0
        · subst ht
          exact hfilter
        · rw [hsame (Or.inr (by omega))]

/-- C17, block 0 needs no carry: for the decomposition with the single interval `[0, N)`,
`N > 0`, and every lane count `L ≥ 1`, the carry buffer is empty and no lane reads a carry
entry; the trace of every lane is the defensive read of `input[0]` followed by events that are
the same whatever value `next_left` is seeded with, so the seeded value reaches no application
of the operator and no written value; and the output is the sequential definition. -/
theorem block_zero_needs_no_carry {α : Type} (S result : List α) (op : α → α → α)
    (L fuel : Nat) (hS : S ≠ []) (hL : 1 ≤ L)
    (hfuel : S.length ≤ fuel) (hres : S.length ≤ result.length) :
    ∃ r, adjacent_difference S result op [index_range.mk 0 S.length] L fuel = some r ∧
      r.temp = [] ∧
      (∀ blk ∈ r.lanes, ∀ tr ∈ blk, ∀ idx, Event.readCarry idx ∉ tr) ∧
      (∀ t, t < L → ∃ blk body, r.lanes[0]? = some blk ∧
        blk[t]? = some (Event.readInput 0 :: body) ∧
        ∀ z, closure_lane_seeded S op (index_range.mk 0 S.length) L fuel t z = some body) ∧
      r.output[0]? = S[0]? ∧
      ∀ i, 0 < i → i < S.length →
        ∃ x p, S[i]? = some x ∧ S[i - 1]? = some p ∧ r.output[i]? = some (op x p) := by
  have hN : 0 < S.length := List.length_pos.2 hS
  obtain ⟨idxs, temp, output, hrun, ⟨_, htlen, _⟩, hlane, _, _, _, hget⟩ :=
    adjacent_difference_spec S result op [index_range.mk 0 S.length] L fuel hN
      (seeded_single S.length hN) hL hfuel hres
  have hrg : [index_range.mk 0 S.length][0]? = some (index_range.mk 0 S.length) := rfl
  refine ⟨_, hrun, ?_, ?_, ?_, ?_, ?_⟩
  · show temp = []
    exact List.length_eq_zero.1 (by simpa using htlen)
  · intro blk hblk tr htr idx hmem
    obtain ⟨k, t, hk, ht, _, rfl⟩ :=
      mem_blockTrace S temp op [index_range.mk 0 S.length] L fuel blk tr hblk htr
    have hk0 : k = 0 := by simpa using hk
    subst hk0
    have hok := (hlane 0 t _ hrg ht).2.1 _ hmem
    exact absurd hok.1 (lt_irrefl 0)
  · intro t ht
    have hrunlane := (hlane 0 t _ hrg ht).1
    rw [closure_lane_eq_seeded S temp op _ L fuel 0 t _ hrg, if_pos rfl] at hrunlane
    obtain ⟨v, hv, _⟩ := readAt_some S 0 (le_refl _) (by omega)
    rw [hv, Option.some_bind] at hrunlane
    cases hbody : closure_lane_seeded S op (index_range.mk 0 S.length) L fuel t v with
    | none => simp [hbody] at hrunlane
    | some body =>
      simp only [hbody, Option.map_some', Option.some.injEq] at hrunlane
      refine ⟨blockTrace S temp op [index_range.mk 0 S.length] L fuel 0, body,
        range_map_getElem?_lt _ _ _ (by simp), ?_, ?_⟩
      · rw [hrunlane]
        exact range_map_getElem?_lt _ _ _ ht
      · intro z
        obtain ⟨tr2, htr2, _, hsame, _⟩ :=
          closure_lane_seed S op (index_range.mk 0 S.length) L fuel t v body hbody z
        rw [htr2, hsame (Or.inr rfl)]
  · have := hget 0
    rw [if_pos hN] at this
    simpa [sequential_definition] using this
  · intro i h0 hi
    obtain ⟨x, p, hx, hp, hseq⟩ := sequential_definition_pos S op i h0 hi
    refine ⟨x, p, hx, hp, ?_⟩
    have := hget i
    rw [if_pos hi, hseq] at this
    exact this

theorem block_zero_needs_no_carry_witness :
    ∃ r, adjacent_difference [(4 : Int), 8, 15] [0, 0, 0] (fun a b => a - b)
        [index_range.mk 0 [(4 : Int), 8, 15].length] 2 3 = some r ∧
      r.temp = [] ∧
      (∀ blk ∈ r.lanes, ∀ tr ∈ blk, ∀ idx, Event.readCarry idx ∉ tr) ∧
      (∀ t, t < 2 → ∃ blk body, r.lanes[0]? = some blk ∧
        blk[t]? = some (Event.readInput 0 :: body) ∧
        ∀ z, closure_lane_seeded [(4 : Int), 8, 15] (fun a b => a - b)
          (index_range.mk 0 [(4 : Int), 8, 15].length) 2 3 t z = some body) ∧
      r.output[0]? = [(4 : Int), 8, 15][0]? ∧
      ∀ i, 0 < i → i < [(4 : Int), 8, 15].length →
        ∃ x p, [(4 : Int), 8, 15][i]? = some x ∧ [(4 : Int), 8, 15][i - 1]? = some p ∧
          r.output[i]? = some (x - p) :=
  block_zero_needs_no_carry [(4 : Int), 8, 15] [0, 0, 0] (fun a b => a - b) 2 3
    (by decide) (by decide) (by decide) (by decide)

/-! ## The carry buffer -/

theorem applyWrites_char_on {α : Type} (N : Nat) (f : Nat → Option α) (P : Nat → Prop)
    (ws : List (Nat × α)) (out : List α) (hN : N ≤ out.length)
    (hcount : ∀ j, (ws.map Prod.fst).count j = if j < N then 1 else 0)
    (hval : ∀ w ∈ ws, P w.1 → f w.1 = some w.2) :
    ∃ res, applyWrites ws out = some res ∧ res.length = out.length ∧
      ∀ i, P i → res[i]? = if i < N then f i else out[i]? := by
  have hmem : ∀ j, j ∈ ws.map Prod.fst ↔ j < N := by
    intro j
    rw [← List.count_pos_iff, hcount j]
    by_cases h : j < N <;> simp [h]
  have hnd : (ws.map Prod.fst).Nodup := by
    rw [List.nodup_iff_count_le_one]
    intro j
    rw [hcount j]
    by_cases h : j < N <;> simp [h]
  obtain ⟨res, hres, hlen, hout, hin⟩ := applyWrites_spec ws out (by
    intro w hw
    have : w.1 < N := (hmem w.1).1 (List.mem_map_of_mem _ hw)
    omega)
  refine ⟨res, hres, hlen, ?_⟩
  intro i hP
  by_cases hi : i < N
  · rw [if_pos hi]
    obtain ⟨w, hw, hwi⟩ := List.mem_map.1 ((hmem i).2 hi)
    have h1 := hin hnd w.1 w.2 hw
    rw [← hwi, h1, hval w hw (by rw [hwi]; exact hP)]
  · rw [if_neg hi]
    exact hout i (fun h => hi ((hmem i).1 h))

theorem writesOf_cons_readCarry {α : Type} (idx : Int) (tr : List (Event α)) :
    writesOf (Event.readCarry idx :: tr) = writesOf tr := rfl

/-- A lane run over any carry buffer of the right length, against the run over the carry
buffer the extractor builds. -/
theorem closure_lane_any_carry {α : Type} (input temp c : List α) (op : α → α → α)
    (decomp : List index_range) (L fuel k t : Nat) (rg : index_range)
    (tr : List (Event α)) (hrg : decomp[k]? = some rg)
    (hc : c.length = decomp.length - 1)
    (h : closure_lane input temp op decomp L fuel k t = some tr) :
    ∃ tr2, closure_lane input c op decomp L fuel k t = some tr2 ∧
      writeIdxs tr2 = writeIdxs tr ∧ (t ≠ 0 ∨ k = 0 → writesOf tr2 = writesOf tr) ∧
      (writesOf tr2).filter (fun w => decide (w.1 ≠ rg.begin)) =
        (writesOf tr).filter (fun w => decide (w.1 ≠ rg.begin)) := by
  have hk := getElem?_lt_length hrg
  rw [closure_lane_eq_seeded input temp op decomp L fuel k t rg hrg] at h
  rw [closure_lane_eq_seeded input c op decomp L fuel k t rg hrg]
  by_cases hk0 : k = 0
  · rw [if_pos hk0] at h ⊢
    exact ⟨tr, h, rfl, fun _ => rfl, rfl⟩
  · rw [if_neg hk0] at h ⊢
    cases hv : readAt temp ((k : Int) - 1) with
    | none => simp [hv] at h
    | some v =>
      rw [hv, Option.some_bind] at h
      cases hbody : closure_lane_seeded input op rg L fuel t v with
      | none => simp [hbody] at h
      | some body =>
        simp only [hbody, Option.map_some', Option.some.injEq] at h
        subst h
        obtain ⟨z, hz, _⟩ := readAt_some c ((k : Int) - 1) (by omega) (by omega)
        obtain ⟨body2, hbody2, hidx, hsame, hfilter⟩ :=
          closure_lane_seed input op rg L fuel t v body hbody z
        refine ⟨Event.readCarry ((k : Int) - 1) :: body2, ?_, ?_, ?_, ?_⟩
        · rw [hz, Option.some_bind, hbody2]
          rfl
        · exact hidx
        · rintro (ht | hk1)
          · rw [writesOf_cons_readCarry, writesOf_cons_readCarry, hsame (Or.inl ht)]
          · exact absurd hk1 hk0
        · rw [writesOf_cons_readCarry, writesOf_cons_readCarry]
          exact hfilter

theorem writeIdxs_launch {α : Type} (f : Nat → Nat → List (Event α)) (M L : Nat) :
    writeIdxs ((List.range M).map (fun k => (List.range L).map (f k))).flatten.flatten =
      ((List.range M).map (fun k =>
        ((List.range L).map (fun t => writeIdxs (f k t))).flatten)).flatten := by
  rw [writeIdxs_flatten, List.map_flatten, List.flatten_flatten, List.map_map, List.map_map]
  congr 1
  apply List.map_congr_left
  intro k _
  simp only [Function.comp_apply, List.map_map]
  rfl

theorem block_processor_any_carry {α : Type} (S temp c result : List α) (op : α → α → α)
    (decomp : List index_range) (L fuel : Nat)
    (hres : S.length ≤ result.length) (hc : c.length = decomp.length - 1)
    (hlane : ∀ (k t : Nat) (rg : index_range), decomp[k]? = some rg → t < L →
      closure_lane S temp op decomp L fuel k t =
          some (laneTrace S temp op decomp L fuel k t) ∧
        (∀ ev ∈ laneTrace S temp op decomp L fuel k t,
          okEvent S op (carryOf k) rg.begin rg.end_ ev))
    (hcount : ∀ j, (writeIdxs ((List.range decomp.length).map
        (blockTrace S temp op decomp L fuel)).flatten.flatten).count j =
      if j < S.length then 1 else 0) :
    (∀ (k t : Nat) (rg : index_range), decomp[k]? = some rg → t < L →
      closure_lane S c op decomp L fuel k t = some (laneTrace S c op decomp L fuel k t) ∧
      writeIdxs (laneTrace S c op decomp L fuel k t) =
        writeIdxs (laneTrace S temp op decomp L fuel k t) ∧
      (t ≠ 0 ∨ k = 0 → writesOf (laneTrace S c op decomp L fuel k t) =
        writesOf (laneTrace S temp op decomp L fuel k t)) ∧
      (writesOf (laneTrace S c op decomp L fuel k t)).filter
          (fun w => decide (w.1 ≠ rg.begin)) =
        (writesOf (laneTrace S temp op decomp L fuel k t)).filter
          (fun w => decide (w.1 ≠ rg.begin))) ∧
    ∃ o, block_processor S c result op decomp L fuel = some o ∧
      o.length = result.length ∧
      ∀ i, (∀ (k : Nat) (rg : index_range), decomp[k + 1]? = some rg → i ≠ rg.begin) →
        o[i]? = if i < S.length then sequential_definition S op i else result[i]? := by
  have hrel : ∀ (k t : Nat) (rg : index_range), decomp[k]? = some rg → t < L →
      closure_lane S c op decomp L fuel k t = some (laneTrace S c op decomp L fuel k t) ∧
      writeIdxs (laneTrace S c op decomp L fuel k t) =
        writeIdxs (laneTrace S temp op decomp L fuel k t) ∧
      (t ≠ 0 ∨ k = 0 → writesOf (laneTrace S c op decomp L fuel k t) =
        writesOf (laneTrace S temp op decomp L fuel k t)) ∧
      (writesOf (laneTrace S c op decomp L fuel k t)).filter
          (fun w => decide (w.1 ≠ rg.begin)) =
        (writesOf (laneTrace S temp op decomp L fuel k t)).filter
          (fun w => decide (w.1 ≠ rg.begin)) := by
    intro k t rg hrg ht
    obtain ⟨tr2, htr2, h1, h2, h3⟩ := closure_lane_any_carry S temp c op decomp L fuel k t rg
      _ hrg hc (hlane k t rg hrg ht).1
    have hlt : laneTrace S c op decomp L fuel k t = tr2 := by
      simp [laneTrace, htr2]
    rw [hlt]
    exact ⟨htr2, h1, h2, h3⟩
  refine ⟨hrel, ?_⟩
  have hlaunch : launch_closure S c op decomp L fuel =
      some ((List.range decomp.length).map (blockTrace S c op decomp L fuel)) := by
    unfold launch_closure
    apply allSome_map_of_forall
    intro k hk
    have hklt := List.mem_range.1 hk
    unfold closure_block blockTrace
    apply allSome_map_of_forall
    intro t ht
    exact (hrel k t decomp[k] (List.getElem?_eq_getElem hklt) (List.mem_range.1 ht)).1
  have hidx : writeIdxs ((List.range decomp.length).map
        (blockTrace S c op decomp L fuel)).flatten.flatten =
      writeIdxs ((List.range decomp.length).map
        (blockTrace S temp op decomp L fuel)).flatten.flatten := by
    have e1 := writeIdxs_launch (laneTrace S c op decomp L fuel) decomp.length L
    have e2 := writeIdxs_launch (laneTrace S temp op decomp L fuel) decomp.length L
    have hb1 : (fun k => (List.range L).map (laneTrace S c op decomp L fuel k)) =
        blockTrace S c op decomp L fuel := rfl
    have hb2 : (fun k => (List.range L).map (laneTrace S temp op decomp L fuel k)) =
        blockTrace S temp op decomp L fuel := rfl
    rw [hb1] at e1
    rw [hb2] at e2
    rw [e1, e2]
    congr 1
    apply List.map_congr_left
    intro k hk
    have hklt := List.mem_range.1 hk
    congr 1
    apply List.map_congr_left
    intro t ht
    exact (hrel k t decomp[k] (List.getElem?_eq_getElem hklt) (List.mem_range.1 ht)).2.1
  obtain ⟨o, ho, holen, hoget⟩ := applyWrites_char_on S.length (sequential_definition S op)
    (fun i => ∀ (k : Nat) (rg : index_range), decomp[k + 1]? = some rg → i ≠ rg.begin)
    (writesOf ((List.range decomp.length).map
      (blockTrace S c op decomp L fuel)).flatten.flatten) result hres
    (by
      intro j
      have := hcount j
      rw [← hidx] at this
      exact this)
    (by
      intro w hw hP
      have hev : Event.write w.1 w.2 ∈ ((List.range decomp.length).map
          (blockTrace S c op decomp L fuel)).flatten.flatten :=
        (mem_writesOf _ w.1 w.2).1 hw
      rw [List.mem_flatten] at hev
      obtain ⟨tr, htr, hin⟩ := hev
      rw [List.mem_flatten] at htr
      obtain ⟨blk, hblk, htrb⟩ := htr
      obtain ⟨k, t, hk, ht, _, rfl⟩ := mem_blockTrace S c op decomp L fuel blk tr hblk htrb
      have hrg : decomp[k]? = some decomp[k] := List.getElem?_eq_getElem hk
      obtain ⟨_, _, hsame, hfilter⟩ := hrel k t decomp[k] hrg ht
      have hwc : w ∈ writesOf (laneTrace S c op decomp L fuel k t) :=
        (mem_writesOf _ w.1 w.2).2 hin
      have hwt : w ∈ writesOf (laneTrace S temp op decomp L fuel k t) := by
        by_cases hk0 : k = 0
        · rw [← hsame (Or.inr hk0)]
          exact hwc
        · obtain ⟨k1, rfl⟩ := Nat.exists_eq_succ_of_ne_zero hk0
          have hne : w.1 ≠ decomp[k1 + 1].begin := hP k1 decomp[k1 + 1] hrg
          have hf : w ∈ (writesOf (laneTrace S c op decomp L fuel (k1 + 1) t)).filter
              (fun w => decide (w.1 ≠ decomp[k1 + 1].begin)) := by
            rw [List.mem_filter]
            exact ⟨hwc, by simpa using hne⟩
          rw [hfilter] at hf
          exact (List.mem_filter.1 hf).1
      have hevt : Event.write w.1 w.2 ∈ laneTrace S temp op decomp L fuel k t :=
        (mem_writesOf _ w.1 w.2).1 hwt
      exact ((hlane k t decomp[k] hrg ht).2 _ hevt).2.2)
  refine ⟨o, ?_, holen, hoget⟩
  simp only [block_processor, hlaunch]
  exact ho

/-- C16, the carry buffer influences only block starts: for every input, operator, legal
decomposition and lane count `L ≥ 1`, and any two carry buffers `c1`, `c2` of length `M - 1`,
the block processor completes over both and its two outputs agree at every index that is not
the first index of a block other than block 0. Lane by lane: the writes of a lane with
`lane_index > 0` (and of every lane of block 0) are the same over `c1` and over `c2`, and the
writes of lane 0 are the same but for the one at the first index of its block, its first
chunk. -/
theorem carry_influences_only_block_starts {α : Type} (S result c1 c2 : List α)
    (op : α → α → α) (decomp : List index_range) (L fuel : Nat)
    (hS : S ≠ []) (hd : legal S.length decomp) (hL : 1 ≤ L)
    (hfuel : S.length ≤ fuel) (hres : S.length ≤ result.length)
    (h1 : c1.length = decomp.length - 1) (h2 : c2.length = decomp.length - 1) :
    ∃ o1 o2, block_processor S c1 result op decomp L fuel = some o1 ∧
      block_processor S c2 result op decomp L fuel = some o2 ∧
      (∀ i, (∀ (k : Nat) (rg : index_range), decomp[k + 1]? = some rg → i ≠ rg.begin) →
        o1[i]? = o2[i]?) ∧
      ∀ (k t : Nat) (rg : index_range), decomp[k]? = some rg → t < L →
        ∃ tr1 tr2, closure_lane S c1 op decomp L fuel k t = some tr1 ∧
          closure_lane S c2 op decomp L fuel k t = some tr2 ∧
          (t ≠ 0 ∨ k = 0 → writesOf tr1 = writesOf tr2) ∧
          (writesOf tr1).filter (fun w => decide (w.1 ≠ rg.begin)) =
            (writesOf tr2).filter (fun w => decide (w.1 ≠ rg.begin)) := by
  have hN : 0 < S.length := List.length_pos.2 hS
  obtain ⟨idxs, temp, output, _, _, hlane, hcount, _⟩ :=
    adjacent_difference_spec S result op decomp L fuel hN (seeded_of_legal hd) hL hfuel hres
  have hlane2 : ∀ (k t : Nat) (rg : index_range), decomp[k]? = some rg → t < L →
      closure_lane S temp op decomp L fuel k t =
          some (laneTrace S temp op decomp L fuel k t) ∧
        (∀ ev ∈ laneTrace S temp op decomp L fuel k t,
          okEvent S op (carryOf k) rg.begin rg.end_ ev) :=
    fun k t rg hrg ht => ⟨(hlane k t rg hrg ht).1, (hlane k t rg hrg ht).2.1⟩
  obtain ⟨hrel1, o1, ho1, _, hget1⟩ :=
    block_processor_any_carry S temp c1 result op decomp L fuel hres h1 hlane2 hcount
  obtain ⟨hrel2, o2, ho2, _, hget2⟩ :=
    block_processor_any_carry S temp c2 result op decomp L fuel hres h2 hlane2 hcount
  refine ⟨o1, o2, ho1, ho2, ?_, ?_⟩
  · intro i hP
    rw [hget1 i hP, hget2 i hP]
  · intro k t rg hrg ht
    obtain ⟨hr1, _, hs1, hf1⟩ := hrel1 k t rg hrg ht
    obtain ⟨hr2, _, hs2, hf2⟩ := hrel2 k t rg hrg ht
    refine ⟨_, _, hr1, hr2, ?_, ?_⟩
    · intro hcase
      rw [hs1 hcase, hs2 hcase]
    · rw [hf1, hf2]

theorem carry_influences_only_block_starts_witness :
    ∃ o1 o2, block_processor [(4 : Int), 8, 15, 16, 23] [100] [0, 0, 0, 0, 0]
        (fun a b => a - b) [index_range.mk 0 2, index_range.mk 2 5] 2 5 = some o1 ∧
      block_processor [(4 : Int), 8, 15, 16, 23] [-7] [0, 0, 0, 0, 0]
        (fun a b => a - b) [index_range.mk 0 2, index_range.mk 2 5] 2 5 = some o2 ∧
      (∀ i, (∀ (k : Nat) (rg : index_range),
          [index_range.mk 0 2, index_range.mk 2 5][k + 1]? = some rg → i ≠ rg.begin) →
        o1[i]? = o2[i]?) ∧
      ∀ (k t : Nat) (rg : index_range),
        [index_range.mk 0 2, index_range.mk 2 5][k]? = some rg → t < 2 →
        ∃ tr1 tr2, closure_lane [(4 : Int), 8, 15, 16, 23] [100] (fun a b => a - b)
            [index_range.mk 0 2, index_range.mk 2 5] 2 5 k t = some tr1 ∧
          closure_lane [(4 : Int), 8, 15, 16, 23] [-7] (fun a b => a - b)
            [index_range.mk 0 2, index_range.mk 2 5] 2 5 k t = some tr2 ∧
          (t ≠ 0 ∨ k = 0 → writesOf tr1 = writesOf tr2) ∧
          (writesOf tr1).filter (fun w => decide (w.1 ≠ rg.begin)) =
            (writesOf tr2).filter (fun w => decide (w.1 ≠ rg.begin)) :=
  carry_influences_only_block_starts [(4 : Int), 8, 15, 16, 23] [0, 0, 0, 0, 0] [100] [-7]
    (fun a b => a - b) [index_range.mk 0 2, index_range.mk 2 5] 2 5 (by decide) (by decide)
    (by decide) (by decide) (by decide) (by decide) (by decide)

/-! ## Phases -/

theorem phased_append {α : Type} :
    ∀ (a b : List (Event α)) (c : Nat),
      phased c (a ++ b) = phased c a ++ phased (c + barriers a) b
  | [], b, c => by simp [phased, barriers]
  | ev :: a, b, c => by
    have ih1 := phased_append a b c
    have ih2 := phased_append a b (c + 1)
    cases ev with
    | barrier =>
      show (c, Event.barrier) :: phased (c + 1) (a ++ b) =
        (c, Event.barrier) :: phased (c + 1) a ++ phased (c + (barriers a + 1)) b
      have : c + 1 + barriers a = c + (barriers a + 1) := by omega
      rw [ih2, this]
      rfl
    | readInput idx =>
      show (c, Event.readInput idx) :: phased c (a ++ b) =
        (c, Event.readInput idx) :: phased c a ++ phased (c + barriers a) b
      rw [ih1]
      rfl
    | readCarry idx =>
      show (c, Event.readCarry idx) :: phased c (a ++ b) =
        (c, Event.readCarry idx) :: phased c a ++ phased (c + barriers a) b
      rw [ih1]
      rfl
    | apply x l =>
      show (c, Event.apply x l) :: phased c (a ++ b) =
        (c, Event.apply x l) :: phased c a ++ phased (c + barriers a) b
      rw [ih1]
      rfl
    | write idx v =>
      show (c, Event.write idx v) :: phased c (a ++ b) =
        (c, Event.write idx v) :: phased c a ++ phased (c + barriers a) b
      rw [ih1]
      rfl

theorem loopEventAt_shift {α : Type} (e L i c ph : Nat) (ev : Event α)
    (h : loopEventAt e L (i + L) (c + 1) ph ev) : loopEventAt e L i c ph ev := by
  cases ev with
  | readInput p =>
    obtain ⟨q, hq⟩ := h
    refine ⟨q + 1, ?_⟩
    rw [Nat.succ_mul]
    rcases hq with ⟨h1, h2, h3⟩ | ⟨h1, h2, h3⟩
    · left
      exact ⟨by omega, by rw [h2]; congr 2; omega, by omega⟩
    · right
      exact ⟨by omega, by rw [h2]; congr 1; omega, by omega⟩
  | write p v =>
    obtain ⟨q, h1, h2, h3⟩ := h
    refine ⟨q + 1, ?_⟩
    rw [Nat.succ_mul]
    exact ⟨by omega, by omega, h3⟩
  | readCarry idx => trivial
  | barrier => trivial
  | apply x l => trivial

theorem closure_loop_phases {α : Type} (input : List α) (op : α → α → α) (e L : Nat) :
    ∀ (fuel base i : Nat) (nl : α) (tr : List (Event α)) (c : Nat),
      closure_loop input op e L fuel base i nl = some tr →
      ∀ (ph : Nat) (ev : Event α), (ph, ev) ∈ phased c tr → loopEventAt e L i c ph ev := by
  intro fuel
  induction fuel with
  | zero =>
    intro base i nl tr c h ph ev hmem
    by_cases hb : base < e
    · simp [closure_loop, hb] at h
    · rw [closure_loop_done input op e L 0 base i nl hb, Option.some.injEq] at h
      subst h
      simp [phased] at hmem
  | succ fuel ih =>
    intro base i nl tr c h ph ev hmem
    by_cases hb : base < e
    · obtain ⟨nl1, pre, commit, rest, hstep, hrest, htr⟩ :=
        closure_loop_inv_succ input op e L fuel base i nl tr hb h
      obtain ⟨hbp, hbc⟩ := chunkStep_barriers input op e L i nl nl1 pre commit hstep
      obtain ⟨hpre, _, hcommit⟩ := hstep
      have hbar : barriers (pre ++ Event.barrier :: commit) = 1 := by
        rw [barriers_append, hbp]
        show 0 + (barriers commit + 1) = 1
        omega
      have hsplit : phased c tr =
          phased c pre ++ (c, Event.barrier) :: phased (c + 1) commit ++
            phased (c + 1) rest := by
        rw [htr, phased_append (pre ++ Event.barrier :: commit) rest c, hbar,
          phased_append pre (Event.barrier :: commit) c, hbp]
        rfl
      rw [hsplit, List.mem_append, List.mem_append, List.mem_cons] at hmem
      rcases hmem with (hmem | hmem | hmem) | hmem
      · -- the prefetch
        rw [hpre] at hmem
        by_cases hp : i + L < e
        · rw [if_pos hp] at hmem
          simp only [phased, List.mem_singleton, Prod.mk.injEq] at hmem
          obtain ⟨rfl, rfl⟩ := hmem
          refine ⟨0, Or.inl ⟨rfl, ?_, by omega⟩⟩
          simp
        · rw [if_neg hp] at hmem
          simp [phased] at hmem
      · simp only [Prod.mk.injEq] at hmem
        rw [hmem.2]
        trivial
      · -- the commit
        by_cases hi : i < e
        · rw [if_pos hi] at hcommit
          obtain ⟨x, _, hc⟩ := hcommit
          rw [hc] at hmem
          by_cases h0 : i = 0
          · rw [if_pos h0] at hmem
            simp only [phased, List.mem_cons, List.mem_singleton, Prod.mk.injEq,
              List.not_mem_nil, or_false] at hmem
            rcases hmem with ⟨rfl, rfl⟩ | ⟨rfl, rfl⟩
            · exact ⟨0, Or.inr ⟨rfl, by simp, by omega⟩⟩
            · exact ⟨0, rfl, by omega, hi⟩
          · rw [if_neg h0] at hmem
            simp only [phased, List.mem_cons, List.mem_singleton, Prod.mk.injEq,
              List.not_mem_nil, or_false] at hmem
            rcases hmem with ⟨rfl, rfl⟩ | ⟨rfl, rfl⟩ | ⟨rfl, rfl⟩
            · exact ⟨0, Or.inr ⟨rfl, by simp, by omega⟩⟩
            · trivial
            · exact ⟨0, rfl, by omega, hi⟩
        · rw [if_neg hi] at hcommit
          rw [hcommit] at hmem
          simp [phased] at hmem
      · exact loopEventAt_shift e L i c ph ev (ih _ _ _ _ (c + 1) hrest ph ev hmem)
    · rw [closure_loop_done input op e L (fuel + 1) base i nl hb, Option.some.injEq] at h
      subst h
      simp [phased] at hmem

theorem closure_lane_phases {α : Type} (input temp : List α) (op : α → α → α)
    (decomp : List index_range) (L fuel k t : Nat) (rg : index_range)
    (tr : List (Event α)) (hrg : decomp[k]? = some rg)
    (h : closure_lane input temp op decomp L fuel k t = some tr) :
    ∀ (ph : Nat) (ev : Event α), (ph, ev) ∈ phased 0 tr →
      (ph = 0 ∧ ∀ (p : Nat) (v : α), ev ≠ Event.write p v) ∨
        loopEventAt rg.end_ L (rg.begin + t) 0 ph ev := by
  intro ph ev hmem
  obtain ⟨nl0, nl, seed, prime, body, hstart, hbody, htr⟩ :=
    closure_lane_inv input temp op decomp L fuel k t rg tr hrg h
  obtain ⟨hbs, hbp⟩ := laneStart_barriers input temp rg k t nl0 nl seed prime hstart
  obtain ⟨hseed, hprime⟩ := hstart
  have hsplit : phased 0 tr = phased 0 seed ++ phased 0 prime ++ phased 0 body := by
    rw [htr, phased_append (seed ++ prime) body 0, phased_append seed prime 0,
      barriers_append, hbs, hbp]
  rw [hsplit, List.mem_append, List.mem_append] at hmem
  rcases hmem with (hmem | hmem) | hmem
  · left
    by_cases hk : k = 0
    · rw [if_pos hk] at hseed
      rw [hseed.2] at hmem
      simp only [phased, List.mem_singleton, Prod.mk.injEq] at hmem
      obtain ⟨rfl, rfl⟩ := hmem
      exact ⟨rfl, fun p v hne => Event.noConfusion hne⟩
    · rw [if_neg hk] at hseed
      rw [hseed.2] at hmem
      simp only [phased, List.mem_singleton, Prod.mk.injEq] at hmem
      obtain ⟨rfl, rfl⟩ := hmem
      exact ⟨rfl, fun p v hne => Event.noConfusion hne⟩
  · left
    by_cases hp : rg.begin + t < rg.end_ ∧ t > 0
    · rw [if_pos hp] at hprime
      rw [hprime.2] at hmem
      simp only [phased, List.mem_singleton, Prod.mk.injEq] at hmem
      obtain ⟨rfl, rfl⟩ := hmem
      exact ⟨rfl, fun p v hne => Event.noConfusion hne⟩
    · rw [if_neg hp] at hprime
      rw [hprime.2] at hmem
      simp [phased] at hmem
  · right
    exact closure_loop_phases input op rg.end_ L _ _ _ _ _ 0 hbody ph ev hmem

theorem chunk_order (L t t2 q q2 : Nat) (ht : t < L) (hlt : q < q2) :
    t + q * L < t2 + q2 * L := by
  have h1 : (q + 1) * L ≤ q2 * L := Nat.mul_le_mul_right L hlt
  rw [Nat.succ_mul] at h1
  omega

/-- C18, the barrier separates neighbour reads from writes: for every legal decomposition,
every block, every lane count `L ≥ 1` and every two different lanes of the block, both lanes
pass the same number of barriers, and when one lane writes `output[p]` in phase `phw` (after
`phw` barriers) and the other reads `input[p]` in phase `phr`, then `phr < phw`: the read is
issued before a barrier that the writing lane passes before its write, never in the phase of
the write or a later one. -/
theorem barrier_separates_reads_from_writes {α : Type} (S result : List α)
    (op : α → α → α) (decomp : List index_range) (L fuel : Nat)
    (hS : S ≠ []) (hd : legal S.length decomp) (hL : 1 ≤ L)
    (hfuel : S.length ≤ fuel) (hres : S.length ≤ result.length) :
    ∃ r, adjacent_difference S result op decomp L fuel = some r ∧
      ∀ (k : Nat) (rg : index_range) (blk : List (List (Event α))),
        decomp[k]? = some rg → r.lanes[k]? = some blk →
        ∀ (t t2 : Nat) (tr tr2 : List (Event α)),
          blk[t]? = some tr → blk[t2]? = some tr2 → t ≠ t2 →
          barriers tr = barriers tr2 ∧
          ∀ (p : Nat) (v : α) (phr phw : Nat),
            (phw, Event.write p v) ∈ phased 0 tr →
            (phr, Event.readInput (p : Int)) ∈ phased 0 tr2 → phr < phw := by
  have hN : 0 < S.length := List.length_pos.2 hS
  obtain ⟨idxs, temp, output, hrun, _, hlane, _⟩ :=
    adjacent_difference_spec S result op decomp L fuel hN (seeded_of_legal hd) hL hfuel hres
  refine ⟨_, hrun, ?_⟩
  intro k rg blk hrg hblk t t2 tr tr2 htr htr2 hne
  obtain ⟨hk, rfl⟩ := range_map_getElem?_some _ _ _ _ hblk
  obtain ⟨ht, rfl⟩ := range_map_getElem?_some _ _ _ _ htr
  obtain ⟨ht2, rfl⟩ := range_map_getElem?_some _ _ _ _ htr2
  have hrun1 := (hlane k t rg hrg ht).1
  have hrun2 := (hlane k t2 rg hrg ht2).1
  constructor
  · rw [(closure_lane_chunks S temp op decomp L fuel k t rg _ hL hrg hrun1).1,
      (closure_lane_chunks S temp op decomp L fuel k t2 rg _ hL hrg hrun2).1]
  · intro p v phr phw hw hr
    have hwc := closure_lane_phases S temp op decomp L fuel k t rg _ hrg hrun1 phw _ hw
    have hrc := closure_lane_phases S temp op decomp L fuel k t2 rg _ hrg hrun2 phr _ hr
    rcases hwc with ⟨_, hnw⟩ | hwc
    · exact absurd rfl (hnw p v)
    · obtain ⟨q, hphw, hp, _⟩ := hwc
      rcases hrc with ⟨h0, _⟩ | hrc
      · omega
      · obtain ⟨q2, hq2⟩ := hrc
        rcases hq2 with ⟨hphr, hp2, _⟩ | ⟨hphr, hp2, _⟩
        · -- a prefetch read of chunk `q2`
          by_contra hcon
          have hlt : q < q2 := by omega
          have := chunk_order L t t2 q q2 ht hlt
          omega
        · -- the read of the lane's own position
          by_contra _
          have hpos : t + q * L = t2 + q2 * L := by omega
          rcases Nat.lt_trichotomy q q2 with hlt | heq | hgt
          · have := chunk_order L t t2 q q2 ht hlt
            omega
          · subst heq
            omega
          · have := chunk_order L t2 t q2 q ht2 hgt
            omega

theorem barrier_separates_reads_from_writes_witness :
    ∃ r, adjacent_difference [(4 : Int), 8, 15, 16, 23] [0, 0, 0, 0, 0] (fun a b => a - b)
        [index_range.mk 0 2, index_range.mk 2 5] 2 5 = some r ∧
      ∀ (k : Nat) (rg : index_range) (blk : List (List (Event Int))),
        [index_range.mk 0 2, index_range.mk 2 5][k]? = some rg → r.lanes[k]? = some blk →
        ∀ (t t2 : Nat) (tr tr2 : List (Event Int)),
          blk[t]? = some tr → blk[t2]? = some tr2 → t ≠ t2 →
          barriers tr = barriers tr2 ∧
          ∀ (p : Nat) (v : Int) (phr phw : Nat),
            (phw, Event.write p v) ∈ phased 0 tr →
            (phr, Event.readInput (p : Int)) ∈ phased 0 tr2 → phr < phw :=
  barrier_separates_reads_from_writes [(4 : Int), 8, 15, 16, 23] [0, 0, 0, 0, 0]
    (fun a b => a - b) [index_range.mk 0 2, index_range.mk 2 5] 2 5 (by decide) (by decide)
    (by decide) (by decide) (by decide)

/-! ## In place -/

theorem getElem?_of_lt {α : Type} (S : List α) (p : Nat) (h : p < S.length) :
    ∃ x, S[p]? = some x :=
  ⟨S[p], List.getElem?_eq_getElem h⟩

theorem loop_head_spec {α : Type} (S mem : List α) (e L B t : Nat) (nl : α)
    (hL : 0 < L) (he : e ≤ S.length)
    (hmem : ∀ p, B ≤ p → p < e → mem[p]? = S[p]?)
    (hnl : B + t < e → 0 < B + t → S[B + t - 1]? = some nl) :
    ∃ st, loop_head mem e L B (B + t) nl = some st ∧ laneGood S e L B t st := by
  unfold loop_head
  by_cases hb : B < e
  · rw [if_pos hb]
    by_cases hp : B + t + L < e
    · rw [if_pos hp]
      obtain ⟨v, hv⟩ := getElem?_of_lt S (B + t + L - 1) (by omega)
      have hread : readAt mem (((B + t : Nat) : Int) + (L : Int) - 1) = some v := by
        have hcast : (((B + t : Nat) : Int) + (L : Int) - 1) =
            ((B + t + L - 1 : Nat) : Int) := by omega
        rw [hcast, readAt_ofNat, hmem _ (by omega) (by omega)]
        exact hv
      rw [hread]
      exact ⟨_, rfl, Or.inl ⟨hb, v, nl, rfl, hnl, fun _ => hv⟩⟩
    · rw [if_neg hp]
      exact ⟨_, rfl, Or.inl ⟨hb, nl, nl, rfl, hnl, fun h => absurd h hp⟩⟩
  · rw [if_neg hb]
    exact ⟨_, rfl, Or.inr ⟨hb, rfl⟩⟩

theorem lane_start_spec {α : Type} (S mem carry : List α) (op : α → α → α)
    (rg : index_range) (L k t : Nat) (hL : 0 < L) (he : rg.end_ ≤ S.length)
    (hbe : rg.begin < rg.end_)
    (hmem : ∀ p, rg.begin ≤ p → p < rg.end_ → mem[p]? = S[p]?)
    (h0 : k = 0 → rg.begin = 0)
    (hc : k ≠ 0 → 0 < rg.begin ∧ ∃ c, carry[k - 1]? = some c ∧ S[rg.begin - 1]? = some c) :
    ∃ st, lane_phase mem carry op rg L k t Lane.start = some (mem, st) ∧
      laneGood S rg.end_ L rg.begin t st := by
  -- the seed
  obtain ⟨nl0, hseed, hnl0⟩ : ∃ nl0,
      (if k = 0 then readAt mem 0 else readAt carry ((k : Int) - 1)) = some nl0 ∧
      (0 < rg.begin → S[rg.begin - 1]? = some nl0) := by
    by_cases hk : k = 0
    · have hb0 := h0 hk
      obtain ⟨x, hx⟩ := getElem?_of_lt S 0 (by omega)
      refine ⟨x, ?_, fun h => by omega⟩
      rw [if_pos hk]
      have : readAt mem 0 = mem[0]? := readAt_ofNat mem 0
      rw [this, hmem 0 (by omega) (by omega)]
      exact hx
    · obtain ⟨_, c, hc1, hc2⟩ := hc hk
      refine ⟨c, ?_, fun _ => hc2⟩
      rw [if_neg hk, readAt_pred carry k (Nat.pos_of_ne_zero hk)]
      exact hc1
  -- the left neighbour of a lane other than lane 0
  obtain ⟨nl, hprime, hnl⟩ : ∃ nl,
      (if rg.begin + t < rg.end_ ∧ t > 0 then
        readAt mem (((rg.begin + t : Nat) : Int) - 1) else some nl0) = some nl ∧
      (rg.begin + t < rg.end_ → 0 < rg.begin + t → S[rg.begin + t - 1]? = some nl) := by
    by_cases hp : rg.begin + t < rg.end_ ∧ t > 0
    · obtain ⟨x, hx⟩ := getElem?_of_lt S (rg.begin + t - 1) (by omega)
      refine ⟨x, ?_, fun _ _ => hx⟩
      rw [if_pos hp, readAt_pred mem (rg.begin + t) (by omega), hmem _ (by omega) (by omega)]
      exact hx
    · refine ⟨nl0, by rw [if_neg hp], ?_⟩
      intro h1 h2
      have ht : t = 0 := by
        by_contra hne
        exact hp ⟨h1, Nat.pos_of_ne_zero hne⟩
      subst ht
      exact hnl0 (by omega)
  obtain ⟨st, hst, hgood⟩ := loop_head_spec S mem rg.end_ L rg.begin t nl hL he hmem hnl
  refine ⟨st, ?_, hgood⟩
  simp only [lane_phase]
  rw [hseed]
  simp only []
  rw [hprime]
  simp only []
  rw [hst]

theorem lane_commit_spec {α : Type} (S mem carry : List α) (op : α → α → α)
    (rg : index_range) (L k t B : Nat) (nl cl : α) (hL : 0 < L) (ht : t < L)
    (he : rg.end_ ≤ S.length) (hlen : mem.length = S.length)
    (hcl : B + t < rg.end_ → 0 < B + t → S[B + t - 1]? = some cl)
    (hnl : B + t + L < rg.end_ → S[B + t + L - 1]? = some nl)
    (hown : B + t < rg.end_ → mem[B + t]? = S[B + t]?)
    (hrest : ∀ p, B + L ≤ p → p < rg.end_ → mem[p]? = S[p]?) :
    ∃ mem1 st1, lane_phase mem carry op rg L k t (Lane.atBarrier B (B + t) nl cl) =
        some (mem1, st1) ∧
      laneGood S rg.end_ L (B + L) t st1 ∧ mem1.length = mem.length ∧
      ∀ p, mem1[p]? =
        if p = B + t ∧ B + t < rg.end_ then sequential_definition S op p else mem[p]? := by
  -- the commit
  obtain ⟨mem1, hcommit, hlen1, hget1⟩ : ∃ mem1,
      (if B + t < rg.end_ then
        match readAt mem ((B + t : Nat) : Int) with
        | none => none
        | some x => writeAt mem (B + t) (if B + t = 0 then x else op x cl)
      else some mem) = some mem1 ∧ mem1.length = mem.length ∧
      ∀ p, mem1[p]? =
        if p = B + t ∧ B + t < rg.end_ then sequential_definition S op p else mem[p]? := by
    by_cases hi : B + t < rg.end_
    · obtain ⟨x, hx⟩ := getElem?_of_lt S (B + t) (by omega)
      have hread : readAt mem ((B + t : Nat) : Int) = some x := by
        rw [readAt_ofNat, hown hi]
        exact hx
      have hlt : B + t < mem.length := by omega
      refine ⟨mem.set (B + t) (if B + t = 0 then x else op x cl), ?_, by simp, ?_⟩
      · rw [if_pos hi, hread]
        simp only [writeAt, if_pos hlt]
      · intro p
        by_cases hp : p = B + t
        · subst hp
          have hcond : B + t = B + t ∧ B + t < rg.end_ := ⟨rfl, hi⟩
          rw [if_pos hcond, List.getElem?_set_self hlt]
          by_cases h0 : B + t = 0
          · simp only [sequential_definition, if_pos h0]
            rw [← hx]
            simp [h0]
          · have hleft := hcl hi (by omega)
            simp only [sequential_definition, if_neg h0, hx, hleft]
        · have hnp : ¬ (p = B + t ∧ B + t < rg.end_) := fun h => hp h.1
          rw [if_neg hnp, List.getElem?_set_ne (Ne.symm hp)]
    · refine ⟨mem, by rw [if_neg hi], rfl, ?_⟩
      intro p
      have hnp : ¬ (p = B + t ∧ B + t < rg.end_) := fun h => hi h.2
      rw [if_neg hnp]
  -- the advance and the next loop head
  have hidx : B + t + L = B + L + t := by omega
  obtain ⟨st1, hst1, hgood⟩ := loop_head_spec S mem1 rg.end_ L (B + L) t nl hL he
    (by
      intro p hp1 hp2
      have hnp : ¬ (p = B + t ∧ B + t < rg.end_) := fun h => by omega
      rw [hget1 p, if_neg hnp]
      exact hrest p hp1 hp2)
    (by
      intro h1 _
      have := hnl (by omega)
      have hi2 : B + L + t - 1 = B + t + L - 1 := by omega
      rw [hi2]
      exact this)
  refine ⟨mem1, st1, ?_, hgood, hlen1, hget1⟩
  simp only [lane_phase]
  rw [hcommit]
  simp only []
  rw [hidx, hst1]

theorem run_phase_start {α : Type} (S mem carry : List α) (op : α → α → α)
    (rg : index_range) (L k : Nat) (hL : 0 < L) (he : rg.end_ ≤ S.length)
    (hbe : rg.begin < rg.end_)
    (hmem : ∀ p, rg.begin ≤ p → p < rg.end_ → mem[p]? = S[p]?)
    (h0 : k = 0 → rg.begin = 0)
    (hc : k ≠ 0 → 0 < rg.begin ∧ ∃ c, carry[k - 1]? = some c ∧ S[rg.begin - 1]? = some c) :
    ∀ (rest : List Nat) (lanes : List (Lane α)), rest.Nodup → (∀ t ∈ rest, t < L) →
      lanes.length = L →
      (∀ t, t < L → ∃ st, lanes[t]? = some st ∧
        (if t ∈ rest then st = Lane.start else laneGood S rg.end_ L rg.begin t st)) →
      ∃ lanes1, run_phase carry op rg L k rest (mem, lanes) = some (mem, lanes1) ∧
        lanes1.length = L ∧
        ∀ t, t < L → ∃ st, lanes1[t]? = some st ∧ laneGood S rg.end_ L rg.begin t st := by
  intro rest
  induction rest with
  | nil =>
    intro lanes _ _ hlen hlanes
    refine ⟨lanes, rfl, hlen, ?_⟩
    intro t ht
    obtain ⟨st, hst, hgood⟩ := hlanes t ht
    exact ⟨st, hst, by simpa using hgood⟩
  | cons t rest ih =>
    intro lanes hnd hlt hlen hlanes
    have htL : t < L := hlt t (List.mem_cons_self _ _)
    have hnotin : t ∉ rest := (List.nodup_cons.1 hnd).1
    obtain ⟨st, hst, hstart⟩ := hlanes t htL
    rw [if_pos (List.mem_cons_self _ _)] at hstart
    subst hstart
    obtain ⟨st1, hphase, hgood⟩ := lane_start_spec S mem carry op rg L k t hL he hbe hmem h0 hc
    obtain ⟨lanes1, hrun, hlen1, hall⟩ := ih (lanes.set t st1) (List.nodup_cons.1 hnd).2
      (fun x hx => hlt x (List.mem_cons_of_mem _ hx)) (by simpa using hlen)
      (by
        intro t2 ht2
        by_cases heq : t2 = t
        · subst heq
          refine ⟨st1, ?_, ?_⟩
          · rw [List.getElem?_set_self (by omega)]
          · rw [if_neg hnotin]
            exact hgood
        · obtain ⟨st2, hst2, hcase⟩ := hlanes t2 ht2
          refine ⟨st2, ?_, ?_⟩
          · rw [List.getElem?_set_ne (Ne.symm heq)]
            exact hst2
          · by_cases hin : t2 ∈ rest
            · rw [if_pos hin]
              rw [if_pos (List.mem_cons_of_mem _ hin)] at hcase
              exact hcase
            · rw [if_neg hin]
              have hnin : t2 ∉ t :: rest := by
                intro hmem2
                rcases List.mem_cons.1 hmem2 with h | h
                · exact heq h
                · exact hin h
              rw [if_neg hnin] at hcase
              exact hcase)
    refine ⟨lanes1, ?_, hlen1, hall⟩
    simp only [run_phase, hst, hphase]
    exact hrun

theorem memPhase_step {α : Type} (S : List α) (T : Nat → Option α) (m0 mem mem1 : List α)
    (b e L B t : Nat) (rest : List Nat) (hbB : b ≤ B) (ht : t < L) (hnotin : t ∉ rest)
    (hmem : memPhase S T m0 b e L B (t :: rest) mem)
    (hlen1 : mem1.length = mem.length)
    (hget1 : ∀ p, mem1[p]? = if p = B + t ∧ B + t < e then T p else mem[p]?) :
    memPhase S T m0 b e L B rest mem1 := by
  refine ⟨by rw [hlen1]; exact hmem.1, ?_⟩
  intro p
  rw [hget1 p]
  by_cases hA : p = B + t ∧ B + t < e
  · obtain ⟨hp, hlt⟩ := hA
    subst hp
    have hc1 : B + t = B + t ∧ B + t < e := ⟨rfl, hlt⟩
    have hc2 : b ≤ B + t ∧ B + t < e := ⟨by omega, hlt⟩
    have hc3 : ¬ B + t < B := by omega
    have hc4 : B + t < B + L := by omega
    have hc5 : B + t - B ∉ rest := by
      have : B + t - B = t := by omega
      rw [this]
      exact hnotin
    rw [if_pos hc1, if_pos hc2, if_neg hc3, if_pos hc4, if_neg hc5]
  · rw [if_neg hA, hmem.2 p]
    by_cases h1 : b ≤ p ∧ p < e
    · rw [if_pos h1, if_pos h1]
      by_cases h2 : p < B
      · rw [if_pos h2, if_pos h2]
      · rw [if_neg h2, if_neg h2]
        by_cases h3 : p < B + L
        · rw [if_pos h3, if_pos h3]
          have hne : p - B ≠ t := by
            intro heq
            exact hA ⟨by omega, by omega⟩
          by_cases h4 : p - B ∈ rest
          · rw [if_pos h4, if_pos (List.mem_cons_of_mem _ h4)]
          · have h5 : p - B ∉ t :: rest := by
              intro hin
              rcases List.mem_cons.1 hin with h | h
              · exact hne h
              · exact h4 h
            rw [if_neg h4, if_neg h5]
        · rw [if_neg h3, if_neg h3]
    · rw [if_neg h1, if_neg h1]

theorem run_phase_commit {α : Type} (S m0 carry : List α) (op : α → α → α)
    (rg : index_range) (L k B : Nat) (hL : 0 < L) (he : rg.end_ ≤ S.length)
    (hm0 : m0.length = S.length) (hbB : rg.begin ≤ B) (hB : B < rg.end_) :
    ∀ (rest : List Nat) (mem : List α) (lanes : List (Lane α)), rest.Nodup →
      (∀ t ∈ rest, t < L) → lanes.length = L →
      memPhase S (sequential_definition S op) m0 rg.begin rg.end_ L B rest mem →
      (∀ t, t < L → ∃ st, lanes[t]? = some st ∧
        (if t ∈ rest then laneGood S rg.end_ L B t st
         else laneGood S rg.end_ L (B + L) t st)) →
      ∃ mem1 lanes1, run_phase carry op rg L k rest (mem, lanes) = some (mem1, lanes1) ∧
        memPhase S (sequential_definition S op) m0 rg.begin rg.end_ L B [] mem1 ∧
        lanes1.length = L ∧
        ∀ t, t < L → ∃ st, lanes1[t]? = some st ∧ laneGood S rg.end_ L (B + L) t st := by
  intro rest
  induction rest with
  | nil =>
    intro mem lanes _ _ hlen hmem hlanes
    refine ⟨mem, lanes, rfl, hmem, hlen, ?_⟩
    intro t ht
    obtain ⟨st, hst, hgood⟩ := hlanes t ht
    exact ⟨st, hst, by simpa using hgood⟩
  | cons t rest ih =>
    intro mem lanes hnd hlt hlen hmem hlanes
    have htL : t < L := hlt t (List.mem_cons_self _ _)
    have hnotin : t ∉ rest := (List.nodup_cons.1 hnd).1
    obtain ⟨st, hst, hgood⟩ := hlanes t htL
    rw [if_pos (List.mem_cons_self _ _)] at hgood
    rcases hgood with ⟨_, nl, cl, hsteq, hcl, hnl⟩ | ⟨hnb, _⟩
    · subst hsteq
      have hown : B + t < rg.end_ → mem[B + t]? = S[B + t]? := by
        intro hi
        have hc2 : rg.begin ≤ B + t ∧ B + t < rg.end_ := ⟨by omega, hi⟩
        have hc3 : ¬ B + t < B := by omega
        have hc4 : B + t < B + L := by omega
        have hc5 : B + t - B ∈ t :: rest := by
          have : B + t - B = t := by omega
          rw [this]
          exact List.mem_cons_self _ _
        rw [hmem.2 (B + t), if_pos hc2, if_neg hc3, if_pos hc4, if_pos hc5]
      have hrest : ∀ p, B + L ≤ p → p < rg.end_ → mem[p]? = S[p]? := by
        intro p hp1 hp2
        have hc2 : rg.begin ≤ p ∧ p < rg.end_ := ⟨by omega, hp2⟩
        have hc3 : ¬ p < B := by omega
        have hc4 : ¬ p < B + L := by omega
        rw [hmem.2 p, if_pos hc2, if_neg hc3, if_neg hc4]
      obtain ⟨mem1, st1, hphase, hgood1, hlen1, hget1⟩ :=
        lane_commit_spec S mem carry op rg L k t B nl cl hL htL he
          (by rw [hmem.1, hm0]) hcl hnl hown hrest
      have hmem1 := memPhase_step S (sequential_definition S op) m0 mem mem1 rg.begin
        rg.end_ L B t rest hbB htL hnotin hmem hlen1 hget1
      obtain ⟨mem2, lanes2, hrun, hmem2, hlen2, hall⟩ := ih mem1 (lanes.set t st1)
        (List.nodup_cons.1 hnd).2 (fun x hx => hlt x (List.mem_cons_of_mem _ hx))
        (by simpa using hlen) hmem1
        (by
          intro t2 ht2
          by_cases heq : t2 = t
          · subst heq
            refine ⟨st1, ?_, ?_⟩
            · rw [List.getElem?_set_self (by omega)]
            · rw [if_neg hnotin]
              exact hgood1
          · obtain ⟨st2, hst2, hcase⟩ := hlanes t2 ht2
            refine ⟨st2, ?_, ?_⟩
            · rw [List.getElem?_set_ne (Ne.symm heq)]
              exact hst2
            · by_cases hin : t2 ∈ rest
              · rw [if_pos hin]
                rw [if_pos (List.mem_cons_of_mem _ hin)] at hcase
                exact hcase
              · rw [if_neg hin]
                have hnin : t2 ∉ t :: rest := by
                  intro hmem3
                  rcases List.mem_cons.1 hmem3 with h | h
                  · exact heq h
                  · exact hin h
                rw [if_neg hnin] at hcase
                exact hcase)
      refine ⟨mem2, lanes2, ?_, hmem2, hlen2, hall⟩
      simp only [run_phase, hst, hphase]
      exact hrun
    · exact absurd hB hnb

theorem memPhase_open {α : Type} (S : List α) (T : Nat → Option α) (m0 mem : List α)
    (b e L B : Nat) (order : List Nat) (horder : ∀ t, t < L → t ∈ order)
    (h : memPhase S T m0 b e 0 B [] mem) : memPhase S T m0 b e L B order mem := by
  refine ⟨h.1, ?_⟩
  intro p
  rw [h.2 p]
  by_cases h1 : b ≤ p ∧ p < e
  · rw [if_pos h1, if_pos h1]
    by_cases h2 : p < B
    · rw [if_pos h2, if_pos h2]
    · have h3 : ¬ p < B + 0 := by omega
      rw [if_neg h2, if_neg h2, if_neg h3]
      by_cases h4 : p < B + L
      · rw [if_pos h4, if_pos (horder (p - B) (by omega))]
      · rw [if_neg h4]
  · rw [if_neg h1, if_neg h1]

theorem memPhase_close {α : Type} (S : List α) (T : Nat → Option α) (m0 mem : List α)
    (b e L B : Nat) (h : memPhase S T m0 b e L B [] mem) :
    memPhase S T m0 b e 0 (B + L) [] mem := by
  refine ⟨h.1, ?_⟩
  intro p
  rw [h.2 p]
  by_cases h1 : b ≤ p ∧ p < e
  · rw [if_pos h1, if_pos h1]
    by_cases h2 : p < B
    · have h4 : p < B + L := by omega
      rw [if_pos h2, if_pos h4]
    · rw [if_neg h2]
      by_cases h4 : p < B + L
      · rw [if_pos h4, if_pos h4]
        simp
      · have h3 : ¬ p < B + L + 0 := by omega
        rw [if_neg h4, if_neg h4, if_neg h3]
  · rw [if_neg h1, if_neg h1]

theorem all_of_getElem? {α : Type} (lanes : List (Lane α)) (f : Lane α → Bool)
    (h : ∀ t, t < lanes.length → ∃ st, lanes[t]? = some st ∧ f st = true) :
    lanes.all f = true := by
  rw [List.all_eq_true]
  intro x hx
  obtain ⟨t, ht, hxt⟩ := List.getElem_of_mem hx
  obtain ⟨st, hst, hf⟩ := h t ht
  rw [List.getElem?_eq_getElem ht, hxt, Option.some.injEq] at hst
  rw [hst]
  exact hf

theorem not_all_of_getElem? {α : Type} (lanes : List (Lane α)) (f : Lane α → Bool)
    (t : Nat) (st : Lane α) (hst : lanes[t]? = some st) (hf : f st = false) :
    ¬ (lanes.all f = true) := by
  rw [List.all_eq_true]
  intro hall
  have := hall st (List.getElem?_mem hst)
  rw [hf] at this
  exact Bool.noConfusion this

theorem run_block_commits {α : Type} (S m0 carry : List α) (op : α → α → α)
    (rg : index_range) (L k : Nat) (laneOrder : Nat → List Nat) (hL : 0 < L)
    (he : rg.end_ ≤ S.length) (hm0 : m0.length = S.length)
    (horder : ∀ ph, (laneOrder ph).Perm (List.range L)) :
    ∀ (fuel ph B : Nat) (mem : List α) (lanes : List (Lane α)), rg.begin ≤ B →
      rg.end_ ≤ B + fuel → lanes.length = L →
      memPhase S (sequential_definition S op) m0 rg.begin rg.end_ 0 B [] mem →
      (∀ t, t < L → ∃ st, lanes[t]? = some st ∧ laneGood S rg.end_ L B t st) →
      ∃ mem1, run_block carry op rg L k laneOrder fuel ph (mem, lanes) = some mem1 ∧
        mem1.length = m0.length ∧
        ∀ p, mem1[p]? =
          if rg.begin ≤ p ∧ p < rg.end_ then sequential_definition S op p else m0[p]? := by
  intro fuel
  induction fuel with
  | zero =>
    intro ph B mem lanes _ hfuel hlen hmem hlanes
    have hb : ¬ B < rg.end_ := by omega
    have hall : lanes.all Lane.isFinished = true := by
      apply all_of_getElem?
      intro t ht
      obtain ⟨st, hst, hgood⟩ := hlanes t (by omega)
      rcases hgood with ⟨h1, _⟩ | ⟨_, h2⟩
      · exact absurd h1 hb
      · exact ⟨st, hst, by rw [h2]; rfl⟩
    refine ⟨mem, by simp only [run_block, hall, if_true], hmem.1, ?_⟩
    intro p
    rw [hmem.2 p]
    by_cases h1 : rg.begin ≤ p ∧ p < rg.end_
    · have h2 : p < B := by omega
      rw [if_pos h1, if_pos h1, if_pos h2]
    · rw [if_neg h1, if_neg h1]
  | succ fuel ih =>
    intro ph B mem lanes hbB hfuel hlen hmem hlanes
    by_cases hb : B < rg.end_
    · obtain ⟨st0, hst0, hgood0⟩ := hlanes 0 hL
      have hnotfin : ¬ (lanes.all Lane.isFinished = true) := by
        rcases hgood0 with ⟨_, nl, cl, h1, _⟩ | ⟨h2, _⟩
        · exact not_all_of_getElem? lanes Lane.isFinished 0 st0 hst0 (by rw [h1]; rfl)
        · exact absurd hb h2
      have hwait : lanes.all Lane.isWaiting = true := by
        apply all_of_getElem?
        intro t ht
        obtain ⟨st, hst, hgood⟩ := hlanes t (by omega)
        rcases hgood with ⟨_, nl, cl, h1, _⟩ | ⟨h2, _⟩
        · exact ⟨st, hst, by rw [h1]; rfl⟩
        · exact absurd hb h2
      have hperm := horder ph
      have hmemin : ∀ t, t < L → t ∈ laneOrder ph :=
        fun t ht => hperm.mem_iff.2 (List.mem_range.2 ht)
      obtain ⟨mem1, lanes1, hrun, hmem1, hlen1, hall1⟩ :=
        run_phase_commit S m0 carry op rg L k B hL he hm0 hbB hb (laneOrder ph) mem lanes
          (hperm.nodup_iff.2 (List.nodup_range L))
          (fun t ht => List.mem_range.1 (hperm.mem_iff.1 ht)) hlen
          (memPhase_open S _ m0 mem rg.begin rg.end_ L B (laneOrder ph) hmemin hmem)
          (by
            intro t ht
            obtain ⟨st, hst, hgood⟩ := hlanes t ht
            exact ⟨st, hst, by rw [if_pos (hmemin t ht)]; exact hgood⟩)
      obtain ⟨mem2, hrun2, hlen2, hget2⟩ := ih (ph + 1) (B + L) mem1 lanes1 (by omega)
        (by omega) hlen1 (memPhase_close S _ m0 mem1 rg.begin rg.end_ L B hmem1) hall1
      refine ⟨mem2, ?_, hlen2, hget2⟩
      simp only [run_block, if_neg hnotfin, hwait, if_true, hrun]
      exact hrun2
    · have hall : lanes.all Lane.isFinished = true := by
        apply all_of_getElem?
        intro t ht
        obtain ⟨st, hst, hgood⟩ := hlanes t (by omega)
        rcases hgood with ⟨h1, _⟩ | ⟨_, h2⟩
        · exact absurd h1 hb
        · exact ⟨st, hst, by rw [h2]; rfl⟩
      refine ⟨mem, by simp only [run_block, hall, if_true], hmem.1, ?_⟩
      intro p
      rw [hmem.2 p]
      by_cases h1 : rg.begin ≤ p ∧ p < rg.end_
      · have h2 : p < B := by omega
        rw [if_pos h1, if_pos h1, if_pos h2]
      · rw [if_neg h1, if_neg h1]

theorem run_block_spec {α : Type} (S m0 carry : List α) (op : α → α → α)
    (rg : index_range) (L k : Nat) (laneOrder : Nat → List Nat) (fuel : Nat) (hL : 0 < L)
    (he : rg.end_ ≤ S.length) (hm0 : m0.length = S.length)
    (horder : ∀ ph, (laneOrder ph).Perm (List.range L))
    (hbe : rg.begin < rg.end_)
    (hpre : ∀ p, rg.begin ≤ p → p < rg.end_ → m0[p]? = S[p]?)
    (h0 : k = 0 → rg.begin = 0)
    (hc : k ≠ 0 → 0 < rg.begin ∧ ∃ c, carry[k - 1]? = some c ∧ S[rg.begin - 1]? = some c)
    (hfuel : rg.end_ - rg.begin < fuel) :
    ∃ mem1, run_block carry op rg L k laneOrder fuel 0 (m0, List.replicate L Lane.start) =
        some mem1 ∧ mem1.length = m0.length ∧
      ∀ p, mem1[p]? =
        if rg.begin ≤ p ∧ p < rg.end_ then sequential_definition S op p else m0[p]? := by
  obtain ⟨fuel1, rfl⟩ := Nat.exists_eq_succ_of_ne_zero (by omega : fuel ≠ 0)
  have hget : ∀ t, t < L → (List.replicate L (Lane.start : Lane α))[t]? = some Lane.start := by
    intro t ht
    rw [List.getElem?_replicate]
    simp [ht]
  have hnotfin : ¬ ((List.replicate L (Lane.start : Lane α)).all Lane.isFinished = true) :=
    not_all_of_getElem? _ Lane.isFinished 0 Lane.start (hget 0 hL) rfl
  have hwait : (List.replicate L (Lane.start : Lane α)).all Lane.isWaiting = true := by
    apply all_of_getElem?
    intro t ht
    exact ⟨Lane.start, hget t (by simpa using ht), rfl⟩
  have hperm := horder 0
  have hmemin : ∀ t, t < L → t ∈ laneOrder 0 :=
    fun t ht => hperm.mem_iff.2 (List.mem_range.2 ht)
  obtain ⟨lanes1, hrun1, hlen1, hall1⟩ :=
    run_phase_start S m0 carry op rg L k hL he hbe hpre h0 hc (laneOrder 0)
      (List.replicate L Lane.start) (hperm.nodup_iff.2 (List.nodup_range L))
      (fun t ht => List.mem_range.1 (hperm.mem_iff.1 ht)) (by simp)
      (by
        intro t ht
        exact ⟨Lane.start, hget t ht, by rw [if_pos (hmemin t ht)]⟩)
  have hmem0 : memPhase S (sequential_definition S op) m0 rg.begin rg.end_ 0 rg.begin []
      m0 := by
    refine ⟨rfl, ?_⟩
    intro p
    by_cases h1 : rg.begin ≤ p ∧ p < rg.end_
    · have h2 : ¬ p < rg.begin := by omega
      have h3 : ¬ p < rg.begin + 0 := by omega
      rw [if_pos h1, if_neg h2, if_neg h3]
      exact hpre p h1.1 h1.2
    · rw [if_neg h1]
  obtain ⟨mem2, hrun2, hlen2, hget2⟩ :=
    run_block_commits S m0 carry op rg L k laneOrder hL he hm0 horder fuel1 1 rg.begin m0
      lanes1 (le_refl _) (by omega) hlen1 hmem0 hall1
  refine ⟨mem2, ?_, hlen2, hget2⟩
  simp only [run_block, if_neg hnotfin, hwait, if_true, hrun1]
  exact hrun2

theorem chain_mono {N : Nat} :
    ∀ (d : List index_range) (b k k2 : Nat) (r r2 : index_range), chain N b d →
      d[k]? = some r → d[k2]? = some r2 → k < k2 → r.end_ ≤ r2.begin
  | [], b, k, k2, r, r2, _, hk, _, _ => by simp at hk
  | r0 :: rs, b, 0, 0, r, r2, _, _, _, hlt => absurd hlt (lt_irrefl 0)
  | r0 :: rs, b, 0, k2 + 1, r, r2, h, hk, hk2, _ => by
    simp only [List.getElem?_cons_zero, Option.some.injEq] at hk
    subst hk
    simp only [List.getElem?_cons_succ] at hk2
    exact (chain_getElem rs r0.end_ k2 r2 h.2.2 hk2).1
  | r0 :: rs, b, k + 1, 0, r, r2, _, _, _, hlt => absurd hlt (Nat.not_lt_zero _)
  | r0 :: rs, b, k + 1, k2 + 1, r, r2, h, hk, hk2, hlt => by
    simp only [List.getElem?_cons_succ] at hk hk2
    exact chain_mono rs r0.end_ k k2 r r2 h.2.2 hk hk2 (Nat.lt_of_succ_lt_succ hlt)

theorem interval_unique {N : Nat} (d : List index_range) (k k2 : Nat)
    (r r2 : index_range) (p : Nat) (h : chain N 0 d) (hk : d[k]? = some r)
    (hk2 : d[k2]? = some r2) (hp : r.begin ≤ p ∧ p < r.end_)
    (hp2 : r2.begin ≤ p ∧ p < r2.end_) : k = k2 := by
  rcases Nat.lt_trichotomy k k2 with hlt | heq | hgt
  · have := chain_mono d 0 k k2 r r2 h hk hk2 hlt
    omega
  · exact heq
  · have := chain_mono d 0 k2 k r2 r h hk2 hk hgt
    omega

theorem chain_cover {N : Nat} (p : Nat) :
    ∀ (d : List index_range) (b : Nat), chain N b d → b ≤ p → p < N →
      ∃ (k : Nat) (r : index_range), d[k]? = some r ∧ r.begin ≤ p ∧ p < r.end_
  | [], b, h, hb, hp => by
    have : b = N := h
    omega
  | r0 :: rs, b, h, hb, hp => by
    by_cases hlt : p < r0.end_
    · exact ⟨0, r0, List.getElem?_cons_zero, by rw [h.1]; exact hb, hlt⟩
    · obtain ⟨k, r, hk, hr⟩ := chain_cover p rs r0.end_ h.2.2 (by omega) hp
      exact ⟨k + 1, r, by simpa using hk, hr⟩

theorem carry_facts {α : Type} (S temp : List α) (decomp : List index_range)
    (hd : seeded S.length decomp)
    (htemp : ∀ (k : Nat) (rg : index_range), decomp[k]? = some rg → k + 1 < decomp.length →
      temp[k]? = S[rg.end_ - 1]?)
    (k : Nat) (rg : index_range) (hrg : decomp[k]? = some rg) :
    (k = 0 → rg.begin = 0) ∧
    (k ≠ 0 → 0 < rg.begin ∧ ∃ c, temp[k - 1]? = some c ∧ S[rg.begin - 1]? = some c) := by
  have hchain := hd.1.2
  have hb := chain_getElem decomp 0 k rg hchain hrg
  constructor
  · intro hk
    subst hk
    exact chain_head decomp 0 rg hchain hrg
  · intro hk
    obtain ⟨k1, rfl⟩ := Nat.exists_eq_succ_of_ne_zero hk
    have hpos := seeded_begin_pos hd k1 rg hrg
    have hklt : k1 + 1 < decomp.length := getElem?_lt_length hrg
    have hk1 : decomp[k1]? = some decomp[k1] := List.getElem?_eq_getElem (by omega)
    have hsucc := chain_succ decomp 0 k1 decomp[k1] rg hchain hk1 hrg
    have hlt : rg.begin - 1 < S.length := by omega
    refine ⟨hpos, S[rg.begin - 1], ?_, List.getElem?_eq_getElem hlt⟩
    have hpred : k1.succ - 1 = k1 := rfl
    rw [hpred, htemp k1 decomp[k1] hk1 hklt, ← hsucc]
    exact List.getElem?_eq_getElem hlt

theorem run_blocks_spec {α : Type} (S temp : List α) (op : α → α → α)
    (decomp : List index_range) (L fuel : Nat) (laneOrder : Nat → Nat → List Nat)
    (hL : 0 < L) (hd : legal S.length decomp) (hfuel : S.length < fuel)
    (horder : ∀ k ph, (laneOrder k ph).Perm (List.range L))
    (htemp : ∀ (k : Nat) (rg : index_range), decomp[k]? = some rg → k + 1 < decomp.length →
      temp[k]? = S[rg.end_ - 1]?) :
    ∀ (rest : List Nat) (mem : List α), rest.Nodup → (∀ k ∈ rest, k < decomp.length) →
      mem.length = S.length →
      (∀ (k : Nat) (rg : index_range), decomp[k]? = some rg →
        ∀ p, rg.begin ≤ p → p < rg.end_ →
          mem[p]? = if k ∈ rest then S[p]? else sequential_definition S op p) →
      ∃ mem1, run_blocks temp op decomp L fuel laneOrder rest mem = some mem1 ∧
        mem1.length = S.length ∧
        ∀ (k : Nat) (rg : index_range), decomp[k]? = some rg →
          ∀ p, rg.begin ≤ p → p < rg.end_ → mem1[p]? = sequential_definition S op p := by
  intro rest
  induction rest with
  | nil =>
    intro mem _ _ hlen hmem
    refine ⟨mem, rfl, hlen, ?_⟩
    intro k rg hrg p hp1 hp2
    have := hmem k rg hrg p hp1 hp2
    simpa using this
  | cons k rest ih =>
    intro mem hnd hlt hlen hmem
    have hk : k < decomp.length := hlt k (List.mem_cons_self _ _)
    have hnotin : k ∉ rest := (List.nodup_cons.1 hnd).1
    have hrg : decomp[k]? = some decomp[k] := List.getElem?_eq_getElem hk
    have hb := chain_getElem decomp 0 k decomp[k] hd.1.2 hrg
    have hne : decomp[k].begin < decomp[k].end_ := hd.2 _ (List.getElem?_mem hrg)
    obtain ⟨h0, hc⟩ := carry_facts S temp decomp (seeded_of_legal hd) htemp k decomp[k] hrg
    obtain ⟨mem1, hrun1, hlen1, hget1⟩ :=
      run_block_spec S mem temp op decomp[k] L k (laneOrder k) fuel hL hb.2.2 hlen
        (horder k) hne
        (by
          intro p hp1 hp2
          have := hmem k decomp[k] hrg p hp1 hp2
          rw [if_pos (List.mem_cons_self _ _)] at this
          exact this)
        h0 hc (by omega)
    obtain ⟨mem2, hrun2, hlen2, hget2⟩ := ih mem1 (List.nodup_cons.1 hnd).2
      (fun x hx => hlt x (List.mem_cons_of_mem _ hx)) (by rw [hlen1, hlen])
      (by
        intro k2 rg2 hrg2 p hp1 hp2
        rw [hget1 p]
        by_cases hin : decomp[k].begin ≤ p ∧ p < decomp[k].end_
        · have heq : k = k2 :=
            interval_unique decomp k k2 decomp[k] rg2 p hd.1.2 hrg hrg2 hin ⟨hp1, hp2⟩
          subst heq
          rw [if_pos hin, if_neg hnotin]
        · have hne2 : k2 ≠ k := by
            intro heq
            subst heq
            rw [hrg, Option.some.injEq] at hrg2
            subst hrg2
            exact hin ⟨hp1, hp2⟩
          rw [if_neg hin, hmem k2 rg2 hrg2 p hp1 hp2]
          by_cases hin2 : k2 ∈ rest
          · rw [if_pos hin2, if_pos (List.mem_cons_of_mem _ hin2)]
          · have hnin : k2 ∉ k :: rest := by
              intro hmem3
              rcases List.mem_cons.1 hmem3 with h | h
              · exact hne2 h
              · exact hin2 h
            rw [if_neg hin2, if_neg hnin])
    refine ⟨mem2, ?_, hlen2, hget2⟩
    simp only [run_blocks, hrg, hrun1]
    exact hrun2

/-- C19, in-place operation: when the output is the storage of the input, then for every
non-empty `S`, operator, legal decomposition and lane count `L ≥ 1`, for every order in which
the blocks run and, in every barrier-delimited phase of every block, every order in which its
lanes run, the call completes and leaves in the storage `out[0] = S[0]` and
`out[i] = op (S[i]) (S[i-1])`, computed from the original values: the storage and the carry
buffer are those of the out-of-place call, whose carry buffer is gathered from the original
input before any block runs. -/
theorem in_place_operation {α : Type} (S : List α) (op : α → α → α)
    (decomp : List index_range) (L fuel : Nat) (blockOrder : List Nat)
    (laneOrder : Nat → Nat → List Nat)
    (hS : S ≠ []) (hd : legal S.length decomp) (hL : 1 ≤ L) (hfuel : S.length < fuel)
    (hblocks : blockOrder.Perm (List.range decomp.length))
    (hlanes : ∀ k ph, (laneOrder k ph).Perm (List.range L)) :
    ∃ carry mem,
      adjacent_difference_inplace S op decomp L fuel blockOrder laneOrder =
        some (carry, mem) ∧
      mem.length = S.length ∧ mem[0]? = S[0]? ∧
      (∀ i, 0 < i → i < S.length →
        ∃ x p, S[i]? = some x ∧ S[i - 1]? = some p ∧ mem[i]? = some (op x p)) ∧
      (∀ (k : Nat) (rg : index_range), decomp[k]? = some rg → k + 1 < decomp.length →
        carry[k]? = S[rg.end_ - 1]?) ∧
      ∀ result : List α, result.length = S.length →
        ∃ r, adjacent_difference S result op decomp L fuel = some r ∧
          r.output = mem ∧ r.temp = carry := by
  have hN : 0 < S.length := List.length_pos.2 hS
  have hsd := seeded_of_legal hd
  obtain ⟨idxs, temp, hidxs, htemp, _, htlen, hext⟩ := extractor_spec S decomp hsd
  have htemp2 : ∀ (k : Nat) (rg : index_range), decomp[k]? = some rg →
      k + 1 < decomp.length → temp[k]? = S[rg.end_ - 1]? :=
    fun k rg hrg hk => (hext k rg hrg hk).2.2.2
  obtain ⟨mem, hrun, hlen, hget⟩ :=
    run_blocks_spec S temp op decomp L fuel laneOrder hL hd hfuel hlanes htemp2 blockOrder S
      (hblocks.nodup_iff.2 (List.nodup_range _))
      (fun k hk => List.mem_range.1 (hblocks.mem_iff.1 hk)) rfl
      (by
        intro k rg hrg p _ _
        have hk := getElem?_lt_length hrg
        rw [if_pos (hblocks.mem_iff.2 (List.mem_range.2 hk))])
  have hall : ∀ p, p < S.length → mem[p]? = sequential_definition S op p := by
    intro p hp
    obtain ⟨k, rg, hrg, hp1, hp2⟩ := chain_cover p decomp 0 hd.1.2 (Nat.zero_le _) hp
    exact hget k rg hrg p hp1 hp2
  refine ⟨temp, mem, ?_, hlen, ?_, ?_, htemp2, ?_⟩
  · have hn : S.length ≠ 0 := by omega
    have hm : decomp.length ≠ 0 := by
      have := seeded_length_pos hsd
      omega
    simp only [adjacent_difference_inplace, if_neg hn, if_neg hm, hidxs, htemp, hrun]
  · have := hall 0 hN
    simpa [sequential_definition] using this
  · intro i h0 hi
    obtain ⟨x, p, hx, hp, hseq⟩ := sequential_definition_pos S op i h0 hi
    exact ⟨x, p, hx, hp, by rw [hall i hi, hseq]⟩
  · intro result hres
    obtain ⟨idxs2, temp2, output, hrun2, ⟨_, htlen2, hext2⟩, _, _, _, holen, hoget⟩ :=
      adjacent_difference_spec S result op decomp L fuel hN hsd hL (by omega) (by omega)
    refine ⟨_, hrun2, ?_, ?_⟩
    · show output = mem
      apply List.ext_getElem?
      intro i
      rw [hoget i]
      by_cases hi : i < S.length
      · rw [if_pos hi, hall i hi]
      · rw [if_neg hi, List.getElem?_eq_none (by omega), List.getElem?_eq_none (by omega)]
    · show temp2 = temp
      apply List.ext_getElem?
      intro i
      by_cases hi : i + 1 < decomp.length
      · have hrg : decomp[i]? = some decomp[i] := List.getElem?_eq_getElem (by omega)
        rw [(hext2 i decomp[i] hrg hi).2.2.2, htemp2 i decomp[i] hrg hi]
      · rw [List.getElem?_eq_none (by omega), List.getElem?_eq_none (by omega)]

theorem in_place_operation_witness :
    ∃ carry mem,
      adjacent_difference_inplace [(4 : Int), 8, 15, 16, 23] (fun a b => a - b)
        [index_range.mk 0 2, index_range.mk 2 5] 2 6 [1, 0] (fun _ _ => [1, 0]) =
        some (carry, mem) ∧
      mem.length = [(4 : Int), 8, 15, 16, 23].length ∧
      mem[0]? = [(4 : Int), 8, 15, 16, 23][0]? ∧
      (∀ i, 0 < i → i < [(4 : Int), 8, 15, 16, 23].length →
        ∃ x p, [(4 : Int), 8, 15, 16, 23][i]? = some x ∧
          [(4 : Int), 8, 15, 16, 23][i - 1]? = some p ∧ mem[i]? = some (x - p)) ∧
      (∀ (k : Nat) (rg : index_range),
        [index_range.mk 0 2, index_range.mk 2 5][k]? = some rg →
        k + 1 < [index_range.mk 0 2, index_range.mk 2 5].length →
        carry[k]? = [(4 : Int), 8, 15, 16, 23][rg.end_ - 1]?) ∧
      ∀ result : List Int, result.length = [(4 : Int), 8, 15, 16, 23].length →
        ∃ r, adjacent_difference [(4 : Int), 8, 15, 16, 23] result (fun a b => a - b)
            [index_range.mk 0 2, index_range.mk 2 5] 2 6 = some r ∧
          r.output = mem ∧ r.temp = carry :=
  in_place_operation [(4 : Int), 8, 15, 16, 23] (fun a b => a - b)
    [index_range.mk 0 2, index_range.mk 2 5] 2 6 [1, 0] (fun _ _ => [1, 0])
    (by decide) (by decide) (by decide) (by decide) (by decide)
    (fun _ _ => (by decide : [1, 0].Perm (List.range 2)))

end AdjacentDifference

namespace HighResClock

theorem wrap64_of_isInt64 (x : Int) (h : isInt64 x) : wrap64 x = x := by
  unfold isInt64 at h
  unfold wrap64
  omega

theorem isInt64_wrap64 (x : Int) : isInt64 (wrap64 x) := by
  unfold isInt64 wrap64
  omega

/-- Without overflow of `count * 10^9` the timestamp is monotone in the counter reading. -/
theorem now_monotone_of_no_overflow (c1 c2 f : Int) (h0 : 0 ≤ c1) (h12 : c1 ≤ c2)
    (hno : c2 * period_den < 9223372036854775808) (hf : 0 < f) :
    ∃ t1 t2, now c1 f = some t1 ∧ now c2 f = some t2 ∧ t1 ≤ t2 := by
  have hp1 : 0 ≤ c1 * period_den := by unfold period_den; omega
  have hp12 : c1 * period_den ≤ c2 * period_den := by unfold period_den; omega
  have hw1 : wrap64 (c1 * period_den) = c1 * period_den :=
    wrap64_of_isInt64 _ ⟨by omega, by omega⟩
  have hw2 : wrap64 (c2 * period_den) = c2 * period_den :=
    wrap64_of_isInt64 _ ⟨by omega, by omega⟩
  have hf0 : f ≠ 0 := by omega
  have hf1 : f ≠ -1 := by omega
  refine ⟨Int.tdiv (c1 * period_den) f, Int.tdiv (c2 * period_den) f, ?_, ?_, ?_⟩
  · simp [now, div64, hw1, hf0, hf1]
  · simp [now, div64, hw2, hf0, hf1]
  · rw [Int.tdiv_eq_ediv hp1 (le_of_lt hf), Int.tdiv_eq_ediv (le_trans hp1 hp12) (le_of_lt hf)]
    exact Int.ediv_le_ediv hf hp12

/-- C11, clock monotonicity, at a failing input: with the frequency 10 MHz the counter readings
`9223372036 ≤ 9223372037` (non-negative, 64-bit) give the timestamps `922337203600` and
`-922337203670`: the product `count * 10^9` leaves the 64-bit range at the second reading, so
the later reading has the smaller timestamp. -/
theorem now_not_monotone :
    isInt64 9223372036 ∧ isInt64 9223372037 ∧ (0 : Int) ≤ 9223372036 ∧
    (9223372036 : Int) ≤ 9223372037 ∧ (0 : Int) < 10000000 ∧
    now 9223372036 10000000 = some 922337203600 ∧
    now 9223372037 10000000 = some (-922337203670) ∧
    ¬ ((922337203600 : Int) ≤ -922337203670) := by
  decide

/-- C12 as amended, elapsed time: for every pair of 64-bit nanosecond timestamps whose exact
difference `end - start` is representable in 64 bits, `diffNano` is the exact difference and
`diffMilli` is the exact difference divided by 1,000,000, truncated toward zero. -/
theorem diff_exact (start end_ : Int) (_hs : isInt64 start) (_he : isInt64 end_)
    (hd : isInt64 (end_ - start)) :
    diffNano start end_ = end_ - start ∧
    diffMilli start end_ = Int.tdiv (end_ - start) 1000000 := by
  have hw := wrap64_of_isInt64 _ hd
  exact ⟨by simp [diffNano, elapsed, hw], by simp [diffMilli, elapsed, hw]⟩

theorem diff_exact_witness :
    diffNano 5000000123 2999999000 = 2999999000 - 5000000123 ∧
    diffMilli 5000000123 2999999000 = Int.tdiv (2999999000 - 5000000123) 1000000 :=
  diff_exact 5000000123 2999999000 (by decide) (by decide) (by decide)

/-- C12 as stated fails: the timestamps `start = -1` and `end = 2^63 - 1` are 64-bit values,
their exact difference is `2^63`, and the 64-bit subtraction gives `-2^63`. -/
theorem diff_exact_counterexample :
    isInt64 (-1) ∧ isInt64 9223372036854775807 ∧
    (9223372036854775807 : Int) - (-1) = 9223372036854775808 ∧
    diffNano (-1) 9223372036854775807 = -9223372036854775808 ∧
    diffNano (-1) 9223372036854775807 ≠ 9223372036854775807 - (-1) ∧
    diffMilli (-1) 9223372036854775807 ≠
      Int.tdiv (9223372036854775807 - (-1)) 1000000 := by
  decide

/-- C13 as amended, the timestamp computation is defined for a frequency other than zero: for
every 64-bit counter reading and every 64-bit frequency value other than 0, leaving out the
frequency `-1` when the 64-bit product is `-2^63`, `now` yields a 64-bit timestamp. -/
theorem now_defined (count frequency : Int) (hf : isInt64 frequency) (h0 : frequency ≠ 0)
    (h1 : ¬ (wrap64 (count * period_den) = -9223372036854775808 ∧ frequency = -1)) :
    ∃ t, now count frequency = some t ∧ isInt64 t := by
  refine ⟨Int.tdiv (wrap64 (count * period_den)) frequency, ?_, ?_⟩
  · unfold now div64
    rw [if_neg h0, if_neg h1]
  · have ha := isInt64_wrap64 (count * period_den)
    generalize wrap64 (count * period_den) = a at ha h1
    have habs := Int.natAbs_tdiv a frequency
    have hle : (a.tdiv frequency).natAbs ≤ a.natAbs := by
      rw [habs]
      exact Nat.div_le_self _ _
    unfold isInt64 at ha hf ⊢
    by_cases hmin : a = -9223372036854775808
    · by_cases hone : frequency = 1
      · subst hone
        rw [Int.tdiv_one]
        exact ha
      · have hm1 : frequency ≠ -1 := fun h => h1 ⟨hmin, h⟩
        have h2 : 2 ≤ frequency.natAbs := by omega
        have hhalf : (a.tdiv frequency).natAbs ≤ a.natAbs / 2 := by
          rw [habs]
          exact Nat.div_le_div_left h2 (by decide)
        omega
    · omega

theorem now_defined_witness :
    ∃ t, now 9223372037 10000000 = some t ∧ isInt64 t :=
  now_defined 9223372037 10000000 (by decide) (by decide) (by decide)

/-- C13 as stated fails: with the frequency value 0 the division of `now` has a zero divisor,
a fault, for every counter reading, here the reading 1; also the reading `2^54` with the
frequency `-1` divides `-2^63` by `-1`. -/
theorem now_defined_counterexample :
    isInt64 1 ∧ isInt64 0 ∧ now 1 0 = none ∧
    isInt64 18014398509481984 ∧ isInt64 (-1) ∧ now 18014398509481984 (-1) = none := by
  decide

end HighResClock
